import Mathlib

/-!
# Verification of the interval-ops abstract interpretation engine

This development embeds the interval-set transfer functions of
`xls/ir/interval_ops.cc` (src/unnamed/part_004) in Lean 4 and proves the
frozen claims about them.  Bit vectors of width `w` are modelled as
natural numbers `< 2^w`.  The supporting data structures (`IntervalSet`,
`Bits`, ternary vectors) are declared in headers that are not part of the
source snapshot, so they are modelled from the specification (spec.md §3,
§4.1, §3.4); every definition translated from `interval_ops.cc` itself
follows the C++ line by line.
-/

set_option maxRecDepth 4000

namespace IntervalOps

/-- A closed interval `[lo, hi]` of a fixed bit width (spec §3.2).  An
interval with `lo > hi` is *improper* and denotes the wrap-around set. -/
structure Iv where
  lo : Nat
  hi : Nat
deriving DecidableEq, Repr

/-- Modelled from the spec: an interval set is a width-tagged list of
intervals (spec §3.3); the `IntervalSet` class itself is not in src/. -/
structure IntervalSet where
  width : Nat
  ivals : List Iv
deriving DecidableEq, Repr

/-- Containment in a single interval; improper intervals denote the
wrap-around set (spec §3.2). -/
def Iv.coversB (i : Iv) (v : Nat) : Bool :=
  if i.lo ≤ i.hi then decide (i.lo ≤ v) && decide (v ≤ i.hi)
  else decide (i.lo ≤ v) || decide (v ≤ i.hi)

/-- Containment in an interval set: `v` is covered by some interval. -/
def IntervalSet.coversB (s : IntervalSet) (v : Nat) : Bool :=
  s.ivals.any (fun i => i.coversB v)

/-- All interval bounds fit in the tagged width (the `Bits` invariant,
spec §3.1). -/
def wfList (w : Nat) (l : List Iv) : Prop :=
  ∀ i ∈ l, i.lo < 2 ^ w ∧ i.hi < 2 ^ w

/-- Well-formedness of an interval set: bounds fit in the width. -/
def IntervalSet.wf (s : IntervalSet) : Prop :=
  wfList s.width s.ivals

instance (w : Nat) (l : List Iv) : Decidable (wfList w l) :=
  inferInstanceAs (Decidable (∀ i ∈ l, i.lo < 2 ^ w ∧ i.hi < 2 ^ w))

instance (s : IntervalSet) : Decidable s.wf :=
  inferInstanceAs (Decidable (wfList s.width s.ivals))

/-- Modelled from the spec: normalization step 1 (spec §4.1) splits an
improper interval `[lo, hi]` into `[lo, MAX]` and `[0, hi]`. -/
def splitIv (w : Nat) (i : Iv) : List Iv :=
  if i.lo ≤ i.hi then [i] else [⟨i.lo, 2 ^ w - 1⟩, ⟨0, i.hi⟩]

/-- Lexicographic order on intervals by `lo` then `hi` (spec §3.2). -/
def ivleR (a b : Iv) : Prop :=
  a.lo < b.lo ∨ (a.lo = b.lo ∧ a.hi ≤ b.hi)

instance : DecidableRel ivleR := fun a b =>
  inferInstanceAs (Decidable (a.lo < b.lo ∨ (a.lo = b.lo ∧ a.hi ≤ b.hi)))

instance : IsTotal Iv ivleR := by
  constructor; intro a b; unfold ivleR; omega

instance : IsTrans Iv ivleR := by
  constructor; intro a b c; unfold ivleR; omega

/-- Modelled from the spec: normalization step 2 (spec §4.1) sorts the
intervals by `lo` (then `hi`). -/
def sortIvs (l : List Iv) : List Iv := l.insertionSort ivleR

/-- Modelled from the spec: normalization step 3 (spec §4.1): one sweep
merging overlapping or adjacent intervals. -/
def mergePass : List Iv → List Iv
  | [] => []
  | [a] => [a]
  | a :: b :: r =>
      if b.lo ≤ a.hi + 1 then mergePass (⟨a.lo, max a.hi b.hi⟩ :: r)
      else a :: mergePass (b :: r)
termination_by l => l.length

/-- Modelled from the spec: `IntervalSet::Normalize` (spec §4.1; the
class body is not in src/): split improper intervals, sort, sweep-merge. -/
def IntervalSet.normalize (s : IntervalSet) : IntervalSet :=
  ⟨s.width, mergePass (sortIvs (s.ivals.flatMap (splitIv s.width)))⟩

/-- All intervals proper (`lo ≤ hi`). -/
def properList (l : List Iv) : Prop := ∀ i ∈ l, i.lo ≤ i.hi

instance (l : List Iv) : Decidable (properList l) :=
  inferInstanceAs (Decidable (∀ i ∈ l, i.lo ≤ i.hi))

/-- Consecutive intervals are separated by a gap of at least one value:
sorted, disjoint and non-adjacent (spec §3.3 invariants 3 and 4). -/
def sepChain (l : List Iv) : Prop := List.Chain' (fun a b => a.hi + 1 < b.lo) l

/-- The canonical-form invariant of spec §3.3. -/
def NormalizedList (l : List Iv) : Prop := properList l ∧ sepChain l

/-- A normalized interval set (spec §3.3). -/
def IntervalSet.Normalized (s : IntervalSet) : Prop := NormalizedList s.ivals

/-- Boolean decision procedure for `sepChain`. -/
def sepChainB : List Iv → Bool
  | [] => true
  | [_] => true
  | a :: b :: r => decide (a.hi + 1 < b.lo) && sepChainB (b :: r)

theorem sepChainB_iff : ∀ l : List Iv, sepChain l ↔ sepChainB l = true
  | [] => by simp [sepChain, sepChainB]
  | [a] => by simp [sepChain, sepChainB]
  | a :: b :: r => by
    have ih := sepChainB_iff (b :: r)
    rw [sepChain] at ih
    rw [sepChain, List.chain'_cons, sepChainB, Bool.and_eq_true,
      decide_eq_true_iff, ih]

instance (l : List Iv) : Decidable (sepChain l) :=
  decidable_of_iff (sepChainB l = true) (sepChainB_iff l).symm

instance (l : List Iv) : Decidable (NormalizedList l) :=
  inferInstanceAs (Decidable (properList l ∧ sepChain l))

instance (s : IntervalSet) : Decidable s.Normalized :=
  inferInstanceAs (Decidable (NormalizedList s.ivals))

/-! ## Lemmas about normalization -/

theorem any_eq_of_perm {p : Iv → Bool} {l₁ l₂ : List Iv}
    (h : l₁.Perm l₂) : l₁.any p = l₂.any p := by
  induction h with
  | nil => rfl
  | cons a _ ih => simp [List.any_cons, ih]
  | swap a b l => simp [List.any_cons]; rw [← Bool.or_assoc, Bool.or_comm (p b) (p a), Bool.or_assoc]
  | trans _ _ ih₁ ih₂ => rw [ih₁, ih₂]

theorem splitIv_covers {w : Nat} {i : Iv} {v : Nat}
    (hlo : i.lo < 2 ^ w) (hv : v < 2 ^ w) :
    (splitIv w i).any (fun j => j.coversB v) = i.coversB v := by
  unfold splitIv Iv.coversB
  by_cases h : i.lo ≤ i.hi
  · simp only [if_pos h, List.any_cons, List.any_nil, Bool.or_false]
  · simp only [if_neg h, List.any_cons, List.any_nil]
    have h1 : i.lo ≤ 2 ^ w - 1 := by omega
    have h2 : (0 : Nat) ≤ i.hi := Nat.zero_le _
    simp only [if_neg h, if_pos h1, if_pos h2]
    have hv1 : v ≤ 2 ^ w - 1 := by omega
    have h3 : (decide (v ≤ 2 ^ w - 1)) = true := by simpa using hv1
    have h4 : (decide (0 ≤ v)) = true := by simp
    simp [h3, h4]

theorem covers_merge {a b : Iv} {v : Nat}
    (ha : a.lo ≤ a.hi) (hb : b.lo ≤ b.hi) (hab : a.lo ≤ b.lo)
    (hadj : b.lo ≤ a.hi + 1) :
    (Iv.coversB ⟨a.lo, max a.hi b.hi⟩ v) = (a.coversB v || b.coversB v) := by
  unfold Iv.coversB
  simp only
  have h1 : a.lo ≤ max a.hi b.hi := le_trans ha (le_max_left _ _)
  simp only [if_pos h1, if_pos ha, if_pos hb, decide_eq_true_eq]
  by_cases hc : a.lo ≤ v <;> by_cases hd : v ≤ a.hi <;>
    by_cases he : b.lo ≤ v <;> by_cases hf : v ≤ b.hi <;>
    simp [hc, hd, he, hf] <;> omega

/-- Relation used for the sweep invariant: lower bounds are
non-decreasing. -/
def loLe (a b : Iv) : Prop := a.lo ≤ b.lo

theorem mergePass_covers {v : Nat} :
    ∀ l : List Iv, properList l → List.Chain' loLe l →
    (mergePass l).any (fun i => i.coversB v) = l.any (fun i => i.coversB v) := by
  intro l
  induction l using mergePass.induct with
  | case1 => intro _ _; simp [mergePass]
  | case2 a => intro _ _; simp [mergePass]
  | case3 a b r hadj ih =>
      intro hp hc
      have ha : a.lo ≤ a.hi := hp a (by simp)
      have hb : b.lo ≤ b.hi := hp b (by simp)
      have hab : a.lo ≤ b.lo := (List.chain'_cons.mp hc).1
      rw [mergePass, if_pos hadj]
      have hcr : List.Chain' loLe (b :: r) := (List.chain'_cons.mp hc).2
      have hp2 : properList (⟨a.lo, max a.hi b.hi⟩ :: r) := by
        intro i hi
        rcases List.mem_cons.mp hi with h | h
        · subst h; exact le_trans ha (le_max_left _ _)
        · exact hp i (by simp [h])
      have hc2 : List.Chain' loLe (⟨a.lo, max a.hi b.hi⟩ :: r) := by
        rcases r with _ | ⟨c, r⟩
        · simp
        · refine List.chain'_cons.mpr ⟨?_, (List.chain'_cons.mp hcr).2⟩
          have hbc : b.lo ≤ c.lo := (List.chain'_cons.mp hcr).1
          exact le_trans hab hbc
      rw [ih hp2 hc2]
      simp only [List.any_cons]
      rw [covers_merge ha hb hab hadj]
      rw [Bool.or_assoc]
  | case4 a b r hadj ih =>
      intro hp hc
      rw [mergePass, if_neg hadj]
      simp only [List.any_cons]
      have hp2 : properList (b :: r) := by
        intro i hi; exact hp i (by simp [List.mem_cons.mp hi])
      rw [ih hp2 (List.chain'_cons.mp hc).2]
      simp [List.any_cons]

theorem properList_of_perm {l₁ l₂ : List Iv} (h : l₁.Perm l₂)
    (hp : properList l₁) : properList l₂ := by
  intro i hi; exact hp i (h.mem_iff.mpr hi)

theorem wfList_of_perm {w : Nat} {l₁ l₂ : List Iv} (h : l₁.Perm l₂)
    (hp : wfList w l₁) : wfList w l₂ := by
  intro i hi; exact hp i (h.mem_iff.mpr hi)

theorem properList_split {w : Nat} {l : List Iv} (hw : wfList w l) :
    properList (l.flatMap (splitIv w)) := by
  intro i hi
  rcases List.mem_flatMap.mp hi with ⟨j, hj, hij⟩
  unfold splitIv at hij
  by_cases h : j.lo ≤ j.hi
  · simp [h] at hij; subst hij; exact h
  · simp [h] at hij
    have := hw j hj
    rcases hij with h1 | h1 <;> subst h1 <;> simp <;> omega

theorem wfList_split {w : Nat} {l : List Iv} (hw : wfList w l) :
    wfList w (l.flatMap (splitIv w)) := by
  intro i hi
  rcases List.mem_flatMap.mp hi with ⟨j, hj, hij⟩
  unfold splitIv at hij
  have hjw := hw j hj
  by_cases h : j.lo ≤ j.hi
  · simp [h] at hij; subst hij; exact hjw
  · simp [h] at hij
    have h1 : (1 : Nat) ≤ 2 ^ w := Nat.one_le_two_pow
    rcases hij with h2 | h2 <;> subst h2 <;> constructor <;> simp <;> omega

theorem any_split {w : Nat} {l : List Iv} {v : Nat}
    (hw : wfList w l) (hv : v < 2 ^ w) :
    (l.flatMap (splitIv w)).any (fun i => i.coversB v) =
      l.any (fun i => i.coversB v) := by
  induction l with
  | nil => rfl
  | cons a t ih =>
      have haw := hw a (by simp)
      have hwt : wfList w t := fun i hi => hw i (by simp [hi])
      simp only [List.flatMap_cons, List.any_append, List.any_cons]
      rw [ih hwt, splitIv_covers haw.1 hv]

theorem sorted_loLe_chain {l : List Iv} (h : l.Sorted ivleR) :
    List.Chain' loLe l := by
  have : l.Pairwise loLe := by
    refine h.imp ?_
    intro a b hab
    unfold ivleR at hab; unfold loLe; omega
  exact this.chain'

/-- The central semantic fact about normalization: it preserves the set
of covered values (spec §4.1, unique canonical form for the represented
value set). -/
theorem normalize_covers {s : IntervalSet} {v : Nat}
    (hw : s.wf) (hv : v < 2 ^ s.width) :
    s.normalize.coversB v = s.coversB v := by
  unfold IntervalSet.normalize IntervalSet.coversB
  simp only
  have hperm := List.perm_insertionSort ivleR (s.ivals.flatMap (splitIv s.width))
  have hps : properList (sortIvs (s.ivals.flatMap (splitIv s.width))) :=
    properList_of_perm hperm.symm (properList_split hw)
  have hchain : List.Chain' loLe (sortIvs (s.ivals.flatMap (splitIv s.width))) :=
    sorted_loLe_chain (List.sorted_insertionSort ivleR _)
  rw [mergePass_covers _ hps hchain]
  unfold sortIvs
  rw [any_eq_of_perm hperm]
  exact any_split hw hv

theorem mergePass_proper : ∀ l : List Iv, properList l →
    properList (mergePass l) := by
  intro l
  induction l using mergePass.induct with
  | case1 => intro _; simpa [mergePass] using (fun i h => (List.not_mem_nil i h).elim)
  | case2 a => intro hp; simpa [mergePass] using hp
  | case3 a b r hadj ih =>
      intro hp
      rw [mergePass, if_pos hadj]
      refine ih ?_
      intro i hi
      rcases List.mem_cons.mp hi with h | h
      · subst h; exact le_trans (hp a (by simp)) (le_max_left _ _)
      · exact hp i (by simp [h])
  | case4 a b r hadj ih =>
      intro hp
      rw [mergePass, if_neg hadj]
      intro i hi
      rcases List.mem_cons.mp hi with h | h
      · rw [h]; exact hp a (by simp)
      · exact ih (fun j hj => hp j (by simp [List.mem_cons.mp hj])) i h

theorem mergePass_cons_head (a : Iv) (r : List Iv) :
    ∃ hh tt, mergePass (a :: r) = Iv.mk a.lo hh :: tt := by
  induction r generalizing a with
  | nil => exact ⟨a.hi, [], by simp [mergePass]⟩
  | cons b r ih =>
      by_cases hadj : b.lo ≤ a.hi + 1
      · rw [mergePass, if_pos hadj]
        exact ih ⟨a.lo, max a.hi b.hi⟩
      · rw [mergePass, if_neg hadj]
        exact ⟨a.hi, mergePass (b :: r), rfl⟩

theorem mergePass_sep : ∀ l : List Iv, properList l → List.Chain' loLe l →
    sepChain (mergePass l) := by
  intro l
  induction l using mergePass.induct with
  | case1 => intro _ _; simp [mergePass, sepChain]
  | case2 a => intro _ _; simp [mergePass, sepChain]
  | case3 a b r hadj ih =>
      intro hp hc
      rw [mergePass, if_pos hadj]
      have ha : a.lo ≤ a.hi := hp a (by simp)
      have hab : a.lo ≤ b.lo := (List.chain'_cons.mp hc).1
      have hcr : List.Chain' loLe (b :: r) := (List.chain'_cons.mp hc).2
      refine ih ?_ ?_
      · intro i hi
        rcases List.mem_cons.mp hi with h | h
        · subst h; exact le_trans ha (le_max_left _ _)
        · exact hp i (by simp [h])
      · rcases r with _ | ⟨c, r⟩
        · simp
        · exact List.chain'_cons.mpr
            ⟨le_trans hab (List.chain'_cons.mp hcr).1, (List.chain'_cons.mp hcr).2⟩
  | case4 a b r hadj ih =>
      intro hp hc
      rw [mergePass, if_neg hadj]
      have hrest : sepChain (mergePass (b :: r)) :=
        ih (fun j hj => hp j (by simp [List.mem_cons.mp hj])) (List.chain'_cons.mp hc).2
      rcases mergePass_cons_head b r with ⟨hh, tt, heq⟩
      unfold sepChain at hrest ⊢
      rw [heq] at hrest ⊢
      exact List.chain'_cons.mpr ⟨by simp; omega, hrest⟩

theorem mergePass_wf {w : Nat} : ∀ l : List Iv, wfList w l →
    wfList w (mergePass l) := by
  intro l
  induction l using mergePass.induct with
  | case1 => intro _ i hi; simp [mergePass] at hi
  | case2 a => intro hw; simpa [mergePass] using hw
  | case3 a b r hadj ih =>
      intro hw
      rw [mergePass, if_pos hadj]
      refine ih ?_
      intro i hi
      rcases List.mem_cons.mp hi with h | h
      · subst h
        have h1 := hw a (by simp)
        have h2 := hw b (by simp)
        constructor
        · exact h1.1
        · simp only [Nat.max_lt]; exact ⟨h1.2, h2.2⟩
      · exact hw i (by simp [h])
  | case4 a b r hadj ih =>
      intro hw
      rw [mergePass, if_neg hadj]
      intro i hi
      rcases List.mem_cons.mp hi with h | h
      · rw [h]; exact hw a (by simp)
      · exact ih (fun j hj => hw j (by simp [List.mem_cons.mp hj])) i h

/-- Normalization establishes all the canonical-form invariants of
spec §3.3. -/
theorem normalize_normalized {s : IntervalSet} (hw : s.wf) :
    s.normalize.Normalized := by
  unfold IntervalSet.normalize IntervalSet.Normalized NormalizedList
  have hperm := List.perm_insertionSort ivleR (s.ivals.flatMap (splitIv s.width))
  have hps : properList ((s.ivals.flatMap (splitIv s.width)).insertionSort ivleR) :=
    properList_of_perm hperm.symm (properList_split hw)
  have hchain : List.Chain' loLe ((s.ivals.flatMap (splitIv s.width)).insertionSort ivleR) :=
    sorted_loLe_chain (List.sorted_insertionSort ivleR _)
  exact ⟨mergePass_proper _ hps, mergePass_sep _ hps hchain⟩

theorem normalize_wf {s : IntervalSet} (hw : s.wf) :
    s.normalize.wf := by
  unfold IntervalSet.normalize IntervalSet.wf
  have hperm := List.perm_insertionSort ivleR (s.ivals.flatMap (splitIv s.width))
  exact mergePass_wf _ (wfList_of_perm hperm.symm (wfList_split hw))

theorem normalize_width {s : IntervalSet} : s.normalize.width = s.width := rfl

theorem normalized_pairwise : ∀ l : List Iv, properList l → sepChain l →
    l.Pairwise (fun x y => x.hi + 1 < y.lo) := by
  intro l
  induction l with
  | nil => intro _ _; exact List.Pairwise.nil
  | cons a t ih =>
      intro hp hc
      have hpt : properList t := fun i hi => hp i (by simp [hi])
      have hct : sepChain t := (List.chain'_cons'.mp hc).2
      have iht := ih hpt hct
      refine List.pairwise_cons.mpr ⟨?_, iht⟩
      intro b hb
      rcases t with _ | ⟨c, t'⟩
      · simp at hb
      · have hac : a.hi + 1 < c.lo := (List.chain'_cons.mp hc).1
        rcases List.mem_cons.mp hb with h | h
        · subst h; exact hac
        · have hcb : c.hi + 1 < b.lo := (List.pairwise_cons.mp iht).1 b h
          have hcp : c.lo ≤ c.hi := hp c (by simp)
          omega

theorem normalized_sorted {l : List Iv} (hp : properList l) (hc : sepChain l) :
    l.Sorted ivleR := by
  have h := normalized_pairwise l hp hc
  refine h.imp_of_mem ?_
  intro a b ha _ hab
  have := hp a ha
  unfold ivleR
  omega

theorem flatMap_splitIv_id {w : Nat} : ∀ l : List Iv, properList l →
    l.flatMap (splitIv w) = l := by
  intro l
  induction l with
  | nil => simp
  | cons a t ih =>
      intro hp
      have ha : a.lo ≤ a.hi := hp a (by simp)
      simp only [List.flatMap_cons]
      rw [ih (fun i hi => hp i (by simp [hi]))]
      unfold splitIv
      rw [if_pos ha]
      rfl

theorem mergePass_id_of_sep : ∀ l : List Iv, sepChain l → mergePass l = l := by
  intro l
  induction l using mergePass.induct with
  | case1 => intro _; simp [mergePass]
  | case2 a => intro _; simp [mergePass]
  | case3 a b r hadj _ =>
      intro hc
      have : a.hi + 1 < b.lo := (List.chain'_cons.mp hc).1
      omega
  | case4 a b r hadj ih =>
      intro hc
      rw [mergePass, if_neg hadj]
      rw [ih (List.chain'_cons.mp hc).2]

/-- Normalization is the identity on sets that already satisfy the
canonical-form invariants (spec §4.1: idempotent). -/
theorem normalize_eq_self {s : IntervalSet} (hn : s.Normalized) :
    s.normalize = s := by
  unfold IntervalSet.normalize sortIvs
  rcases hn with ⟨hp, hc⟩
  rw [flatMap_splitIv_id s.ivals hp]
  rw [List.Sorted.insertionSort_eq (normalized_sorted hp hc)]
  rw [mergePass_id_of_sep s.ivals hc]

theorem mergePass_len_le : ∀ l : List Iv, (mergePass l).length ≤ l.length := by
  intro l
  induction l using mergePass.induct with
  | case1 => simp [mergePass]
  | case2 a => simp [mergePass]
  | case3 a b r hadj ih =>
      rw [mergePass, if_pos hadj]
      refine le_trans ih ?_
      simp
  | case4 a b r hadj ih =>
      rw [mergePass, if_neg hadj]
      simpa using ih

theorem normalize_len_le {s : IntervalSet} (hp : properList s.ivals) :
    s.normalize.ivals.length ≤ s.ivals.length := by
  unfold IntervalSet.normalize
  simp only
  rw [flatMap_splitIv_id s.ivals hp]
  refine le_trans (mergePass_len_le _) ?_
  exact le_of_eq (List.perm_insertionSort ivleR s.ivals).length_eq

/-! ## Constructors, derived queries and set algebra (modelled from spec §3.3) -/

/-- Modelled from the spec: `IntervalSet::Precise(v)` is `{[v,v]}`. -/
def IntervalSet.precise (w v : Nat) : IntervalSet := ⟨w, [⟨v, v⟩]⟩

/-- Modelled from the spec: `IntervalSet::Maximal(w)` is `{[0, 2^w-1]}`. -/
def IntervalSet.maximal (w : Nat) : IntervalSet := ⟨w, [⟨0, 2 ^ w - 1⟩]⟩

/-- Modelled from the spec: `IntervalSet::NonZero(w)` is `{[1, 2^w-1]}`. -/
def IntervalSet.nonZero (w : Nat) : IntervalSet := ⟨w, [⟨1, 2 ^ w - 1⟩]⟩

/-- Modelled from the spec: the empty interval set of width `w`. -/
def IntervalSet.empty (w : Nat) : IntervalSet := ⟨w, []⟩

/-- Modelled from the spec: `is_precise` holds iff the set is a single
one-element interval (spec §3.3). -/
def IntervalSet.isPrecise (s : IntervalSet) : Bool :=
  match s.ivals with
  | [i] => i.lo == i.hi
  | _ => false

/-- Modelled from the spec: `get_precise_value` (spec §3.3). -/
def IntervalSet.getPreciseValue (s : IntervalSet) : Option Nat :=
  match s.ivals with
  | [i] => if i.lo == i.hi then some i.lo else none
  | _ => none

/-- `covers_zero` (spec §3.3). -/
def IntervalSet.coversZero (s : IntervalSet) : Bool := s.coversB 0

/-- `covers_max` (spec §3.3). -/
def IntervalSet.coversMax (s : IntervalSet) : Bool := s.coversB (2 ^ s.width - 1)

/-- Modelled from the spec: `lower_bound`, the least value of any
interval (spec §3.3). -/
def IntervalSet.lowerBound (s : IntervalSet) : Option Nat :=
  s.ivals.foldr (fun i acc =>
    match acc with
    | none => some i.lo
    | some m => some (min i.lo m)) none

/-- Modelled from the spec: `upper_bound`, the greatest value of any
interval (spec §3.3). -/
def IntervalSet.upperBound (s : IntervalSet) : Option Nat :=
  s.ivals.foldr (fun i acc =>
    match acc with
    | none => some i.hi
    | some m => some (max i.hi m)) none

/-- Modelled from the spec: `convex_hull`, the smallest enclosing
interval, empty iff the set is empty (spec §3.3). -/
def IntervalSet.convexHull (s : IntervalSet) : Option Iv :=
  s.ivals.foldr (fun i acc =>
    match acc with
    | none => some i
    | some j => some ⟨min i.lo j.lo, max i.hi j.hi⟩) none

/-- Intersection of two proper intervals, when non-empty. -/
def intersectIv (i j : Iv) : Option Iv :=
  if max i.lo j.lo ≤ min i.hi j.hi then some ⟨max i.lo j.lo, min i.hi j.hi⟩
  else none

/-- Modelled from the spec: set-algebra `Intersect` (spec §3.3),
pairwise interval intersection followed by normalization. -/
def IntervalSet.intersect (a b : IntervalSet) : IntervalSet :=
  IntervalSet.normalize
    ⟨a.width, a.ivals.flatMap (fun i => b.ivals.filterMap (fun j => intersectIv i j))⟩

/-- Modelled from the spec: set-algebra `Combine` is union followed by
normalization (spec §3.3). -/
def IntervalSet.combine (a b : IntervalSet) : IntervalSet :=
  IntervalSet.normalize ⟨a.width, a.ivals ++ b.ivals⟩

/-- Modelled from the spec: set-algebra `Disjoint`: the two sets share
no value (spec §3.3). -/
def IntervalSet.disjointS (a b : IntervalSet) : Bool :=
  (IntervalSet.intersect a b).ivals.isEmpty

/-- `Interval::Disjoint` on proper intervals (spec §3.2). -/
def ivDisjoint (i j : Iv) : Bool :=
  decide (i.hi < j.lo) || decide (j.hi < i.lo)

/-- `Interval` comparison, lexicographic by `lo` then `hi` (spec §3.2). -/
def ivLt (i j : Iv) : Bool :=
  decide (i.lo < j.lo) || (decide (i.lo = j.lo) && decide (i.hi < j.hi))

/-! ## MinimizeIntervals (translated from interval_ops.cc) -/

/-- Wrap-around subtraction at width `w` (`bits_ops::Sub`). -/
def wrapSub (w x y : Nat) : Nat := (x + (2 ^ w - y % 2 ^ w)) % 2 ^ w

/-- A merge-list node: the current interval and the (immutable) gap to
its predecessor, mirroring `MergeInterval` in interval_ops.cc. -/
structure MNode where
  iv : Iv
  gap : Nat
deriving DecidableEq, Repr

instance : Inhabited MNode := ⟨⟨⟨0, 0⟩, 0⟩⟩

/-- Build the merge list: one node per interval after the first, with the
gap `Sub(next.lo, prev.hi)` (interval_ops.cc, MinimizeIntervals). -/
def buildMerge (w : Nat) : Iv → List Iv → List MNode
  | _, [] => []
  | p, c :: r => ⟨c, wrapSub w c.lo p.hi⟩ :: buildMerge w c r

/-- The strict ordering of `MergeInterval::operator<=>`: by gap, ties by
the interval lower bound. -/
def mnLt (x y : MNode) : Bool :=
  decide (x.gap < y.gap) || (decide (x.gap = y.gap) && decide (x.iv.lo < y.iv.lo))

/-- `m` is the heap minimum of `m :: r`: no later node is strictly
smaller (keys are distinct, so this is the unique minimum). -/
def minTest (m : MNode) (r : List MNode) : Bool :=
  r.all (fun n => !(mnLt n m))

/-- One merge among the tail nodes: find the minimal node and extend its
predecessor's interval to absorb it (the intrusive-list update in
interval_ops.cc). -/
def mergeStepAux : MNode → List MNode → List MNode
  | p, [] => [p]
  | p, m :: r =>
      if minTest m r then ⟨⟨p.iv.lo, m.iv.hi⟩, p.gap⟩ :: r
      else p :: mergeStepAux m r

/-- One iteration of the merge loop: pop the minimal node and merge it
into its predecessor (possibly the un-heaped first interval). -/
def mergeStep (first : Iv) : List MNode → Iv × List MNode
  | [] => (first, [])
  | m :: r =>
      if minTest m r then (⟨first.lo, m.iv.hi⟩, r)
      else (first, mergeStepAux m r)

theorem mergeStepAux_length : ∀ (p : MNode) (l : List MNode), l ≠ [] →
    (mergeStepAux p l).length = l.length := by
  intro p l
  induction l generalizing p with
  | nil => intro h; exact absurd rfl h
  | cons m r ih =>
      intro _
      unfold mergeStepAux
      by_cases h : minTest m r
      · simp [h]
      · rcases r with _ | ⟨n, r⟩
        · exact absurd (by simp [minTest]) h
        · simp only [if_neg h, List.length_cons]
          rw [ih m (by simp)]
          simp

theorem mergeStep_length {first : Iv} {l : List MNode} (h : l ≠ []) :
    (mergeStep first l).2.length + 1 = l.length := by
  rcases l with _ | ⟨m, r⟩
  · exact absurd rfl h
  · unfold mergeStep
    by_cases hm : minTest m r
    · simp [hm]
    · rcases r with _ | ⟨n, r⟩
      · exact absurd (by simp [minTest]) hm
      · simp only [if_neg hm]
        rw [mergeStepAux_length m (n :: r) (by simp)]
        simp

/-- The merge loop: merge minimal-gap nodes until at most `b` remain
(the C++ loops while `merge_list.size() > size - 1`). -/
def mergeLoop (b : Nat) (first : Iv) (rest : List MNode) : Iv × List MNode :=
  if h : rest.length ≤ b then (first, rest)
  else
    let s := mergeStep first rest
    mergeLoop b s.1 s.2
termination_by rest.length
decreasing_by
  have hne : rest ≠ [] := by
    intro hh
    rw [hh] at h
    simp at h
  have := @mergeStep_length first _ hne
  omega

/-- `MinimizeIntervals` from interval_ops.cc: normalize, keep as is if
already small enough, take the convex hull for `size == 1`, otherwise
greedily merge the smallest gaps. -/
def minimizeIntervals (s : IntervalSet) (size : Nat) : IntervalSet :=
  let t := s.normalize
  if t.ivals.length ≤ size then t
  else if size = 1 then
    match t.convexHull with
    | none => IntervalSet.empty t.width
    | some h => IntervalSet.normalize ⟨t.width, [h]⟩
  else
    match t.ivals with
    | [] => t
    | f :: r =>
        let p := mergeLoop (size - 1) f (buildMerge t.width f r)
        IntervalSet.normalize ⟨t.width, p.1 :: p.2.map (fun n => n.iv)⟩

/-! ## Invariants of the merge loop -/

theorem covers_absorb {a b : Iv} {v : Nat}
    (ha : a.lo ≤ a.hi) (hb : b.lo ≤ b.hi) (hab : a.hi ≤ b.hi)
    (hba : a.lo ≤ b.lo)
    (h : (a.coversB v || b.coversB v) = true) :
    (Iv.coversB ⟨a.lo, b.hi⟩ v) = true := by
  unfold Iv.coversB at h ⊢
  simp only [if_pos ha, if_pos hb, Bool.or_eq_true, Bool.and_eq_true,
    decide_eq_true_eq] at h
  have hm : a.lo ≤ b.hi := by omega
  simp only [if_pos hm, Bool.and_eq_true, decide_eq_true_eq]
  omega

theorem mergeStepAux_head (m : MNode) (l : List MNode) :
    ∃ g hh tt, mergeStepAux m l = MNode.mk (Iv.mk m.iv.lo hh) g :: tt := by
  rcases l with _ | ⟨n, r⟩
  · exact ⟨m.gap, m.iv.hi, [], by simp [mergeStepAux]⟩
  · unfold mergeStepAux
    by_cases h : minTest n r
    · exact ⟨m.gap, n.iv.hi, r, by simp [h]⟩
    · exact ⟨m.gap, m.iv.hi, mergeStepAux n r, by simp [h]⟩

theorem mergeStepAux_inv {v : Nat} :
    ∀ (p : MNode) (l : List MNode), l ≠ [] →
    properList (p.iv :: l.map (fun n => n.iv)) →
    sepChain (p.iv :: l.map (fun n => n.iv)) →
    (properList ((mergeStepAux p l).map (fun n => n.iv)) ∧
     sepChain ((mergeStepAux p l).map (fun n => n.iv))) ∧
    (∀ i ∈ (mergeStepAux p l).map (fun n => n.iv),
       ∃ a ∈ p.iv :: l.map (fun n => n.iv), ∃ b ∈ p.iv :: l.map (fun n => n.iv),
         i.lo = a.lo ∧ i.hi = b.hi) ∧
    ((p.iv :: l.map (fun n => n.iv)).any (fun i => i.coversB v) = true →
     ((mergeStepAux p l).map (fun n => n.iv)).any (fun i => i.coversB v) = true) := by
  intro p l
  induction l generalizing p with
  | nil => intro h; exact absurd rfl h
  | cons m r ih =>
      intro _ hp hc
      have hpp : p.iv.lo ≤ p.iv.hi := hp p.iv (by simp)
      have hpm : m.iv.lo ≤ m.iv.hi := hp m.iv (by simp)
      have hsep : p.iv.hi + 1 < m.iv.lo := by
        have := List.chain'_cons.mp hc
        simpa using this.1
      unfold mergeStepAux
      by_cases h : minTest m r
      · simp only [if_pos h, List.map_cons]
        have hcr : sepChain (m.iv :: r.map (fun n => n.iv)) := by
          have := List.chain'_cons.mp hc
          simpa using this.2
        refine ⟨⟨?_, ?_⟩, ?_, ?_⟩
        · intro i hi
          rcases List.mem_cons.mp hi with hh | hh
          · rw [hh]; simp; omega
          · exact hp i (List.mem_cons_of_mem _ (List.mem_cons_of_mem _ hh))
        · rcases r with _ | ⟨n, rr⟩
          · simp [sepChain]
          · have hmn : m.iv.hi + 1 < n.iv.lo := by
              have := List.chain'_cons.mp hcr
              simpa using this.1
            refine List.chain'_cons.mpr ⟨by simpa using hmn, ?_⟩
            have := List.chain'_cons.mp hcr
            simpa using this.2
        · intro i hi
          rcases List.mem_cons.mp hi with hh | hh
          · exact ⟨p.iv, by simp, m.iv, by simp, by rw [hh], by rw [hh]⟩
          · exact ⟨i, List.mem_cons_of_mem _ (List.mem_cons_of_mem _ hh),
              i, List.mem_cons_of_mem _ (List.mem_cons_of_mem _ hh), rfl, rfl⟩
        · intro hcov
          simp only [List.any_cons, Bool.or_eq_true] at hcov ⊢
          rcases hcov with hcov | hcov | hcov
          · left
            exact covers_absorb hpp hpm (by omega) (by omega) (by simp [hcov])
          · left
            exact covers_absorb hpp hpm (by omega) (by omega) (by simp [hcov])
          · right; exact hcov
      · simp only [if_neg h, List.map_cons]
        have hne : r ≠ [] := by
          intro hh
          rw [hh] at h
          exact h (by simp [minTest])
        have hpr : properList (m.iv :: r.map (fun n => n.iv)) := by
          intro i hi; exact hp i (List.mem_cons_of_mem _ hi)
        have hcr : sepChain (m.iv :: r.map (fun n => n.iv)) := by
          have := List.chain'_cons.mp hc
          simpa using this.2
        rcases ih m hne hpr hcr with ⟨⟨ihp, ihc⟩, ihb, ihcov⟩
        rcases mergeStepAux_head m r with ⟨g, hh, tt, heq⟩
        refine ⟨⟨?_, ?_⟩, ?_, ?_⟩
        · intro i hi
          rcases List.mem_cons.mp hi with h1 | h1
          · rw [h1]; exact hpp
          · exact ihp i h1
        · rw [heq]
          rw [heq] at ihc
          refine List.chain'_cons.mpr ⟨by simpa using hsep, ?_⟩
          simpa using ihc
        · intro i hi
          rcases List.mem_cons.mp hi with h1 | h1
          · exact ⟨p.iv, by simp, p.iv, by simp, by rw [h1], by rw [h1]⟩
          · rcases ihb i h1 with ⟨a, ha, b, hb, hab⟩
            exact ⟨a, List.mem_cons_of_mem _ ha, b, List.mem_cons_of_mem _ hb, hab⟩
        · intro hcov
          simp only [List.any_cons, Bool.or_eq_true] at hcov ⊢
          rcases hcov with hcov | hcov | hcov
          · left; exact hcov
          · right
            have := ihcov (by simp [hcov])
            simpa using this
          · right
            have := ihcov (by simp [List.any_cons, hcov])
            simpa using this

/-- Bounds of the output come from bounds of the input (used to carry
well-formedness through merging). -/
def boundsFrom (out inp : List Iv) : Prop :=
  ∀ i ∈ out, (∃ a ∈ inp, i.lo = a.lo) ∧ (∃ b ∈ inp, i.hi = b.hi)

theorem boundsFrom_refl (l : List Iv) : boundsFrom l l :=
  fun i hi => ⟨⟨i, hi, rfl⟩, ⟨i, hi, rfl⟩⟩

theorem boundsFrom_trans {a b c : List Iv} (h1 : boundsFrom a b)
    (h2 : boundsFrom b c) : boundsFrom a c := by
  intro i hi
  rcases h1 i hi with ⟨⟨x, hx, hlo⟩, ⟨y, hy, hhi⟩⟩
  rcases h2 x hx with ⟨⟨x2, hx2, hlo2⟩, _⟩
  rcases h2 y hy with ⟨_, ⟨y2, hy2, hhi2⟩⟩
  exact ⟨⟨x2, hx2, by rw [hlo, hlo2]⟩, ⟨y2, hy2, by rw [hhi, hhi2]⟩⟩

theorem wfList_of_boundsFrom {w : Nat} {out inp : List Iv}
    (hb : boundsFrom out inp) (hw : wfList w inp) : wfList w out := by
  intro i hi
  rcases hb i hi with ⟨⟨a, ha, hlo⟩, ⟨b, hbm, hhi⟩⟩
  exact ⟨hlo ▸ (hw a ha).1, hhi ▸ (hw b hbm).2⟩

theorem mergeStepAux_bounds : ∀ (p : MNode) (l : List MNode),
    boundsFrom ((mergeStepAux p l).map (fun n => n.iv))
      (p.iv :: l.map (fun n => n.iv)) := by
  intro p l
  induction l generalizing p with
  | nil => intro i hi; simp [mergeStepAux] at hi; rw [hi]; exact ⟨⟨p.iv, by simp, rfl⟩, ⟨p.iv, by simp, rfl⟩⟩
  | cons m r ih =>
      unfold mergeStepAux
      by_cases h : minTest m r
      · simp only [if_pos h, List.map_cons]
        intro i hi
        rcases List.mem_cons.mp hi with hh | hh
        · exact ⟨⟨p.iv, by simp, by rw [hh]⟩, ⟨m.iv, by simp, by rw [hh]⟩⟩
        · exact ⟨⟨i, List.mem_cons_of_mem _ (List.mem_cons_of_mem _ hh), rfl⟩,
            ⟨i, List.mem_cons_of_mem _ (List.mem_cons_of_mem _ hh), rfl⟩⟩
      · simp only [if_neg h, List.map_cons]
        intro i hi
        rcases List.mem_cons.mp hi with hh | hh
        · exact ⟨⟨p.iv, by simp, by rw [hh]⟩, ⟨p.iv, by simp, by rw [hh]⟩⟩
        · rcases ih m i hh with ⟨⟨a, ha, hlo⟩, ⟨b, hb, hhi⟩⟩
          exact ⟨⟨a, List.mem_cons_of_mem _ ha, hlo⟩, ⟨b, List.mem_cons_of_mem _ hb, hhi⟩⟩

theorem mergeStep_inv {v : Nat} (first : Iv) (l : List MNode) (hne : l ≠ [])
    (hp : properList (first :: l.map (fun n => n.iv)))
    (hc : sepChain (first :: l.map (fun n => n.iv))) :
    (properList ((mergeStep first l).1 :: (mergeStep first l).2.map (fun n => n.iv)) ∧
     sepChain ((mergeStep first l).1 :: (mergeStep first l).2.map (fun n => n.iv))) ∧
    boundsFrom ((mergeStep first l).1 :: (mergeStep first l).2.map (fun n => n.iv))
      (first :: l.map (fun n => n.iv)) ∧
    ((first :: l.map (fun n => n.iv)).any (fun i => i.coversB v) = true →
     ((mergeStep first l).1 :: (mergeStep first l).2.map (fun n => n.iv)).any
        (fun i => i.coversB v) = true) := by
  rcases l with _ | ⟨m, r⟩
  · exact absurd rfl hne
  · have hpp : first.lo ≤ first.hi := hp first (by simp)
    have hpm : m.iv.lo ≤ m.iv.hi := hp m.iv (by simp)
    have hsep : first.hi + 1 < m.iv.lo := by
      have := List.chain'_cons.mp hc
      simpa using this.1
    have hcr : sepChain (m.iv :: r.map (fun n => n.iv)) := by
      have := List.chain'_cons.mp hc
      simpa using this.2
    unfold mergeStep
    by_cases h : minTest m r
    · simp only [if_pos h]
      refine ⟨⟨?_, ?_⟩, ?_, ?_⟩
      · intro i hi
        rcases List.mem_cons.mp hi with hh | hh
        · rw [hh]; simp; omega
        · exact hp i (List.mem_cons_of_mem _ (List.mem_cons_of_mem _ hh))
      · rcases r with _ | ⟨n, rr⟩
        · simp [sepChain]
        · have hmn : m.iv.hi + 1 < n.iv.lo := by
            have := List.chain'_cons.mp hcr
            simpa using this.1
          refine List.chain'_cons.mpr ⟨by simpa using hmn, ?_⟩
          have := List.chain'_cons.mp hcr
          simpa using this.2
      · intro i hi
        rcases List.mem_cons.mp hi with hh | hh
        · exact ⟨⟨first, by simp, by rw [hh]⟩, ⟨m.iv, by simp, by rw [hh]⟩⟩
        · exact ⟨⟨i, List.mem_cons_of_mem _ (List.mem_cons_of_mem _ hh), rfl⟩,
            ⟨i, List.mem_cons_of_mem _ (List.mem_cons_of_mem _ hh), rfl⟩⟩
      · intro hcov
        simp only [List.map_cons, List.any_cons, Bool.or_eq_true] at hcov ⊢
        rcases hcov with hcov | hcov | hcov
        · left; exact covers_absorb hpp hpm (by omega) (by omega) (by simp [hcov])
        · left; exact covers_absorb hpp hpm (by omega) (by omega) (by simp [hcov])
        · right; exact hcov
    · simp only [if_neg h]
      have hne2 : r ≠ [] := by
        intro hh
        rw [hh] at h
        exact h (by simp [minTest])
      have hpr : properList (m.iv :: r.map (fun n => n.iv)) := by
        intro i hi; exact hp i (List.mem_cons_of_mem _ hi)
      rcases mergeStepAux_inv (v := v) m r hne2 hpr hcr with ⟨⟨ihp, ihc⟩, _, ihcov⟩
      rcases mergeStepAux_head m r with ⟨g, hh2, tt, heq⟩
      refine ⟨⟨?_, ?_⟩, ?_, ?_⟩
      · intro i hi
        rcases List.mem_cons.mp hi with h1 | h1
        · rw [h1]; exact hpp
        · exact ihp i h1
      · rw [heq]
        rw [heq] at ihc
        refine List.chain'_cons.mpr ⟨by simpa using hsep, ?_⟩
        simpa using ihc
      · intro i hi
        rcases List.mem_cons.mp hi with h1 | h1
        · exact ⟨⟨first, by simp, by rw [h1]⟩, ⟨first, by simp, by rw [h1]⟩⟩
        · rcases mergeStepAux_bounds m r i h1 with ⟨⟨a, ha, hlo⟩, ⟨b, hb, hhi⟩⟩
          exact ⟨⟨a, List.mem_cons_of_mem _ ha, hlo⟩, ⟨b, List.mem_cons_of_mem _ hb, hhi⟩⟩
      · intro hcov
        simp only [List.map_cons, List.any_cons, Bool.or_eq_true] at hcov ⊢
        rcases hcov with hcov | hcov | hcov
        · left; exact hcov
        · right
          have := ihcov (by simp [hcov])
          simpa using this
        · right
          have := ihcov (by simp [List.any_cons, hcov])
          simpa using this

theorem mergeLoop_inv {v : Nat} (b : Nat) :
    ∀ (n : Nat) (first : Iv) (rest : List MNode), rest.length ≤ n →
    properList (first :: rest.map (fun x => x.iv)) →
    sepChain (first :: rest.map (fun x => x.iv)) →
    (properList ((mergeLoop b first rest).1 ::
        (mergeLoop b first rest).2.map (fun x => x.iv)) ∧
     sepChain ((mergeLoop b first rest).1 ::
        (mergeLoop b first rest).2.map (fun x => x.iv))) ∧
    boundsFrom ((mergeLoop b first rest).1 ::
        (mergeLoop b first rest).2.map (fun x => x.iv))
      (first :: rest.map (fun x => x.iv)) ∧
    ((first :: rest.map (fun x => x.iv)).any (fun i => i.coversB v) = true →
     ((mergeLoop b first rest).1 ::
        (mergeLoop b first rest).2.map (fun x => x.iv)).any
          (fun i => i.coversB v) = true) ∧
    (mergeLoop b first rest).2.length ≤ b := by
  intro n
  induction n with
  | zero =>
      intro first rest hn hp hc
      have hrest : rest = [] := List.length_eq_zero.mp (Nat.le_zero.mp hn)
      subst hrest
      rw [mergeLoop]
      simp only [List.length_nil, Nat.zero_le, dif_pos]
      exact ⟨⟨hp, hc⟩, boundsFrom_refl _, fun h => h, by simp⟩
  | succ k ih =>
      intro first rest hn hp hc
      by_cases hle : rest.length ≤ b
      · rw [mergeLoop, dif_pos hle]
        exact ⟨⟨hp, hc⟩, boundsFrom_refl _, fun h => h, hle⟩
      · rw [mergeLoop, dif_neg hle]
        have hne : rest ≠ [] := by
          intro hh; rw [hh] at hle; exact hle (by simp)
        rcases mergeStep_inv (v := v) first rest hne hp hc with ⟨⟨hp2, hc2⟩, hb2, hcov2⟩
        have hlen : (mergeStep first rest).2.length ≤ k := by
          have := @mergeStep_length first _ hne
          omega
        rcases ih (mergeStep first rest).1 (mergeStep first rest).2 hlen hp2 hc2 with
          ⟨⟨hp3, hc3⟩, hb3, hcov3, hlen3⟩
        exact ⟨⟨hp3, hc3⟩, boundsFrom_trans hb3 hb2, fun h => hcov3 (hcov2 h), hlen3⟩

theorem convexHull_spec : ∀ (l : List Iv), l ≠ [] →
    ∃ h, (List.foldr (fun i acc =>
        match acc with
        | none => some i
        | some j => some ⟨min i.lo j.lo, max i.hi j.hi⟩) none l) = some h ∧
      (∀ i ∈ l, h.lo ≤ i.lo ∧ i.hi ≤ h.hi) ∧
      (∃ a ∈ l, h.lo = a.lo) ∧ (∃ b ∈ l, h.hi = b.hi) := by
  intro l
  induction l with
  | nil => intro h; exact absurd rfl h
  | cons a t ih =>
      intro _
      rcases t with _ | ⟨c, t⟩
      · exact ⟨a, rfl, by simp, ⟨a, by simp, rfl⟩, ⟨a, by simp, rfl⟩⟩
      · rcases ih (by simp) with ⟨h, heq, hall, ⟨x, hx, hlo⟩, ⟨y, hy, hhi⟩⟩
        refine ⟨⟨min a.lo h.lo, max a.hi h.hi⟩, ?_, ?_, ?_, ?_⟩
        · simp only [List.foldr_cons, heq]
        · intro i hi
          rcases List.mem_cons.mp hi with hh | hh
          · rw [hh]; constructor
            · exact le_trans (min_le_left _ _) (le_refl _)
            · exact le_max_left _ _
          · have := hall i hh
            constructor
            · exact le_trans (min_le_right _ _) this.1
            · exact le_trans this.2 (le_max_right _ _)
        · by_cases hcmp : a.lo ≤ h.lo
          · exact ⟨a, by simp, by simp [min_eq_left hcmp]⟩
          · refine ⟨x, List.mem_cons_of_mem _ hx, ?_⟩
            rw [min_eq_right (by omega), hlo]
        · by_cases hcmp : h.hi ≤ a.hi
          · exact ⟨a, by simp, by simp [max_eq_left hcmp]⟩
          · refine ⟨y, List.mem_cons_of_mem _ hy, ?_⟩
            rw [max_eq_right (by omega), hhi]

theorem buildMerge_map (w : Nat) : ∀ (p : Iv) (l : List Iv),
    (buildMerge w p l).map (fun n => n.iv) = l := by
  intro p l
  induction l generalizing p with
  | nil => rfl
  | cons c r ih => simp [buildMerge, ih]

theorem convexHull_eq_foldr (s : IntervalSet) :
    s.convexHull = List.foldr (fun i acc =>
        match acc with
        | none => some i
        | some j => some ⟨min i.lo j.lo, max i.hi j.hi⟩) none s.ivals := rfl

theorem minimizeIntervals_width (s : IntervalSet) (k : Nat) :
    (minimizeIntervals s k).width = s.width := by
  unfold minimizeIntervals
  by_cases h1 : s.normalize.ivals.length ≤ k
  · simp only [if_pos h1]
    rfl
  · simp only [if_neg h1]
    by_cases h2 : k = 1
    · simp only [if_pos h2]
      rcases hh : s.normalize.convexHull with _ | h
      · rfl
      · rfl
    · simp only [if_neg h2]
      rcases hres : s.normalize.ivals with _ | ⟨f, r⟩
      · rfl
      · rfl

theorem minimizeIntervals_main (s : IntervalSet) (k : Nat) (hw : s.wf) :
    (minimizeIntervals s k).Normalized ∧ (minimizeIntervals s k).wf ∧
    (∀ v, v < 2 ^ s.width → s.coversB v = true →
      (minimizeIntervals s k).coversB v = true) ∧
    (1 ≤ k → (minimizeIntervals s k).ivals.length ≤ k) := by
  have htn : s.normalize.Normalized := normalize_normalized hw
  have htw : s.normalize.wf := normalize_wf hw
  have hcov₀ : ∀ v, v < 2 ^ s.width → s.coversB v = true →
      s.normalize.coversB v = true := by
    intro v hv hc
    rw [normalize_covers hw hv]
    exact hc
  unfold minimizeIntervals
  by_cases h1 : s.normalize.ivals.length ≤ k
  · simp only [if_pos h1]
    exact ⟨htn, htw, hcov₀, fun _ => h1⟩
  · simp only [if_neg h1]
    by_cases h2 : k = 1
    · simp only [if_pos h2]
      have hne : s.normalize.ivals ≠ [] := by
        intro hh
        rw [hh] at h1
        exact h1 (by simp)
      rcases convexHull_spec s.normalize.ivals hne with ⟨h, heq, hall, ⟨x, hx, hlo⟩, ⟨y, hy, hhi⟩⟩
      rw [convexHull_eq_foldr, heq]
      have hhp : h.lo ≤ h.hi := by
        have h1x := hall x hx
        have h2x := htn.1 x hx
        omega
      have hhw : wfList s.normalize.width [h] := by
        intro i hi
        simp at hi
        rw [hi, hlo, hhi]
        exact ⟨(htw x hx).1, (htw y hy).2⟩
      have hnh : NormalizedList [h] := ⟨by intro i hi; simp at hi; rw [hi]; exact hhp, by simp [sepChain]⟩
      constructor
      · exact normalize_normalized (s := ⟨s.normalize.width, [h]⟩) hhw
      constructor
      · exact normalize_wf (s := ⟨s.normalize.width, [h]⟩) hhw
      constructor
      · intro v hv hc
        have hc2 := hcov₀ v hv hc
        rw [normalize_covers (s := ⟨s.normalize.width, [h]⟩) hhw hv]
        unfold IntervalSet.coversB at hc2 ⊢
        simp only [List.any_eq_true] at hc2 ⊢
        rcases hc2 with ⟨i, hi, hci⟩
        refine ⟨h, by simp, ?_⟩
        have hpi : i.lo ≤ i.hi := htn.1 i hi
        have hbi := hall i hi
        unfold Iv.coversB at hci ⊢
        simp only [if_pos hpi] at hci
        simp only [if_pos hhp, Bool.and_eq_true, decide_eq_true_eq] at hci ⊢
        omega
      · intro hk
        show (IntervalSet.normalize ⟨s.normalize.width, [h]⟩).ivals.length ≤ k
        have hlen1 := normalize_len_le (s := ⟨s.normalize.width, [h]⟩) hnh.1
        have hone : ({ width := s.normalize.width, ivals := [h] } : IntervalSet).ivals.length = 1 := rfl
        omega
    · simp only [if_neg h2]
      rcases hres : s.normalize.ivals with _ | ⟨f, r⟩
      · exact ⟨htn, htw, hcov₀, fun _ => (h1 (by rw [hres]; exact Nat.zero_le k)).elim⟩
      · have hfull : f :: (buildMerge s.normalize.width f r).map (fun n => n.iv) =
            s.normalize.ivals := by
          rw [buildMerge_map, hres]
        have hpfull : properList (f :: (buildMerge s.normalize.width f r).map (fun n => n.iv)) := by
          rw [hfull]; exact htn.1
        have hcfull : sepChain (f :: (buildMerge s.normalize.width f r).map (fun n => n.iv)) := by
          rw [hfull]; exact htn.2
        have hloop := fun v => mergeLoop_inv (v := v) (k - 1)
          (buildMerge s.normalize.width f r).length f
          (buildMerge s.normalize.width f r) (le_refl _) hpfull hcfull
        rcases hloop 0 with ⟨⟨hp3, hc3⟩, hb3, _, hlen3⟩
        have hwout : wfList s.normalize.width
            ((mergeLoop (k - 1) f (buildMerge s.normalize.width f r)).1 ::
             (mergeLoop (k - 1) f (buildMerge s.normalize.width f r)).2.map (fun n => n.iv)) := by
          refine wfList_of_boundsFrom hb3 ?_
          rw [hfull]
          exact htw
        refine ⟨normalize_normalized (s := ⟨s.normalize.width, _⟩) hwout,
          normalize_wf (s := ⟨s.normalize.width, _⟩) hwout, ?_, ?_⟩
        · intro v hv hc
          rcases hloop v with ⟨_, _, hcov3, _⟩
          have hc2 := hcov₀ v hv hc
          rw [normalize_covers (s := ⟨s.normalize.width, _⟩) hwout hv]
          unfold IntervalSet.coversB at hc2 ⊢
          refine hcov3 ?_
          rw [hfull]
          exact hc2
        · intro hk
          have hle := normalize_len_le (s := ⟨s.normalize.width,
            (mergeLoop (k - 1) f (buildMerge s.normalize.width f r)).1 ::
            (mergeLoop (k - 1) f (buildMerge s.normalize.width f r)).2.map (fun n => n.iv)⟩)
            (by exact hp3)
          simp only [List.length_cons, List.length_map] at hle ⊢
          omega

theorem minimizeIntervals_one {s : IntervalSet} (hw : s.wf) :
    (minimizeIntervals s 1).ivals =
      (match s.normalize.convexHull with
       | none => []
       | some h => [h]) := by
  have htn := normalize_normalized hw
  unfold minimizeIntervals
  by_cases h1 : s.normalize.ivals.length ≤ 1
  · simp only [if_pos h1]
    rcases hres : s.normalize.ivals with _ | ⟨f, r⟩
    · rw [convexHull_eq_foldr, hres]
      rfl
    · rcases r with _ | ⟨g, r⟩
      · rw [convexHull_eq_foldr, hres]
        rfl
      · rw [hres] at h1; simp at h1
  · simp only [if_neg h1]
    have hne : s.normalize.ivals ≠ [] := by
      intro hh; rw [hh] at h1; exact h1 (by simp)
    rcases convexHull_spec s.normalize.ivals hne with ⟨h, heq, hall, ⟨x, hx, hlo⟩, ⟨y, hy, hhi⟩⟩
    rw [convexHull_eq_foldr, heq]
    have hhp : h.lo ≤ h.hi := by
      have h1x := hall x hx
      have h2x := htn.1 x hx
      omega
    have hid : IntervalSet.normalize ⟨s.normalize.width, [h]⟩ = ⟨s.normalize.width, [h]⟩ :=
      normalize_eq_self (s := ⟨s.normalize.width, [h]⟩)
        ⟨by intro i hi; simp at hi; rw [hi]; exact hhp, by simp [sepChain]⟩
    show (IntervalSet.normalize ⟨s.normalize.width, [h]⟩).ivals = [h]
    rw [hid]

theorem minimizeIntervals_id {s : IntervalSet} {k : Nat}
    (hn : s.Normalized) (hk : s.ivals.length ≤ k) :
    minimizeIntervals s k = s := by
  unfold minimizeIntervals
  rw [normalize_eq_self hn]
  simp [hk]

/-! ## Reference greedy minimization ordered by (distance, position)

The spec (§4.3) describes the algorithm as repeatedly merging the gap
with the smallest `(distance, position)` key.  The following definitions
follow that wording: nodes keep their original order, and the candidate
popped is the first node no later node strictly beats on distance. -/

/-- Ordering by gap distance alone (ties are broken by taking the
earlier position, which the selection below does implicitly). -/
def mnLtSpec (x y : MNode) : Bool := decide (x.gap < y.gap)

/-- `m` is the first remaining gap with minimal distance. -/
def minTestSpec (m : MNode) (r : List MNode) : Bool :=
  r.all (fun n => !(mnLtSpec n m))

/-- Reference merge among the tail nodes, by `(distance, position)`. -/
def mergeStepAuxSpec : MNode → List MNode → List MNode
  | p, [] => [p]
  | p, m :: r =>
      if minTestSpec m r then ⟨⟨p.iv.lo, m.iv.hi⟩, p.gap⟩ :: r
      else p :: mergeStepAuxSpec m r

/-- Reference merge step, by `(distance, position)`. -/
def mergeStepSpec (first : Iv) : List MNode → Iv × List MNode
  | [] => (first, [])
  | m :: r =>
      if minTestSpec m r then (⟨first.lo, m.iv.hi⟩, r)
      else (first, mergeStepAuxSpec m r)

theorem mergeStepAuxSpec_length : ∀ (p : MNode) (l : List MNode), l ≠ [] →
    (mergeStepAuxSpec p l).length = l.length := by
  intro p l
  induction l generalizing p with
  | nil => intro h; exact absurd rfl h
  | cons m r ih =>
      intro _
      unfold mergeStepAuxSpec
      by_cases h : minTestSpec m r
      · simp [h]
      · rcases r with _ | ⟨n, r⟩
        · exact absurd (by simp [minTestSpec]) h
        · simp only [if_neg h, List.length_cons]
          rw [ih m (by simp)]
          simp

theorem mergeStepSpec_length {first : Iv} {l : List MNode} (h : l ≠ []) :
    (mergeStepSpec first l).2.length + 1 = l.length := by
  rcases l with _ | ⟨m, r⟩
  · exact absurd rfl h
  · unfold mergeStepSpec
    by_cases hm : minTestSpec m r
    · simp [hm]
    · rcases r with _ | ⟨n, r⟩
      · exact absurd (by simp [minTestSpec]) hm
      · simp only [if_neg hm]
        rw [mergeStepAuxSpec_length m (n :: r) (by simp)]
        simp

/-- Reference merge loop. -/
def mergeLoopSpec (b : Nat) (first : Iv) (rest : List MNode) : Iv × List MNode :=
  if h : rest.length ≤ b then (first, rest)
  else
    let s := mergeStepSpec first rest
    mergeLoopSpec b s.1 s.2
termination_by rest.length
decreasing_by
  have hne : rest ≠ [] := by
    intro hh
    rw [hh] at h
    simp at h
  have := @mergeStepSpec_length first _ hne
  omega

/-- Reference `MinimizeIntervals` following the spec wording of §4.3:
gaps ordered by `(distance, position)` ascending. -/
def minimizeIntervalsSpec (s : IntervalSet) (size : Nat) : IntervalSet :=
  let t := s.normalize
  if t.ivals.length ≤ size then t
  else if size = 1 then
    match t.convexHull with
    | none => IntervalSet.empty t.width
    | some h => IntervalSet.normalize ⟨t.width, [h]⟩
  else
    match t.ivals with
    | [] => t
    | f :: r =>
        let p := mergeLoopSpec (size - 1) f (buildMerge t.width f r)
        IntervalSet.normalize ⟨t.width, p.1 :: p.2.map (fun n => n.iv)⟩

/-- Lower bounds strictly increase along the merge list. -/
def loPairwise (l : List MNode) : Prop :=
  l.Pairwise (fun a b => a.iv.lo < b.iv.lo)

theorem minTestSpec_eq {m : MNode} {r : List MNode}
    (h : ∀ n ∈ r, m.iv.lo < n.iv.lo) : minTestSpec m r = minTest m r := by
  unfold minTestSpec minTest
  induction r with
  | nil => rfl
  | cons n t ih =>
      simp only [List.all_cons]
      rw [ih (fun x hx => h x (List.mem_cons_of_mem _ hx))]
      have hn := h n (by simp)
      unfold mnLtSpec mnLt
      have hno : decide (n.iv.lo < m.iv.lo) = false := by
        simp only [decide_eq_false_iff_not]
        omega
      rw [hno]
      simp

theorem mergeStepAuxSpec_eq : ∀ (p : MNode) (l : List MNode), loPairwise l →
    mergeStepAuxSpec p l = mergeStepAux p l := by
  intro p l
  induction l generalizing p with
  | nil => intro _; rfl
  | cons m r ih =>
      intro hpw
      have hhead : ∀ n ∈ r, m.iv.lo < n.iv.lo := (List.pairwise_cons.mp hpw).1
      have htail : loPairwise r := (List.pairwise_cons.mp hpw).2
      simp only [mergeStepAuxSpec, mergeStepAux]
      rw [minTestSpec_eq hhead]
      by_cases h : minTest m r
      · simp [h]
      · simp only [if_neg h]
        rw [ih m htail]

theorem mergeStepSpec_eq {first : Iv} {l : List MNode} (h : loPairwise l) :
    mergeStepSpec first l = mergeStep first l := by
  rcases l with _ | ⟨m, r⟩
  · rfl
  · have hhead : ∀ n ∈ r, m.iv.lo < n.iv.lo := (List.pairwise_cons.mp h).1
    have htail : loPairwise r := (List.pairwise_cons.mp h).2
    simp only [mergeStepSpec, mergeStep]
    rw [minTestSpec_eq hhead]
    by_cases hm : minTest m r
    · simp [hm]
    · simp only [if_neg hm]
      rw [mergeStepAuxSpec_eq m r htail]

theorem loPairwise_of_inv {first : Iv} {rest : List MNode}
    (hp : properList (first :: rest.map (fun n => n.iv)))
    (hc : sepChain (first :: rest.map (fun n => n.iv))) :
    loPairwise rest := by
  have h1 := normalized_pairwise _ hp hc
  have h2 : (first :: rest.map (fun n => n.iv)).Pairwise
      (fun a b => a.lo < b.lo) := by
    refine h1.imp_of_mem ?_
    intro a b ha _ hab
    have := hp a ha
    omega
  have h3 := (List.pairwise_cons.mp h2).2
  show rest.Pairwise (fun a b => a.iv.lo < b.iv.lo)
  exact (List.pairwise_map' (fun n : MNode => n.iv)).mp h3

theorem mergeLoopSpec_eq (b : Nat) : ∀ (n : Nat) (first : Iv) (rest : List MNode),
    rest.length ≤ n →
    properList (first :: rest.map (fun x => x.iv)) →
    sepChain (first :: rest.map (fun x => x.iv)) →
    mergeLoopSpec b first rest = mergeLoop b first rest := by
  intro n
  induction n with
  | zero =>
      intro first rest hn _ _
      have hrest : rest = [] := List.length_eq_zero.mp (Nat.le_zero.mp hn)
      subst hrest
      rw [mergeLoopSpec, mergeLoop]
      simp
  | succ k ih =>
      intro first rest hn hp hc
      by_cases hle : rest.length ≤ b
      · rw [mergeLoopSpec, mergeLoop, dif_pos hle, dif_pos hle]
      · rw [mergeLoopSpec, mergeLoop, dif_neg hle, dif_neg hle]
        have hne : rest ≠ [] := by
          intro hh; rw [hh] at hle; exact hle (by simp)
        have hstep := @mergeStepSpec_eq first _ (loPairwise_of_inv hp hc)
        rw [hstep]
        rcases mergeStep_inv (v := 0) first rest hne hp hc with ⟨⟨hp2, hc2⟩, _, _⟩
        have hlen : (mergeStep first rest).2.length ≤ k := by
          have := @mergeStep_length first _ hne
          omega
        exact ih (mergeStep first rest).1 (mergeStep first rest).2 hlen hp2 hc2

theorem minimizeIntervalsSpec_eq (s : IntervalSet) (k : Nat) (hw : s.wf) :
    minimizeIntervalsSpec s k = minimizeIntervals s k := by
  have htn := normalize_normalized hw
  unfold minimizeIntervalsSpec minimizeIntervals
  by_cases h1 : s.normalize.ivals.length ≤ k
  · simp [h1]
  · simp only [if_neg h1]
    by_cases h2 : k = 1
    · simp [h2]
    · simp only [if_neg h2]
      rcases hres : s.normalize.ivals with _ | ⟨f, r⟩
      · rfl
      · have hfull : f :: (buildMerge s.normalize.width f r).map (fun n => n.iv) =
            s.normalize.ivals := by
          rw [buildMerge_map, hres]
        have hpfull : properList (f :: (buildMerge s.normalize.width f r).map (fun n => n.iv)) := by
          rw [hfull]; exact htn.1
        have hcfull : sepChain (f :: (buildMerge s.normalize.width f r).map (fun n => n.iv)) := by
          rw [hfull]; exact htn.2
        show IntervalSet.normalize ⟨s.normalize.width,
            (mergeLoopSpec (k - 1) f (buildMerge s.normalize.width f r)).1 ::
            (mergeLoopSpec (k - 1) f (buildMerge s.normalize.width f r)).2.map (fun n => n.iv)⟩ =
          IntervalSet.normalize ⟨s.normalize.width,
            (mergeLoop (k - 1) f (buildMerge s.normalize.width f r)).1 ::
            (mergeLoop (k - 1) f (buildMerge s.normalize.width f r)).2.map (fun n => n.iv)⟩
        rw [mergeLoopSpec_eq (k - 1) (buildMerge s.normalize.width f r).length f
          (buildMerge s.normalize.width f r) (le_refl _) hpfull hcfull]

/-! ## Ternary vectors (modelled from spec §3.4; `ternary.h` is not in src/) -/

/-- A ternary bit: known zero, known one, or unknown (`⊤`). -/
inductive TV
  | zero
  | one
  | unknown
deriving DecidableEq, Repr

/-- `ternary_ops::IsKnown`. -/
def TV.isKnown : TV → Bool
  | TV.zero => true
  | TV.one => true
  | TV.unknown => false

/-- A ternary vector; index 0 is the least-significant bit (as in
`TernaryVector`). -/
abbrev TernVec := List TV

/-- `ternary_ops::IsFullyKnown`. -/
def isFullyKnown (t : TernVec) : Bool := t.all TV.isKnown

/-- `ternary_ops::ToKnownBitsValues` as a natural number: known-one bits
contribute their weight, all other bits contribute 0. -/
def toKBV : TernVec → Nat
  | [] => 0
  | b :: r => (if b = TV.one then 1 else 0) + 2 * toKBV r

/-- Bit `i` of `x`. -/
def getBit (x i : Nat) : Bool := x / 2 ^ i % 2 == 1

/-- A value agrees with every known bit of a ternary vector
(spec §4.2 consistency). -/
def consistentB : TernVec → Nat → Bool
  | [], _ => true
  | b :: r, x =>
      (match b with
       | TV.unknown => true
       | TV.one => x % 2 == 1
       | TV.zero => x % 2 == 0) && consistentB r (x / 2)

/-- `ternary_ops::AllBitsValues`: all concrete fillings of the unknown
bits (spec §3.4), as values. -/
def fillings : TernVec → List Nat
  | [] => [0]
  | TV.zero :: r => (fillings r).map (fun v => 2 * v)
  | TV.one :: r => (fillings r).map (fun v => 2 * v + 1)
  | TV.unknown :: r =>
      (fillings r).map (fun v => 2 * v) ++ (fillings r).map (fun v => 2 * v + 1)

/-- Number of unknown bits. -/
def countUnknown (t : TernVec) : Nat := t.countP (fun b => !b.isKnown)

/-- `FromTernary`, step 1: the index of the lowest known bit (`lsb_xs`
before the window pass; `tern.size()` if no bit is known). -/
def ftLsb0 (t : TernVec) : Nat := t.findIdx TV.isKnown

/-- `FromTernary`, step 2: the positions of unknown bits at or above
`ftLsb0` (what the C++ pushes into `x_locations` before capping). -/
def ftXlocs (t : TernVec) : List Nat :=
  (List.range t.length).filter
    (fun i => decide (ftLsb0 t ≤ i) && !(t.getD i TV.unknown).isKnown)

/-- Whether the sliding window overflowed (`x_locations.size() >
max_interval_bits`). -/
def ftThr (t : TernVec) (m : Nat) : Bool := decide (m < (ftXlocs t).length)

/-- The final `lsb_xs`: extended past the popped unknown location when
the window overflowed. -/
def ftLsb (t : TernVec) (m : Nat) : Nat :=
  if ftThr t m then ((ftXlocs t).getD ((ftXlocs t).length - (m + 1)) 0) + 1
  else ftLsb0 t

/-- The final window contents: the unknown locations that remain above
the final `lsb_xs`. -/
def ftWin (t : TernVec) (m : Nat) : List Nat :=
  if ftThr t m then (ftXlocs t).drop ((ftXlocs t).length - m)
  else ftXlocs t

/-- `FromTernary` from interval_ops.cc: split the vector into a low
all-unknown run and a high part; enumerate the (budget-capped) fillings
of the high part, each giving one interval spanning the low run. -/
def fromTernary (t : TernVec) (maxBits : Nat) : IntervalSet :=
  if isFullyKnown t then IntervalSet.precise t.length (toKBV t)
  else if (ftWin t maxBits).isEmpty then
    IntervalSet.normalize
      ⟨t.length,
       [⟨toKBV (t.drop (ftLsb t maxBits)) * 2 ^ ftLsb t maxBits,
         toKBV (t.drop (ftLsb t maxBits)) * 2 ^ ftLsb t maxBits +
           (2 ^ ftLsb t maxBits - 1)⟩]⟩
  else
    IntervalSet.normalize
      ⟨t.length, (fillings (t.drop (ftLsb t maxBits))).map
        (fun v => ⟨v * 2 ^ ftLsb t maxBits,
                   v * 2 ^ ftLsb t maxBits + (2 ^ ftLsb t maxBits - 1)⟩)⟩

/-- Modelled from the spec: value-level longest common MSB prefix length
of two `w`-bit values (`bits_ops::LongestCommonPrefixMSB`; bits_ops.cc is
not in src/). -/
def lcpLen : Nat → Nat → Nat → Nat
  | 0, _, _ => 0
  | w + 1, lo, hi =>
      if lo / 2 ^ w == hi / 2 ^ w then 1 + lcpLen w (lo % 2 ^ w) (hi % 2 ^ w)
      else 0

/-- `ExtractTernaryInterval` from interval_ops.cc: the longest common
MSB prefix of the bounds is known, the rest is unknown. -/
def extractTernaryInterval (w : Nat) (iv : Iv) : TernVec :=
  (List.range w).map (fun i =>
    if w - lcpLen w iv.lo iv.hi ≤ i then
      (if getBit iv.lo i then TV.one else TV.zero)
    else TV.unknown)

/-- `ternary_ops::UpdateWithIntersection` on one bit: keep a known bit
only when both sides agree (modelled from spec §3.4). -/
def TV.meet (a b : TV) : TV := if a = b then a else TV.unknown

/-- `ternary_ops::UpdateWithIntersection` (modelled from spec §3.4). -/
def updateWithIntersection (a b : TernVec) : TernVec := List.zipWith TV.meet a b

/-- `ExtractTernaryVector` from interval_ops.cc: extract the first
interval's ternary and meet it with every further interval's. -/
def extractTernaryVector (s : IntervalSet) : TernVec :=
  match s.ivals with
  | [] => []
  | i :: rest =>
      rest.foldl (fun acc j => updateWithIntersection acc (extractTernaryInterval s.width j))
        (extractTernaryInterval s.width i)

/-! ## Ternary lemmas -/

theorem toKBV_lt (t : TernVec) : toKBV t < 2 ^ t.length := by
  induction t with
  | nil => simp [toKBV]
  | cons b r ih =>
      unfold toKBV
      have hlen : (b :: r).length = r.length + 1 := rfl
      rw [hlen, pow_succ]
      by_cases h : b = TV.one <;> simp [h] <;> omega

theorem consistent_fullyKnown : ∀ (t : TernVec) (x : Nat),
    isFullyKnown t = true → consistentB t x = true → x < 2 ^ t.length →
    x = toKBV t := by
  intro t
  induction t with
  | nil =>
      intro x _ _ hx
      simp at hx
      simpa [toKBV] using hx
  | cons b r ih =>
      intro x hk hc hx
      unfold isFullyKnown at hk
      simp only [List.all_cons, Bool.and_eq_true] at hk
      unfold consistentB at hc
      simp only [Bool.and_eq_true] at hc
      have hr : x / 2 = toKBV r := by
        refine ih (x / 2) ?_ hc.2 ?_
        · unfold isFullyKnown; exact hk.2
        · simp only [List.length_cons, pow_succ] at hx
          omega
      unfold toKBV
      rcases b with _ | _ | _
      · simp only [beq_iff_eq] at hc
        have h0 : x % 2 = 0 := hc.1
        rw [if_neg (by simp)]
        omega
      · simp only [beq_iff_eq] at hc
        have h0 : x % 2 = 1 := hc.1
        rw [if_pos rfl]
        omega
      · simp [TV.isKnown] at hk

theorem consistent_drop : ∀ (k : Nat) (t : TernVec) (x : Nat),
    consistentB t x = true → consistentB (t.drop k) (x / 2 ^ k) = true := by
  intro k
  induction k with
  | zero => intro t x h; simpa using h
  | succ n ih =>
      intro t x h
      rcases t with _ | ⟨b, r⟩
      · simp [consistentB]
      · unfold consistentB at h
        simp only [Bool.and_eq_true] at h
        have := ih r (x / 2) h.2
        have hdiv : x / 2 / 2 ^ n = x / 2 ^ (n + 1) := by
          rw [Nat.div_div_eq_div_mul]
          ring_nf
        rw [hdiv] at this
        simpa using this

theorem mem_fillings : ∀ (t : TernVec) (x : Nat),
    x ∈ fillings t ↔ (consistentB t x = true ∧ x < 2 ^ t.length) := by
  intro t
  induction t with
  | nil =>
      intro x
      unfold fillings consistentB
      simp only [List.mem_singleton, List.length_nil, pow_zero, Bool.true_and]
      constructor
      · rintro rfl
        exact ⟨trivial, by norm_num⟩
      · rintro ⟨_, hx⟩
        omega
  | cons b r ih =>
      intro x
      have hsplit : x = x % 2 + 2 * (x / 2) := by omega
      rcases b with _ | _ | _
      · unfold fillings consistentB
        simp only [List.mem_map, List.length_cons, pow_succ, Bool.and_eq_true,
          beq_iff_eq]
        constructor
        · rintro ⟨v, hv, rfl⟩
          have := (ih v).mp hv
          refine ⟨⟨by omega, ?_⟩, by omega⟩
          have h2 : 2 * v / 2 = v := by omega
          rw [h2]
          exact this.1
        · rintro ⟨⟨hm, hc⟩, hx⟩
          refine ⟨x / 2, (ih (x / 2)).mpr ⟨hc, by omega⟩, by omega⟩
      · unfold fillings consistentB
        simp only [List.mem_map, List.length_cons, pow_succ, Bool.and_eq_true,
          beq_iff_eq]
        constructor
        · rintro ⟨v, hv, rfl⟩
          have := (ih v).mp hv
          refine ⟨⟨by omega, ?_⟩, by omega⟩
          have h2 : (2 * v + 1) / 2 = v := by omega
          rw [h2]
          exact this.1
        · rintro ⟨⟨hm, hc⟩, hx⟩
          refine ⟨x / 2, (ih (x / 2)).mpr ⟨hc, by omega⟩, by omega⟩
      · unfold fillings consistentB
        simp only [List.mem_append, List.mem_map, List.length_cons, pow_succ,
          Bool.true_and]
        constructor
        · rintro (⟨v, hv, rfl⟩ | ⟨v, hv, rfl⟩)
          · have := (ih v).mp hv
            have h2 : 2 * v / 2 = v := by omega
            exact ⟨by rw [h2]; exact this.1, by omega⟩
          · have := (ih v).mp hv
            have h2 : (2 * v + 1) / 2 = v := by omega
            exact ⟨by rw [h2]; exact this.1, by omega⟩
        · rintro ⟨hc, hx⟩
          by_cases hm : x % 2 = 0
          · left
            refine ⟨x / 2, (ih (x / 2)).mpr ⟨hc, by omega⟩, by omega⟩
          · right
            refine ⟨x / 2, (ih (x / 2)).mpr ⟨hc, by omega⟩, by omega⟩

theorem fillings_length : ∀ t : TernVec,
    (fillings t).length = 2 ^ countUnknown t := by
  intro t
  induction t with
  | nil => simp [fillings, countUnknown]
  | cons b r ih =>
      rcases b with _ | _ | _ <;>
        simp [fillings, countUnknown, List.countP_cons, TV.isKnown, ih,
          pow_succ] <;> unfold countUnknown at ih <;> omega

theorem isFullyKnown_iff (t : TernVec) :
    isFullyKnown t = true ↔ ∀ j, j < t.length → (t.getD j TV.unknown).isKnown = true := by
  unfold isFullyKnown
  rw [List.all_eq_true]
  constructor
  · intro h j hj
    have : t.getD j TV.unknown = t.get ⟨j, hj⟩ := by
      rw [List.getD_eq_getElem?_getD, List.getElem?_eq_getElem hj]
      simp
    rw [this]
    exact h _ (List.get_mem t j hj)
  · intro h x hx
    rcases List.mem_iff_get.mp hx with ⟨⟨j, hj⟩, rfl⟩
    have := h j hj
    rw [List.getD_eq_getElem?_getD, List.getElem?_eq_getElem hj] at this
    simpa using this

/-! ## Window facts for FromTernary -/

theorem getD_mem_nat {l : List Nat} {k : Nat} (hk : k < l.length) :
    l.getD k 0 ∈ l := by
  rw [List.getD_eq_getElem?_getD, List.getElem?_eq_getElem hk]
  exact List.getElem_mem hk

theorem countUnknown_drop : ∀ (t : TernVec) (k : Nat),
    countUnknown (t.drop k) =
      ((List.range t.length).filter
        (fun i => decide (k ≤ i) && !(t.getD i TV.unknown).isKnown)).length := by
  intro t
  induction t with
  | nil => intro k; simp [countUnknown]
  | cons b r ih =>
      intro k
      have hrange : List.range (b :: r).length = 0 :: (List.range r.length).map Nat.succ := by
        have h1 : (b :: r).length = r.length + 1 := rfl
        rw [h1, List.range_succ_eq_map]
      rw [hrange]
      rcases k with _ | k
      · rw [List.filter_cons]
        have hp0 : (decide (0 ≤ 0) && !(List.getD (b :: r) 0 TV.unknown).isKnown) =
            !b.isKnown := by simp
        rw [hp0]
        rw [List.filter_map]
        have hcomp : ((fun i => decide (0 ≤ i) && !(List.getD (b :: r) i TV.unknown).isKnown) ∘
            Nat.succ) = (fun i => decide (0 ≤ i) && !(List.getD r i TV.unknown).isKnown) := by
          funext i
          simp [List.getD_cons_succ]
        by_cases hb : b.isKnown
        · rw [if_neg (by simp [hb])]
          rw [hcomp, List.length_map, ← ih 0]
          unfold countUnknown
          simp [List.countP_cons, hb]
        · rw [if_pos (by simp [hb])]
          rw [hcomp, List.length_cons, List.length_map, ← ih 0]
          unfold countUnknown
          simp [List.countP_cons, hb]
      · rw [List.filter_cons]
        have hp0 : (decide (k + 1 ≤ 0) && !(List.getD (b :: r) 0 TV.unknown).isKnown) =
            false := by simp
        rw [hp0]
        rw [List.filter_map]
        have hcomp : ((fun i => decide (k + 1 ≤ i) && !(List.getD (b :: r) i TV.unknown).isKnown) ∘
            Nat.succ) = (fun i => decide (k ≤ i) && !(List.getD r i TV.unknown).isKnown) := by
          funext i
          simp [List.getD_cons_succ, Nat.succ_le_succ_iff]
        rw [if_neg (by simp)]
        rw [hcomp, List.length_map, ← ih k]
        simp [List.drop_succ_cons]

theorem sorted_filter_gt_eq_drop : ∀ (l : List Nat), l.Pairwise (· < ·) →
    ∀ k, k < l.length →
    l.filter (fun j => decide (l.getD k 0 < j)) = l.drop (k + 1) := by
  intro l
  induction l with
  | nil => intro _ k hk; simp at hk
  | cons a r ih =>
      intro hpw k hk
      have hall : ∀ j ∈ r, a < j := (List.pairwise_cons.mp hpw).1
      rcases k with _ | k
      · have hgd : (a :: r).getD 0 0 = a := rfl
        rw [hgd, List.filter_cons]
        have hpa : decide (a < a) = false := by simp
        rw [hpa]
        simp only [Bool.false_eq_true, if_false, List.drop_succ_cons, List.drop_zero]
        refine List.filter_eq_self.mpr ?_
        intro j hj
        simpa using hall j hj
      · have hk2 : k < r.length := by simpa using hk
        have hgd : (a :: r).getD (k + 1) 0 = r.getD k 0 := rfl
        rw [hgd, List.filter_cons]
        have hmem : r.getD k 0 ∈ r := getD_mem_nat hk2
        have hpa : decide (r.getD k 0 < a) = false := by
          simp only [decide_eq_false_iff_not]
          have := hall _ hmem
          omega
        rw [hpa]
        simp only [Bool.false_eq_true, if_false, List.drop_succ_cons]
        exact ih (List.pairwise_cons.mp hpw).2 k hk2

theorem ftXlocs_sorted (t : TernVec) : (ftXlocs t).Pairwise (· < ·) := by
  unfold ftXlocs
  exact (List.pairwise_lt_range t.length).sublist (List.filter_sublist _)

theorem mem_ftXlocs {t : TernVec} {i : Nat} :
    i ∈ ftXlocs t ↔
      (i < t.length ∧ ftLsb0 t ≤ i ∧ (t.getD i TV.unknown).isKnown = false) := by
  unfold ftXlocs
  rw [List.mem_filter, List.mem_range]
  simp [and_assoc]

theorem ftThr_getD_mem {t : TernVec} {m : Nat} (h : ftThr t m = true) :
    (ftXlocs t).getD ((ftXlocs t).length - (m + 1)) 0 ∈ ftXlocs t := by
  unfold ftThr at h
  simp only [decide_eq_true_eq] at h
  exact getD_mem_nat (by omega)

theorem ftLsb0_le_ftLsb (t : TernVec) (m : Nat) : ftLsb0 t ≤ ftLsb t m := by
  unfold ftLsb
  by_cases h : ftThr t m
  · rw [if_pos h]
    have := (mem_ftXlocs.mp (ftThr_getD_mem h)).2.1
    omega
  · rw [if_neg h]

theorem ftLsb_le_length (t : TernVec) (m : Nat) : ftLsb t m ≤ t.length := by
  unfold ftLsb
  by_cases h : ftThr t m
  · rw [if_pos h]
    have := (mem_ftXlocs.mp (ftThr_getD_mem h)).1
    omega
  · rw [if_neg h]
    exact List.findIdx_le_length TV.isKnown

theorem ftWin_eq_filter (t : TernVec) (m : Nat) :
    ftWin t m = (ftXlocs t).filter (fun j => decide (ftLsb t m ≤ j)) := by
  unfold ftWin ftLsb
  by_cases h : ftThr t m
  · rw [if_pos h, if_pos h]
    have hthr : m < (ftXlocs t).length := by
      unfold ftThr at h
      simpa using h
    have hk : (ftXlocs t).length - (m + 1) < (ftXlocs t).length := by omega
    have := sorted_filter_gt_eq_drop (ftXlocs t) (ftXlocs_sorted t) _ hk
    have hidx : (ftXlocs t).length - (m + 1) + 1 = (ftXlocs t).length - m := by omega
    rw [hidx] at this
    rw [← this]
    refine (List.filter_congr ?_).symm
    intro j _
    exact decide_eq_decide.mpr (by omega)
  · rw [if_neg h, if_neg h]
    refine (List.filter_eq_self.mpr ?_).symm
    intro j hj
    have := (mem_ftXlocs.mp hj).2.1
    simpa using this

theorem ftWin_length_le (t : TernVec) (m : Nat) : (ftWin t m).length ≤ m := by
  unfold ftWin
  by_cases h : ftThr t m
  · rw [if_pos h]
    simp only [List.length_drop]
    omega
  · rw [if_neg h]
    unfold ftThr at h
    simp only [decide_eq_true_eq] at h
    omega

theorem countUnknown_drop_lsb (t : TernVec) (m : Nat) :
    countUnknown (t.drop (ftLsb t m)) = (ftWin t m).length := by
  rw [countUnknown_drop, ftWin_eq_filter]
  unfold ftXlocs
  rw [List.filter_filter]
  congr 1
  refine List.filter_congr ?_
  intro i _
  have hle := ftLsb0_le_ftLsb t m
  by_cases h1 : ftLsb t m ≤ i
  · have h0 : ftLsb0 t ≤ i := by omega
    simp [h1, h0]
  · simp [h1]

theorem ftWin_empty_fullyKnown {t : TernVec} {m : Nat}
    (h : (ftWin t m).isEmpty = true) :
    isFullyKnown (t.drop (ftLsb t m)) = true := by
  have hcount : countUnknown (t.drop (ftLsb t m)) = 0 := by
    rw [countUnknown_drop_lsb]
    rcases hww : ftWin t m with _ | ⟨x, xs⟩
    · simp
    · rw [hww] at h
      simp at h
  unfold countUnknown at hcount
  rw [List.countP_eq_zero] at hcount
  unfold isFullyKnown
  rw [List.all_eq_true]
  intro x hx
  have := hcount x hx
  simpa using this

/-! ## FromTernary: budget bound and soundness -/

theorem iv_bound {u L len : Nat} (hL : L ≤ len) (hu : u < 2 ^ (len - L)) :
    u * 2 ^ L + (2 ^ L - 1) < 2 ^ len := by
  have hsplit : 2 ^ (len - L) * 2 ^ L = 2 ^ len := by
    rw [← pow_add]
    congr 1
    omega
  have h1 : (u + 1) * 2 ^ L ≤ 2 ^ (len - L) * 2 ^ L :=
    Nat.mul_le_mul_right _ (by omega)
  have h3 : (u + 1) * 2 ^ L = u * 2 ^ L + 2 ^ L := by ring
  have h2 : 0 < 2 ^ L := Nat.two_pow_pos L
  omega

theorem iv_covers_of_div {x L u : Nat} (hu : x / 2 ^ L = u) :
    Iv.coversB ⟨u * 2 ^ L, u * 2 ^ L + (2 ^ L - 1)⟩ x = true := by
  subst hu
  have hpos : 0 < 2 ^ L := Nat.two_pow_pos L
  have hdm := Nat.div_add_mod x (2 ^ L)
  have hmod := Nat.mod_lt x hpos
  have h1 : 2 ^ L * (x / 2 ^ L) = x / 2 ^ L * 2 ^ L := Nat.mul_comm _ _
  rw [h1] at hdm
  unfold Iv.coversB
  have hp : x / 2 ^ L * 2 ^ L ≤ x / 2 ^ L * 2 ^ L + (2 ^ L - 1) := by omega
  simp only [if_pos hp, Bool.and_eq_true, decide_eq_true_eq]
  omega

theorem div_pow_bound {x L len : Nat} (hL : L ≤ len) (hx : x < 2 ^ len) :
    x / 2 ^ L < 2 ^ (len - L) := by
  have hsplit : 2 ^ (len - L) * 2 ^ L = 2 ^ len := by
    rw [← pow_add]
    congr 1
    omega
  rw [Nat.div_lt_iff_lt_mul (Nat.two_pow_pos L)]
  omega

/-- Amended budget bound: the C++ parameter `max_interval_bits` bounds
the number of result intervals by `2 ^ budget`, not by the budget
itself. -/
theorem fromTernary_count (t : TernVec) (b : Nat) :
    (fromTernary t b).ivals.length ≤ 2 ^ b := by
  have hone : (1 : Nat) ≤ 2 ^ b := Nat.one_le_two_pow
  unfold fromTernary
  by_cases hfk : isFullyKnown t
  · rw [if_pos hfk]
    simpa [IntervalSet.precise] using hone
  · rw [if_neg hfk]
    by_cases hwe : (ftWin t b).isEmpty
    · rw [if_pos hwe]
      have hp : properList
          [⟨toKBV (t.drop (ftLsb t b)) * 2 ^ ftLsb t b,
            toKBV (t.drop (ftLsb t b)) * 2 ^ ftLsb t b + (2 ^ ftLsb t b - 1)⟩] := by
        intro i hi
        simp at hi
        rw [hi]
        simp
      have h1 : (IntervalSet.normalize ⟨t.length,
          [⟨toKBV (t.drop (ftLsb t b)) * 2 ^ ftLsb t b,
            toKBV (t.drop (ftLsb t b)) * 2 ^ ftLsb t b + (2 ^ ftLsb t b - 1)⟩]⟩).ivals.length ≤
          ([⟨toKBV (t.drop (ftLsb t b)) * 2 ^ ftLsb t b,
            toKBV (t.drop (ftLsb t b)) * 2 ^ ftLsb t b + (2 ^ ftLsb t b - 1)⟩] : List Iv).length :=
        normalize_len_le (s := ⟨t.length, _⟩) hp
      have h2 : ([⟨toKBV (t.drop (ftLsb t b)) * 2 ^ ftLsb t b,
            toKBV (t.drop (ftLsb t b)) * 2 ^ ftLsb t b + (2 ^ ftLsb t b - 1)⟩] : List Iv).length
          = 1 := rfl
      omega
    · rw [if_neg hwe]
      have hp : properList ((fillings (t.drop (ftLsb t b))).map
          (fun v => ⟨v * 2 ^ ftLsb t b, v * 2 ^ ftLsb t b + (2 ^ ftLsb t b - 1)⟩)) := by
        intro i hi
        rcases List.mem_map.mp hi with ⟨v, _, rfl⟩
        simp
      have h1 : (IntervalSet.normalize ⟨t.length,
          (fillings (t.drop (ftLsb t b))).map
            (fun v => ⟨v * 2 ^ ftLsb t b, v * 2 ^ ftLsb t b + (2 ^ ftLsb t b - 1)⟩)⟩).ivals.length ≤
          ((fillings (t.drop (ftLsb t b))).map
            (fun v => (⟨v * 2 ^ ftLsb t b, v * 2 ^ ftLsb t b + (2 ^ ftLsb t b - 1)⟩ : Iv))).length :=
        normalize_len_le (s := ⟨t.length, _⟩) hp
      have h2 : ((fillings (t.drop (ftLsb t b))).map
          (fun v => (⟨v * 2 ^ ftLsb t b, v * 2 ^ ftLsb t b + (2 ^ ftLsb t b - 1)⟩ : Iv))).length
          = 2 ^ countUnknown (t.drop (ftLsb t b)) := by
        rw [List.length_map, fillings_length]
      have h3 : countUnknown (t.drop (ftLsb t b)) ≤ b := by
        rw [countUnknown_drop_lsb]
        exact ftWin_length_le t b
      have h4 : (2 : Nat) ^ countUnknown (t.drop (ftLsb t b)) ≤ 2 ^ b :=
        Nat.pow_le_pow_right (by norm_num) h3
      omega

/-- Soundness of `FromTernary` for every budget: every value consistent
with the ternary vector is covered by the result. -/
theorem fromTernary_covers {t : TernVec} {b x : Nat}
    (hc : consistentB t x = true) (hx : x < 2 ^ t.length) :
    (fromTernary t b).coversB x = true := by
  unfold fromTernary
  by_cases hfk : isFullyKnown t
  · rw [if_pos hfk]
    have hx2 : x = toKBV t := consistent_fullyKnown t x hfk hc hx
    unfold IntervalSet.precise IntervalSet.coversB Iv.coversB
    simp [hx2]
  · rw [if_neg hfk]
    have hLlen : ftLsb t b ≤ t.length := ftLsb_le_length t b
    have hdivb : x / 2 ^ ftLsb t b < 2 ^ (t.length - ftLsb t b) :=
      div_pow_bound hLlen hx
    have hcd : consistentB (t.drop (ftLsb t b)) (x / 2 ^ ftLsb t b) = true :=
      consistent_drop (ftLsb t b) t x hc
    have hdl : (t.drop (ftLsb t b)).length = t.length - ftLsb t b :=
      List.length_drop _ _
    by_cases hwe : (ftWin t b).isEmpty
    · rw [if_pos hwe]
      have hfk2 := ftWin_empty_fullyKnown hwe
      have hval : x / 2 ^ ftLsb t b = toKBV (t.drop (ftLsb t b)) :=
        consistent_fullyKnown _ _ hfk2 hcd (by rw [hdl]; exact hdivb)
      have hkbv : toKBV (t.drop (ftLsb t b)) < 2 ^ (t.length - ftLsb t b) := by
        have := toKBV_lt (t.drop (ftLsb t b))
        rwa [hdl] at this
      have hwf : wfList t.length
          [⟨toKBV (t.drop (ftLsb t b)) * 2 ^ ftLsb t b,
            toKBV (t.drop (ftLsb t b)) * 2 ^ ftLsb t b + (2 ^ ftLsb t b - 1)⟩] := by
        intro i hi
        simp at hi
        rw [hi]
        have := iv_bound hLlen hkbv
        constructor <;> simp <;> omega
      rw [normalize_covers (s := ⟨t.length, _⟩) hwf hx]
      unfold IntervalSet.coversB
      simp only [List.any_cons, List.any_nil, Bool.or_false]
      exact iv_covers_of_div hval
    · rw [if_neg hwe]
      have hmem : x / 2 ^ ftLsb t b ∈ fillings (t.drop (ftLsb t b)) :=
        (mem_fillings _ _).mpr ⟨hcd, by rw [hdl]; exact hdivb⟩
      have hwf : wfList t.length ((fillings (t.drop (ftLsb t b))).map
          (fun v => ⟨v * 2 ^ ftLsb t b, v * 2 ^ ftLsb t b + (2 ^ ftLsb t b - 1)⟩)) := by
        intro i hi
        rcases List.mem_map.mp hi with ⟨v, hv, rfl⟩
        have hvb : v < 2 ^ (t.length - ftLsb t b) := by
          have := ((mem_fillings _ _).mp hv).2
          rwa [hdl] at this
        have := iv_bound hLlen hvb
        constructor <;> simp <;> omega
      rw [normalize_covers (s := ⟨t.length, _⟩) hwf hx]
      unfold IntervalSet.coversB
      rw [List.any_eq_true]
      refine ⟨⟨x / 2 ^ ftLsb t b * 2 ^ ftLsb t b,
        x / 2 ^ ftLsb t b * 2 ^ ftLsb t b + (2 ^ ftLsb t b - 1)⟩,
        List.mem_map_of_mem _ hmem, iv_covers_of_div rfl⟩

theorem fromTernary_width (t : TernVec) (b : Nat) :
    (fromTernary t b).width = t.length := by
  unfold fromTernary
  by_cases hfk : isFullyKnown t
  · rw [if_pos hfk]; rfl
  · rw [if_neg hfk]
    by_cases hwe : (ftWin t b).isEmpty
    · rw [if_pos hwe]; rfl
    · rw [if_neg hwe]; rfl

/-! ## ExtractTernary: consistency -/

theorem getBit_zero_eq (x : Nat) : getBit x 0 = (x % 2 == 1) := by
  unfold getBit
  rw [pow_zero, Nat.div_one]

theorem getBit_div2 (x i : Nat) : getBit (x / 2) i = getBit x (i + 1) := by
  unfold getBit
  rw [Nat.div_div_eq_div_mul]
  congr 2
  rw [pow_succ]
  ring

theorem getBit_div_pow (x k j : Nat) : getBit (x / 2 ^ k) j = getBit x (k + j) := by
  unfold getBit
  rw [Nat.div_div_eq_div_mul]
  congr 2
  rw [pow_add]

theorem consistentB_range_map : ∀ (w : Nat) (f : Nat → TV) (x : Nat),
    (∀ i, i < w → (f i = TV.one → getBit x i = true) ∧
      (f i = TV.zero → getBit x i = false)) →
    consistentB ((List.range w).map f) x = true := by
  intro w
  induction w with
  | zero => intro f x _; rfl
  | succ n ih =>
      intro f x h
      rw [List.range_succ_eq_map, List.map_cons, List.map_map]
      unfold consistentB
      simp only [Bool.and_eq_true]
      constructor
      · have h0 := h 0 (by omega)
        rcases hf : f 0 with _ | _ | _
        · have := (h0.2) hf
          rw [getBit_zero_eq] at this
          simpa using this
        · have := (h0.1) hf
          rw [getBit_zero_eq] at this
          simpa using this
        · simp
      · have hcomp : (f ∘ Nat.succ) = fun i => f (i + 1) := rfl
        rw [hcomp]
        refine ih (fun i => f (i + 1)) (x / 2) ?_
        intro i hi
        have := h (i + 1) (by omega)
        rw [← getBit_div2] at this
        exact this

theorem lcpLen_le : ∀ (w lo hi : Nat), lcpLen w lo hi ≤ w := by
  intro w
  induction w with
  | zero => intro lo hi; simp [lcpLen]
  | succ n ih =>
      intro lo hi
      unfold lcpLen
      by_cases h : lo / 2 ^ n == hi / 2 ^ n
      · rw [if_pos h]
        have := ih (lo % 2 ^ n) (hi % 2 ^ n)
        omega
      · rw [if_neg h]
        omega

theorem lcp_div_eq : ∀ (w lo hi : Nat), lo < 2 ^ w → hi < 2 ^ w →
    lo / 2 ^ (w - lcpLen w lo hi) = hi / 2 ^ (w - lcpLen w lo hi) := by
  intro w
  induction w with
  | zero =>
      intro lo hi hlo hhi
      have h0 : lo = 0 := by simpa using hlo
      have h1 : hi = 0 := by simpa using hhi
      rw [h0, h1]
  | succ n ih =>
      intro lo hi hlo hhi
      unfold lcpLen
      by_cases h : lo / 2 ^ n == hi / 2 ^ n
      · rw [if_pos h]
        have heq : lo / 2 ^ n = hi / 2 ^ n := by simpa using h
        have hple := lcpLen_le n (lo % 2 ^ n) (hi % 2 ^ n)
        have hidx : n + 1 - (1 + lcpLen n (lo % 2 ^ n) (hi % 2 ^ n)) =
            n - lcpLen n (lo % 2 ^ n) (hi % 2 ^ n) := by omega
        rw [hidx]
        have hmod := ih (lo % 2 ^ n) (hi % 2 ^ n)
          (Nat.mod_lt _ (Nat.two_pow_pos n)) (Nat.mod_lt _ (Nat.two_pow_pos n))
        have hpos : 0 < 2 ^ (n - lcpLen n (lo % 2 ^ n) (hi % 2 ^ n)) :=
          Nat.two_pow_pos _
        have hka : 2 ^ (n - lcpLen n (lo % 2 ^ n) (hi % 2 ^ n)) *
            2 ^ lcpLen n (lo % 2 ^ n) (hi % 2 ^ n) = 2 ^ n := by
          rw [← pow_add]
          congr 1
          omega
        have hdecomp : ∀ z : Nat,
            z / 2 ^ (n - lcpLen n (lo % 2 ^ n) (hi % 2 ^ n)) =
            2 ^ lcpLen n (lo % 2 ^ n) (hi % 2 ^ n) * (z / 2 ^ n) +
              (z % 2 ^ n) / 2 ^ (n - lcpLen n (lo % 2 ^ n) (hi % 2 ^ n)) := by
          intro z
          have hz := Nat.div_add_mod z (2 ^ n)
          have hrw : 2 ^ (n - lcpLen n (lo % 2 ^ n) (hi % 2 ^ n)) *
              (2 ^ lcpLen n (lo % 2 ^ n) (hi % 2 ^ n) * (z / 2 ^ n)) + z % 2 ^ n = z := by
            rw [← mul_assoc, hka]
            exact hz
          have hstep := Nat.mul_add_div hpos
            (2 ^ lcpLen n (lo % 2 ^ n) (hi % 2 ^ n) * (z / 2 ^ n)) (z % 2 ^ n)
          rw [hrw] at hstep
          exact hstep
        rw [hdecomp lo, hdecomp hi, heq, hmod]
      · rw [if_neg h]
        simp only [Nat.sub_zero]
        rw [Nat.div_eq_of_lt hlo, Nat.div_eq_of_lt hhi]

theorem extract_interval_consistent {w : Nat} {iv : Iv} {v : Nat}
    (h1 : iv.lo ≤ v) (h2 : v ≤ iv.hi)
    (hlo : iv.lo < 2 ^ w) (hhi : iv.hi < 2 ^ w) :
    consistentB (extractTernaryInterval w iv) v = true := by
  unfold extractTernaryInterval
  refine consistentB_range_map w _ v ?_
  intro i hiw
  have hvb : v < 2 ^ w := lt_of_le_of_lt h2 hhi
  by_cases hcase : w - lcpLen w iv.lo iv.hi ≤ i
  · have hdivs : v / 2 ^ (w - lcpLen w iv.lo iv.hi) =
        iv.lo / 2 ^ (w - lcpLen w iv.lo iv.hi) := by
      have hmono1 : iv.lo / 2 ^ (w - lcpLen w iv.lo iv.hi) ≤
          v / 2 ^ (w - lcpLen w iv.lo iv.hi) := Nat.div_le_div_right h1
      have hmono2 : v / 2 ^ (w - lcpLen w iv.lo iv.hi) ≤
          iv.hi / 2 ^ (w - lcpLen w iv.lo iv.hi) := Nat.div_le_div_right h2
      have := lcp_div_eq w iv.lo iv.hi hlo hhi
      omega
    have hbit : getBit v i = getBit iv.lo i := by
      have hsum : (w - lcpLen w iv.lo iv.hi) + (i - (w - lcpLen w iv.lo iv.hi)) = i := by
        omega
      rw [← hsum, ← getBit_div_pow, ← getBit_div_pow, hdivs]
    rw [if_pos hcase]
    by_cases hb : getBit iv.lo i
    · rw [if_pos hb]
      refine ⟨fun _ => by rw [hbit]; exact hb, fun hcontra => ?_⟩
      simp at hcontra
    · rw [if_neg hb]
      refine ⟨fun hcontra => ?_, fun _ => by rw [hbit]; simpa using hb⟩
      simp at hcontra
  · rw [if_neg hcase]
    exact ⟨fun hcontra => by simp at hcontra, fun hcontra => by simp at hcontra⟩

theorem meet_consistent_left : ∀ (a b : TernVec) (x : Nat),
    consistentB a x = true → consistentB (updateWithIntersection a b) x = true := by
  intro a
  induction a with
  | nil => intro b x _; simp [updateWithIntersection, consistentB]
  | cons a0 as ih =>
      intro b x h
      rcases b with _ | ⟨b0, bs⟩
      · simp [updateWithIntersection, consistentB]
      · unfold updateWithIntersection at ih ⊢
        rw [List.zipWith_cons_cons]
        unfold consistentB at h ⊢
        simp only [Bool.and_eq_true] at h ⊢
        refine ⟨?_, ih bs (x / 2) h.2⟩
        unfold TV.meet
        by_cases he : a0 = b0
        · rw [if_pos he]; exact h.1
        · rw [if_neg he]

theorem meet_consistent_right : ∀ (a b : TernVec) (x : Nat),
    consistentB b x = true → consistentB (updateWithIntersection a b) x = true := by
  intro a
  induction a with
  | nil => intro b x _; simp [updateWithIntersection, consistentB]
  | cons a0 as ih =>
      intro b x h
      rcases b with _ | ⟨b0, bs⟩
      · simp [updateWithIntersection, consistentB]
      · unfold updateWithIntersection at ih ⊢
        rw [List.zipWith_cons_cons]
        unfold consistentB at h ⊢
        simp only [Bool.and_eq_true] at h ⊢
        refine ⟨?_, ih bs (x / 2) h.2⟩
        unfold TV.meet
        by_cases he : a0 = b0
        · rw [if_pos he, he]
          exact h.1
        · rw [if_neg he]

theorem extract_fold_consistent {w : Nat} {v : Nat} :
    ∀ (l : List Iv) (acc : TernVec),
    (consistentB acc v = true ∨
      ∃ j ∈ l, consistentB (extractTernaryInterval w j) v = true) →
    consistentB (l.foldl (fun acc j =>
      updateWithIntersection acc (extractTernaryInterval w j)) acc) v = true := by
  intro l
  induction l with
  | nil =>
      intro acc h
      rcases h with h | ⟨j, hj, _⟩
      · exact h
      · simp at hj
  | cons j0 rest ih =>
      intro acc h
      rw [List.foldl_cons]
      rcases h with h | ⟨j, hj, hcons⟩
      · exact ih _ (Or.inl (meet_consistent_left _ _ _ h))
      · rcases List.mem_cons.mp hj with rfl | hj2
        · exact ih _ (Or.inl (meet_consistent_right _ _ _ hcons))
        · exact ih _ (Or.inr ⟨j, hj2, hcons⟩)

/-- Soundness of `ExtractTernaryVector`: every value in a normalized,
non-empty interval set agrees with every known bit of the extracted
ternary vector. -/
theorem extractTernaryVector_consistent {s : IntervalSet} {v : Nat}
    (hn : s.Normalized) (hw : s.wf) (hcov : s.coversB v = true) :
    consistentB (extractTernaryVector s) v = true := by
  unfold extractTernaryVector
  unfold IntervalSet.coversB at hcov
  rw [List.any_eq_true] at hcov
  rcases hcov with ⟨j, hj, hcj⟩
  have hjp : j.lo ≤ j.hi := hn.1 j hj
  have hjw := hw j hj
  unfold Iv.coversB at hcj
  rw [if_pos hjp] at hcj
  simp only [Bool.and_eq_true, decide_eq_true_eq] at hcj
  have hjcons : consistentB (extractTernaryInterval s.width j) v = true :=
    extract_interval_consistent hcj.1 hcj.2 hjw.1 hjw.2
  rcases hres : s.ivals with _ | ⟨i0, rest⟩
  · rw [hres] at hj
    simp at hj
  · rw [hres] at hj
    rcases List.mem_cons.mp hj with rfl | hj2
    · exact extract_fold_consistent rest _ (Or.inl hjcons)
    · exact extract_fold_consistent rest _ (Or.inr ⟨j, hj2, hjcons⟩)

/-! ## The variadic transfer-function harness (interval_ops.cc) -/

/-- The result of a concrete corner computation plus overflow flags
(`OverflowResult` in interval_ops.cc). -/
structure OverflowResult where
  result : Nat
  of1 : Bool
  of2 : Bool
deriving DecidableEq, Repr

/-- Tonicity of an operand (interval_ops.cc `Tonicity`). -/
inductive Tonicity
  | monotone
  | antitone
deriving DecidableEq, Repr

/-- Per-operand minimization: ≤ 5 intervals for the first 12 operands,
1 afterwards (interval_ops.cc, PerformVariadicOp). -/
def minimizeOperands : Nat → List IntervalSet → List IntervalSet
  | _, [] => []
  | i, s :: ss =>
      minimizeIntervals s (if i < 12 then 5 else 1) :: minimizeOperands (i + 1) ss

/-- All mixed-radix index tuples (`MixedRadixIterate` enumeration). -/
def allTuples : List Nat → List (List Nat)
  | [] => [[]]
  | r :: rs => (List.range r).flatMap (fun i => (allTuples rs).map (fun tu => i :: tu))

/-- The per-tuple corner values: monotone operands contribute
`(lo, hi)`, antitone operands `(hi, lo)`. -/
def cornerBounds : List IntervalSet → List Tonicity → List Nat →
    List Nat × List Nat
  | [], _, _ => ([], [])
  | _ :: _, [], _ => ([], [])
  | _ :: _, _ :: _, [] => ([], [])
  | s :: ss, tn :: ts, j :: js =>
      let iv := s.ivals.getD j ⟨0, 0⟩
      let rest := cornerBounds ss ts js
      match tn with
      | Tonicity.monotone => (iv.lo :: rest.1, iv.hi :: rest.2)
      | Tonicity.antitone => (iv.hi :: rest.1, iv.lo :: rest.2)

/-- One iteration of the enumeration: classify the corner results and
emit intervals; the returned flag short-circuits the enumeration
(interval_ops.cc, the `MixedRadixIterate` callback). -/
def harnessStep (cal : List Nat → OverflowResult) (w : Nat)
    (operands : List IntervalSet) (tonicities : List Tonicity)
    (acc : List Iv) (idxs : List Nat) : List Iv × Bool :=
  let c := cornerBounds operands tonicities idxs
  let lower := cal c.1
  let upper := cal c.2
  if lower.of1 = false ∧ upper.of1 = false then
    (acc ++ [⟨lower.result, upper.result⟩], false)
  else if (lower.of1 = true ∧ upper.of1 = true) ∨ lower.of2 = true ∨
      upper.of2 = true ∨ lower.result < upper.result then
    (acc ++ [⟨0, 2 ^ w - 1⟩], true)
  else
    (acc ++ [⟨lower.result, 2 ^ w - 1⟩, ⟨0, upper.result⟩], false)

/-- Run the enumeration with short-circuiting. -/
def runTuples (step : List Iv → List Nat → List Iv × Bool) :
    List (List Nat) → List Iv → List Iv
  | [], acc => acc
  | tu :: rest, acc =>
      let r := step acc tu
      if r.2 then r.1 else runTuples step rest r.1

/-- `PerformVariadicOp` from interval_ops.cc: minimize the operands,
enumerate one interval choice per operand, emit corner intervals,
normalize and minimize to ≤ 16 intervals. -/
def performVariadicOp (cal : List Nat → OverflowResult)
    (tonicities : List Tonicity) (inputs : List IntervalSet) (w : Nat) :
    IntervalSet :=
  let operands := minimizeOperands 0 inputs
  let radix := operands.map (fun s => s.ivals.length)
  let ivs := runTuples (harnessStep cal w operands tonicities) (allTuples radix) []
  minimizeIntervals (IntervalSet.normalize ⟨w, ivs⟩) 16

/-- `PerformBinOp` (interval_ops.cc). -/
def performBinOp (cal : Nat → Nat → OverflowResult) (lhs : IntervalSet)
    (lt : Tonicity) (rhs : IntervalSet) (rt : Tonicity) (w : Nat) : IntervalSet :=
  performVariadicOp
    (fun l => match l with
      | [a, b] => cal a b
      | _ => ⟨0, false, false⟩)
    [lt, rt] [lhs, rhs] w

/-- `PerformUnaryOp` (interval_ops.cc). -/
def performUnaryOp (cal : Nat → OverflowResult) (arg : IntervalSet)
    (t : Tonicity) (w : Nat) : IntervalSet :=
  performVariadicOp
    (fun l => match l with
      | [a] => cal a
      | _ => ⟨0, false, false⟩)
    [t] [arg] w

/-- Componentwise membership of a concrete operand bundle in a list of
interval sets (with the width bound of each operand). -/
def MemAll : List IntervalSet → List Nat → Prop
  | [], [] => True
  | s :: ss, x :: xs => s.coversB x = true ∧ x < 2 ^ s.width ∧ MemAll ss xs
  | _, _ => False

/-- The chosen index tuple selects, for each operand, a proper interval
containing the concrete value. -/
def ContainsAt : List IntervalSet → List Nat → List Nat → Prop
  | [], [], [] => True
  | s :: ss, j :: js, x :: xs =>
      j < s.ivals.length ∧ (s.ivals.getD j ⟨0, 0⟩).lo ≤ x ∧
        x ≤ (s.ivals.getD j ⟨0, 0⟩).hi ∧ ContainsAt ss js xs
  | _, _, _ => False

/-- Pointwise equal widths of two interval-set lists. -/
def WidthEq : List IntervalSet → List IntervalSet → Prop
  | [], [] => True
  | a :: as, b :: bs => a.width = b.width ∧ WidthEq as bs
  | _, _ => False

/-- The corner bundles bracket the concrete bundle according to each
operand's tonicity, and each corner fits the width of the corresponding
input. -/
def tonBound : Tonicity → Nat → Nat → Nat → Prop
  | Tonicity.monotone, l, x, u => l ≤ x ∧ x ≤ u
  | Tonicity.antitone, l, x, u => u ≤ x ∧ x ≤ l

def Aligned : List Tonicity → List IntervalSet → List Nat → List Nat → List Nat → Prop
  | [], [], [], [], [] => True
  | tn :: ts, s :: ss, l :: ls, x :: xs, u :: us =>
      l < 2 ^ s.width ∧ u < 2 ^ s.width ∧
      tonBound tn l x u ∧ Aligned ts ss ls xs us
  | _, _, _, _, _ => False

/-- What each concrete operation must guarantee about its corner results
for the harness classification to be sound at concrete result `R`. -/
def CornersOK (w : Nat) (L U : OverflowResult) (R : Nat) : Prop :=
  (L.of1 = false → U.of1 = false → Iv.coversB ⟨L.result, U.result⟩ R = true) ∧
  (L.of1 ≠ U.of1 → L.of2 = false → U.of2 = false → ¬(L.result < U.result) →
    (L.result ≤ R ∨ R ≤ U.result))

/-! ## Soundness of the harness -/

theorem ivals_getD {l : List Iv} {j : Nat} (hj : j < l.length) :
    l.getD j ⟨0, 0⟩ = l[j] := by
  rw [List.getD_eq_getElem?_getD, List.getElem?_eq_getElem hj]
  rfl

theorem covers_to_index {s : IntervalSet} {v : Nat} (hn : s.Normalized)
    (hcov : s.coversB v = true) :
    ∃ j, j < s.ivals.length ∧ (s.ivals.getD j ⟨0, 0⟩).lo ≤ v ∧
      v ≤ (s.ivals.getD j ⟨0, 0⟩).hi := by
  unfold IntervalSet.coversB at hcov
  rw [List.any_eq_true] at hcov
  rcases hcov with ⟨iv, hiv, hciv⟩
  rcases List.mem_iff_getElem.mp hiv with ⟨j, hj, hget⟩
  have hp : iv.lo ≤ iv.hi := hn.1 iv hiv
  unfold Iv.coversB at hciv
  rw [if_pos hp] at hciv
  simp only [Bool.and_eq_true, decide_eq_true_eq] at hciv
  refine ⟨j, hj, ?_, ?_⟩
  · rw [ivals_getD hj, hget]; exact hciv.1
  · rw [ivals_getD hj, hget]; exact hciv.2

theorem minimizeOperands_facts : ∀ (i : Nat) (inputs : List IntervalSet) (xs : List Nat),
    (∀ s ∈ inputs, s.wf) → MemAll inputs xs →
    MemAll (minimizeOperands i inputs) xs ∧
      (∀ s ∈ minimizeOperands i inputs, s.Normalized) := by
  intro i inputs
  induction inputs generalizing i with
  | nil =>
      intro xs _ hmem
      rcases xs with _ | ⟨x, xs⟩
      · exact ⟨trivial, by intro s hs; simp [minimizeOperands] at hs⟩
      · exact absurd hmem (by simp [MemAll])
  | cons s ss ih =>
      intro xs hwf hmem
      rcases xs with _ | ⟨x, xs⟩
      · exact absurd hmem (by simp [MemAll])
      · unfold MemAll at hmem
        rcases hmem with ⟨hcov, hxw, hrest⟩
        have hswf : s.wf := hwf s (by simp)
        have hm := minimizeIntervals_main s (if i < 12 then 5 else 1) hswf
        have hwidth := minimizeIntervals_width s (if i < 12 then 5 else 1)
        rcases ih (i + 1) xs (fun u hu => hwf u (by simp [hu])) hrest with ⟨ih1, ih2⟩
        refine ⟨?_, ?_⟩
        · unfold minimizeOperands MemAll
          refine ⟨hm.2.2.1 x hxw hcov, ?_, ih1⟩
          rw [hwidth]
          exact hxw
        · intro u hu
          unfold minimizeOperands at hu
          rcases List.mem_cons.mp hu with rfl | hu2
          · exact hm.1
          · exact ih2 u hu2

theorem exists_tuple : ∀ (ops : List IntervalSet) (xs : List Nat),
    (∀ s ∈ ops, s.Normalized) → MemAll ops xs →
    ∃ idxs, idxs ∈ allTuples (ops.map (fun s => s.ivals.length)) ∧
      ContainsAt ops idxs xs := by
  intro ops
  induction ops with
  | nil =>
      intro xs _ hmem
      rcases xs with _ | ⟨x, xs⟩
      · exact ⟨[], by simp [allTuples], trivial⟩
      · exact absurd hmem (by simp [MemAll])
  | cons s ss ih =>
      intro xs hn hmem
      rcases xs with _ | ⟨x, xs⟩
      · exact absurd hmem (by simp [MemAll])
      · unfold MemAll at hmem
        rcases hmem with ⟨hcov, _, hrest⟩
        rcases covers_to_index (hn s (by simp)) hcov with ⟨j, hj, hjlo, hjhi⟩
        rcases ih xs (fun u hu => hn u (by simp [hu])) hrest with ⟨idxs, hmem2, hcont⟩
        refine ⟨j :: idxs, ?_, ?_⟩
        · rw [List.map_cons]
          unfold allTuples
          rw [List.mem_flatMap]
          exact ⟨j, List.mem_range.mpr hj, List.mem_map_of_mem _ hmem2⟩
        · exact ⟨hj, hjlo, hjhi, hcont⟩

theorem minimizeOperands_ww : ∀ (i : Nat) (inputs : List IntervalSet),
    (∀ s ∈ inputs, s.wf) →
    WidthEq inputs (minimizeOperands i inputs) ∧
      (∀ s ∈ minimizeOperands i inputs, s.wf) := by
  intro i inputs
  induction inputs generalizing i with
  | nil => intro _; exact ⟨trivial, by intro s hs; simp [minimizeOperands] at hs⟩
  | cons s ss ih =>
      intro hwf
      have hswf : s.wf := hwf s (by simp)
      have hm := minimizeIntervals_main s (if i < 12 then 5 else 1) hswf
      have hwidth := minimizeIntervals_width s (if i < 12 then 5 else 1)
      rcases ih (i + 1) (fun u hu => hwf u (by simp [hu])) with ⟨ih1, ih2⟩
      refine ⟨⟨hwidth.symm, ih1⟩, ?_⟩
      intro u hu
      unfold minimizeOperands at hu
      rcases List.mem_cons.mp hu with rfl | hu2
      · exact hm.2.1
      · exact ih2 u hu2

theorem cornerBounds_aligned : ∀ (inputs ops : List IntervalSet) (tons : List Tonicity)
    (idxs xs : List Nat), WidthEq inputs ops → tons.length = ops.length →
    (∀ s ∈ ops, s.wf) → ContainsAt ops idxs xs →
    Aligned tons inputs (cornerBounds ops tons idxs).1 xs
      (cornerBounds ops tons idxs).2 := by
  intro inputs ops
  induction ops generalizing inputs with
  | nil =>
      intro tons idxs xs hweq hlen _ hcont
      rcases inputs with _ | ⟨a, as⟩
      · rcases tons with _ | ⟨t, ts⟩
        · rcases idxs with _ | _
          · rcases xs with _ | _
            · exact trivial
            · exact absurd hcont (by simp [ContainsAt])
          · rcases xs with _ | _ <;> exact absurd hcont (by simp [ContainsAt])
        · simp at hlen
      · exact absurd hweq (by simp [WidthEq])
  | cons s ss ih =>
      intro tons idxs xs hweq hlen hwf hcont
      rcases inputs with _ | ⟨a, as⟩
      · exact absurd hweq (by simp [WidthEq])
      · rcases tons with _ | ⟨tn, ts⟩
        · simp at hlen
        · rcases idxs with _ | ⟨j, js⟩
          · exact absurd hcont (by simp [ContainsAt])
          · rcases xs with _ | ⟨x, xs⟩
            · exact absurd hcont (by simp [ContainsAt])
            · unfold ContainsAt at hcont
              rcases hcont with ⟨hj, hlo, hhi, hrest⟩
              unfold WidthEq at hweq
              rcases hweq with ⟨hwq, hweq2⟩
              have hlen2 : ts.length = ss.length := by simpa using hlen
              have hivmem : s.ivals.getD j ⟨0, 0⟩ ∈ s.ivals := by
                rw [ivals_getD hj]
                exact List.getElem_mem hj
              have hivwf := hwf s (by simp) _ hivmem
              have ihs := ih as ts js xs hweq2 hlen2
                (fun u hu => hwf u (by simp [hu])) hrest
              unfold cornerBounds
              rcases tn with _ | _
              · exact ⟨by rw [hwq]; exact hivwf.1, by rw [hwq]; exact hivwf.2,
                  ⟨hlo, hhi⟩, ihs⟩
              · exact ⟨by rw [hwq]; exact hivwf.2, by rw [hwq]; exact hivwf.1,
                  ⟨hlo, hhi⟩, ihs⟩

theorem runTuples_any_mono {step : List Iv → List Nat → List Iv × Bool}
    {p : Iv → Bool}
    (hgrow : ∀ acc tu, ∃ add, (step acc tu).1 = acc ++ add) :
    ∀ (l : List (List Nat)) (acc : List Iv), acc.any p = true →
    (runTuples step l acc).any p = true := by
  intro l
  induction l with
  | nil => intro acc h; exact h
  | cons tu rest ih =>
      intro acc h
      unfold runTuples
      rcases hgrow acc tu with ⟨add, hadd⟩
      have h2 : (step acc tu).1.any p = true := by
        rw [hadd, List.any_append, h]
        simp
      by_cases hstop : (step acc tu).2
      · simp only [hstop, if_true]
        exact h2
      · simp only [hstop, Bool.false_eq_true, if_false]
        exact ih _ h2

theorem runTuples_covers {step : List Iv → List Nat → List Iv × Bool}
    {p : Iv → Bool} {tu : List Nat}
    (hgrow : ∀ acc tu2, ∃ add, (step acc tu2).1 = acc ++ add)
    (hstop : ∀ acc tu2, (step acc tu2).2 = true → (step acc tu2).1.any p = true)
    (htucov : ∀ acc, (step acc tu).1.any p = true) :
    ∀ (l : List (List Nat)) (acc : List Iv), tu ∈ l →
    (runTuples step l acc).any p = true := by
  intro l
  induction l with
  | nil => intro acc h; simp at h
  | cons hd rest ih =>
      intro acc hmem
      unfold runTuples
      by_cases hs : (step acc hd).2
      · simp only [hs, if_true]
        exact hstop acc hd hs
      · simp only [hs, Bool.false_eq_true, if_false]
        rcases List.mem_cons.mp hmem with rfl | hmem2
        · exact runTuples_any_mono hgrow rest _ (htucov acc)
        · exact ih _ hmem2

theorem runTuples_wf {step : List Iv → List Nat → List Iv × Bool} {w : Nat}
    (hstep : ∀ acc tu, wfList w acc → wfList w (step acc tu).1) :
    ∀ (l : List (List Nat)) (acc : List Iv), wfList w acc →
    wfList w (runTuples step l acc) := by
  intro l
  induction l with
  | nil => intro acc h; exact h
  | cons tu rest ih =>
      intro acc h
      unfold runTuples
      by_cases hs : (step acc tu).2
      · simp only [hs, if_true]
        exact hstep acc tu h
      · simp only [hs, Bool.false_eq_true, if_false]
        exact ih _ (hstep acc tu h)

theorem minimizeOperands_length : ∀ (i : Nat) (inputs : List IntervalSet),
    (minimizeOperands i inputs).length = inputs.length := by
  intro i inputs
  induction inputs generalizing i with
  | nil => rfl
  | cons s ss ih =>
      unfold minimizeOperands
      simp [ih]

/-- Master soundness theorem for `PerformVariadicOp`: if every concrete
operand lies in its interval set and the concrete operation satisfies
the corner condition, the concrete result is covered. -/
theorem performVariadicOp_covers
    (cal : List Nat → OverflowResult) (tons : List Tonicity)
    (inputs : List IntervalSet) (w : Nat) (xs : List Nat) (R : Nat)
    (hlen1 : tons.length = inputs.length)
    (hmem : MemAll inputs xs)
    (hwf : ∀ s ∈ inputs, s.wf)
    (hR : R < 2 ^ w)
    (hcalw : ∀ bs, (cal bs).result < 2 ^ w)
    (hcorner : ∀ lows highs, Aligned tons inputs lows xs highs →
      CornersOK w (cal lows) (cal highs) R) :
    (performVariadicOp cal tons inputs w).coversB R = true := by
  rcases minimizeOperands_facts 0 inputs xs hwf hmem with ⟨hops_mem, hops_norm⟩
  have hops_len : (minimizeOperands 0 inputs).length = inputs.length :=
    minimizeOperands_length 0 inputs
  rcases exists_tuple (minimizeOperands 0 inputs) xs hops_norm hops_mem with
    ⟨idxs, htu, hcont⟩
  rcases minimizeOperands_ww 0 inputs hwf with ⟨hweq, hops_wf⟩
  have haligned := cornerBounds_aligned inputs (minimizeOperands 0 inputs) tons idxs xs
    hweq (by rw [hlen1, hops_len]) hops_wf hcont
  have hck := hcorner _ _ haligned
  unfold performVariadicOp
  -- the raw interval list from the enumeration
  have hgrow : ∀ acc tu2, ∃ add,
      (harnessStep cal w (minimizeOperands 0 inputs) tons acc tu2).1 = acc ++ add := by
    intro acc tu2
    unfold harnessStep
    by_cases h1 : (cal (cornerBounds (minimizeOperands 0 inputs) tons tu2).1).of1 = false ∧
        (cal (cornerBounds (minimizeOperands 0 inputs) tons tu2).2).of1 = false
    · exact ⟨_, by rw [if_pos h1]⟩
    · rw [if_neg h1]
      by_cases h2 : ((cal (cornerBounds (minimizeOperands 0 inputs) tons tu2).1).of1 = true ∧
            (cal (cornerBounds (minimizeOperands 0 inputs) tons tu2).2).of1 = true) ∨
          (cal (cornerBounds (minimizeOperands 0 inputs) tons tu2).1).of2 = true ∨
          (cal (cornerBounds (minimizeOperands 0 inputs) tons tu2).2).of2 = true ∨
          (cal (cornerBounds (minimizeOperands 0 inputs) tons tu2).1).result <
            (cal (cornerBounds (minimizeOperands 0 inputs) tons tu2).2).result
      · exact ⟨_, by rw [if_pos h2]⟩
      · exact ⟨_, by rw [if_neg h2]⟩
  have hstop : ∀ acc tu2,
      (harnessStep cal w (minimizeOperands 0 inputs) tons acc tu2).2 = true →
      (harnessStep cal w (minimizeOperands 0 inputs) tons acc tu2).1.any
        (fun i => i.coversB R) = true := by
    intro acc tu2 hs
    unfold harnessStep at hs ⊢
    by_cases h1 : (cal (cornerBounds (minimizeOperands 0 inputs) tons tu2).1).of1 = false ∧
        (cal (cornerBounds (minimizeOperands 0 inputs) tons tu2).2).of1 = false
    · rw [if_pos h1] at hs
      simp at hs
    · rw [if_neg h1] at hs ⊢
      by_cases h2 : ((cal (cornerBounds (minimizeOperands 0 inputs) tons tu2).1).of1 = true ∧
            (cal (cornerBounds (minimizeOperands 0 inputs) tons tu2).2).of1 = true) ∨
          (cal (cornerBounds (minimizeOperands 0 inputs) tons tu2).1).of2 = true ∨
          (cal (cornerBounds (minimizeOperands 0 inputs) tons tu2).2).of2 = true ∨
          (cal (cornerBounds (minimizeOperands 0 inputs) tons tu2).1).result <
            (cal (cornerBounds (minimizeOperands 0 inputs) tons tu2).2).result
      · rw [if_pos h2]
        simp only [List.any_append, List.any_cons, List.any_nil, Bool.or_false]
        have : Iv.coversB ⟨0, 2 ^ w - 1⟩ R = true := by
          unfold Iv.coversB
          rw [if_pos (Nat.zero_le _)]
          simp only [Bool.and_eq_true, decide_eq_true_eq]
          omega
        rw [this]
        simp
      · rw [if_neg h2] at hs
        simp at hs
  have htucov : ∀ acc,
      (harnessStep cal w (minimizeOperands 0 inputs) tons acc idxs).1.any
        (fun i => i.coversB R) = true := by
    intro acc
    unfold harnessStep
    rcases hck with ⟨hnoof, honesided⟩
    by_cases h1 : (cal (cornerBounds (minimizeOperands 0 inputs) tons idxs).1).of1 = false ∧
        (cal (cornerBounds (minimizeOperands 0 inputs) tons idxs).2).of1 = false
    · rw [if_pos h1]
      simp only [List.any_append, List.any_cons, List.any_nil, Bool.or_false]
      rw [hnoof h1.1 h1.2]
      simp
    · rw [if_neg h1]
      by_cases h2 : ((cal (cornerBounds (minimizeOperands 0 inputs) tons idxs).1).of1 = true ∧
            (cal (cornerBounds (minimizeOperands 0 inputs) tons idxs).2).of1 = true) ∨
          (cal (cornerBounds (minimizeOperands 0 inputs) tons idxs).1).of2 = true ∨
          (cal (cornerBounds (minimizeOperands 0 inputs) tons idxs).2).of2 = true ∨
          (cal (cornerBounds (minimizeOperands 0 inputs) tons idxs).1).result <
            (cal (cornerBounds (minimizeOperands 0 inputs) tons idxs).2).result
      · rw [if_pos h2]
        simp only [List.any_append, List.any_cons, List.any_nil, Bool.or_false]
        have : Iv.coversB ⟨0, 2 ^ w - 1⟩ R = true := by
          unfold Iv.coversB
          rw [if_pos (Nat.zero_le _)]
          simp only [Bool.and_eq_true, decide_eq_true_eq]
          omega
        rw [this]
        simp
      · rw [if_neg h2]
        have hof2L : (cal (cornerBounds (minimizeOperands 0 inputs) tons idxs).1).of2 = false := by
          rcases Bool.eq_false_or_eq_true
            (cal (cornerBounds (minimizeOperands 0 inputs) tons idxs).1).of2 with hb | hb
          · exact absurd (Or.inr (Or.inl hb)) h2
          · exact hb
        have hof2U : (cal (cornerBounds (minimizeOperands 0 inputs) tons idxs).2).of2 = false := by
          rcases Bool.eq_false_or_eq_true
            (cal (cornerBounds (minimizeOperands 0 inputs) tons idxs).2).of2 with hb | hb
          · exact absurd (Or.inr (Or.inr (Or.inl hb))) h2
          · exact hb
        have hnotlt : ¬((cal (cornerBounds (minimizeOperands 0 inputs) tons idxs).1).result <
            (cal (cornerBounds (minimizeOperands 0 inputs) tons idxs).2).result) := by
          intro hlt
          exact h2 (Or.inr (Or.inr (Or.inr hlt)))
        have hone : (cal (cornerBounds (minimizeOperands 0 inputs) tons idxs).1).of1 ≠
            (cal (cornerBounds (minimizeOperands 0 inputs) tons idxs).2).of1 := by
          rcases Bool.eq_false_or_eq_true
            (cal (cornerBounds (minimizeOperands 0 inputs) tons idxs).1).of1 with hb | hb <;>
            rcases Bool.eq_false_or_eq_true
              (cal (cornerBounds (minimizeOperands 0 inputs) tons idxs).2).of1 with hc | hc
          · exact absurd (Or.inl ⟨hb, hc⟩) h2
          · rw [hb, hc]; simp
          · rw [hb, hc]; simp
          · exact absurd ⟨hb, hc⟩ h1
        have hres := honesided hone hof2L hof2U hnotlt
        simp only [List.any_append, List.any_cons, List.any_nil, Bool.or_false]
        rcases hres with hres | hres
        · have : Iv.coversB ⟨(cal (cornerBounds (minimizeOperands 0 inputs) tons idxs).1).result,
              2 ^ w - 1⟩ R = true := by
            unfold Iv.coversB
            have hcw := hcalw (cornerBounds (minimizeOperands 0 inputs) tons idxs).1
            dsimp only
            rw [if_pos (by omega)]
            simp only [Bool.and_eq_true, decide_eq_true_eq]
            omega
          rw [this]
          simp
        · have : Iv.coversB ⟨0,
              (cal (cornerBounds (minimizeOperands 0 inputs) tons idxs).2).result⟩ R = true := by
            unfold Iv.coversB
            dsimp only
            rw [if_pos (Nat.zero_le _)]
            simp only [Bool.and_eq_true, decide_eq_true_eq]
            omega
          rw [this]
          simp
  have hwfstep : ∀ acc tu2, wfList w acc →
      wfList w (harnessStep cal w (minimizeOperands 0 inputs) tons acc tu2).1 := by
    intro acc tu2 hacc
    have hmax : (2 : Nat) ^ w - 1 < 2 ^ w := by
      have := Nat.two_pow_pos w
      omega
    have hzero : (0 : Nat) < 2 ^ w := Nat.two_pow_pos w
    unfold harnessStep
    by_cases h1 : (cal (cornerBounds (minimizeOperands 0 inputs) tons tu2).1).of1 = false ∧
        (cal (cornerBounds (minimizeOperands 0 inputs) tons tu2).2).of1 = false
    · rw [if_pos h1]
      intro i hi
      rcases List.mem_append.mp hi with hh | hh
      · exact hacc i hh
      · simp at hh
        rw [hh]
        exact ⟨hcalw _, hcalw _⟩
    · rw [if_neg h1]
      by_cases h2 : ((cal (cornerBounds (minimizeOperands 0 inputs) tons tu2).1).of1 = true ∧
            (cal (cornerBounds (minimizeOperands 0 inputs) tons tu2).2).of1 = true) ∨
          (cal (cornerBounds (minimizeOperands 0 inputs) tons tu2).1).of2 = true ∨
          (cal (cornerBounds (minimizeOperands 0 inputs) tons tu2).2).of2 = true ∨
          (cal (cornerBounds (minimizeOperands 0 inputs) tons tu2).1).result <
            (cal (cornerBounds (minimizeOperands 0 inputs) tons tu2).2).result
      · rw [if_pos h2]
        intro i hi
        rcases List.mem_append.mp hi with hh | hh
        · exact hacc i hh
        · simp at hh
          rw [hh]
          exact ⟨hzero, hmax⟩
      · rw [if_neg h2]
        intro i hi
        rcases List.mem_append.mp hi with hh | hh
        · exact hacc i hh
        · simp at hh
          rcases hh with hh | hh <;> rw [hh]
          · exact ⟨hcalw _, hmax⟩
          · exact ⟨hzero, hcalw _⟩
  have hanyr : (runTuples (harnessStep cal w (minimizeOperands 0 inputs) tons)
      (allTuples ((minimizeOperands 0 inputs).map (fun s => s.ivals.length))) []).any
        (fun i => i.coversB R) = true :=
    runTuples_covers hgrow hstop htucov _ [] htu
  have hwfr : wfList w (runTuples (harnessStep cal w (minimizeOperands 0 inputs) tons)
      (allTuples ((minimizeOperands 0 inputs).map (fun s => s.ivals.length))) []) :=
    runTuples_wf hwfstep _ [] (by intro i hi; simp at hi)
  have hnorm_wf : (IntervalSet.normalize ⟨w, runTuples
      (harnessStep cal w (minimizeOperands 0 inputs) tons)
      (allTuples ((minimizeOperands 0 inputs).map (fun s => s.ivals.length))) []⟩).wf :=
    normalize_wf (s := ⟨w, _⟩) hwfr
  have hnorm_cov : (IntervalSet.normalize ⟨w, runTuples
      (harnessStep cal w (minimizeOperands 0 inputs) tons)
      (allTuples ((minimizeOperands 0 inputs).map (fun s => s.ivals.length))) []⟩).coversB R
      = true := by
    rw [normalize_covers (s := ⟨w, _⟩) hwfr hR]
    exact hanyr
  have := (minimizeIntervals_main _ 16 hnorm_wf).2.2.1 R (by simpa using hR) hnorm_cov
  simpa using this

/-! ## Transfer functions (interval_ops.cc) -/

/-- `OneBitRangeToTernary` (interval_ops.cc). -/
def oneBitRangeToTernary (s : IntervalSet) : TV :=
  if s.isPrecise then (if s.coversZero then TV.zero else TV.one) else TV.unknown

/-- `TernaryToOneBitRange` (interval_ops.cc). -/
def ternaryToOneBitRange : TV → IntervalSet
  | TV.zero => IntervalSet.precise 1 0
  | TV.one => IntervalSet.precise 1 1
  | TV.unknown => IntervalSet.maximal 1

/-- Modelled from the spec: ternary NOT, per-bit with `⊤` absorbing
(spec §3.4; `ternary_evaluator.h` is not in src/). -/
def TV.not1 : TV → TV
  | TV.zero => TV.one
  | TV.one => TV.zero
  | TV.unknown => TV.unknown

/-- Modelled from the spec: ternary AND (a known 0 dominates). -/
def TV.and1 : TV → TV → TV
  | TV.zero, _ => TV.zero
  | _, TV.zero => TV.zero
  | TV.one, TV.one => TV.one
  | _, _ => TV.unknown

/-- Modelled from the spec: ternary OR (a known 1 dominates). -/
def TV.or1 : TV → TV → TV
  | TV.one, _ => TV.one
  | _, TV.one => TV.one
  | TV.zero, TV.zero => TV.zero
  | _, _ => TV.unknown

/-- Modelled from the spec: ternary XOR (known only if both known). -/
def TV.xor1 : TV → TV → TV
  | TV.zero, TV.zero => TV.zero
  | TV.zero, TV.one => TV.one
  | TV.one, TV.zero => TV.one
  | TV.one, TV.one => TV.zero
  | _, _ => TV.unknown

/-- `TernaryEvaluator::BitwiseNot` (modelled from spec §3.4). -/
def bitwiseNot (t : TernVec) : TernVec := t.map TV.not1

/-- `TernaryEvaluator::BitwiseAnd` (modelled from spec §3.4). -/
def bitwiseAnd (a b : TernVec) : TernVec := List.zipWith TV.and1 a b

/-- `TernaryEvaluator::BitwiseOr` (modelled from spec §3.4). -/
def bitwiseOr (a b : TernVec) : TernVec := List.zipWith TV.or1 a b

/-- `TernaryEvaluator::BitwiseXor` (modelled from spec §3.4). -/
def bitwiseXor (a b : TernVec) : TernVec := List.zipWith TV.xor1 a b

/-- Modelled from the spec: the default `FromTernary` budget used by the
bitwise transfer functions (the header with the default argument is not
in src/; its value does not affect any claim). -/
def defaultTernaryBudget : Nat := 4

/-- `Add` (interval_ops.cc): pad by one bit, the pad MSB is the
overflow flag. -/
def Add (a b : IntervalSet) : IntervalSet :=
  performBinOp
    (fun l r => ⟨(l + r) % 2 ^ a.width, decide (2 ^ a.width ≤ l + r), false⟩)
    a Tonicity.monotone b Tonicity.monotone a.width

/-- `Sub` (interval_ops.cc): wrap-around subtraction, overflow iff
`lhs < rhs`. -/
def Sub (a b : IntervalSet) : IntervalSet :=
  performBinOp
    (fun l r => ⟨wrapSub a.width l r, decide (l < r), false⟩)
    a Tonicity.monotone b Tonicity.antitone a.width

/-- `bits_ops::Negate` at width `w` (two's complement). -/
def negBits (w x : Nat) : Nat := (2 ^ w - x % 2 ^ w) % 2 ^ w

/-- `Neg` (interval_ops.cc). -/
def Neg (a : IntervalSet) : IntervalSet :=
  performUnaryOp (fun x => ⟨negBits a.width x, false, false⟩)
    a Tonicity.antitone a.width

/-- `UMul` (interval_ops.cc): truncated product with two overflow
flags. -/
def UMul (a b : IntervalSet) (outWidth : Nat) : IntervalSet :=
  performBinOp
    (fun l r => ⟨l * r % 2 ^ outWidth, decide (2 ^ outWidth ≤ l * r),
      decide (2 ^ (outWidth + 1) ≤ l * r)⟩)
    a Tonicity.monotone b Tonicity.monotone outWidth

/-- `bits_ops::UDiv` at width `w`: division by zero yields all-ones.
The dividend is reduced mod `2^w` to model its `Bits[w]` type. -/
def udivBits (w x y : Nat) : Nat := if y = 0 then 2 ^ w - 1 else x % 2 ^ w / y

/-- `UDiv` (interval_ops.cc): division is antitone in the divisor; when
the divisor covers zero, divide by the non-zero part and union in the
division-by-zero value `MAX`. -/
def UDiv (a b : IntervalSet) : IntervalSet :=
  if b.coversZero = false then
    performBinOp (fun x y => ⟨udivBits a.width x y, false, false⟩)
      a Tonicity.monotone b Tonicity.antitone a.width
  else
    let nonzero := IntervalSet.intersect b (IntervalSet.nonZero b.width)
    let results :=
      if nonzero.ivals.isEmpty then IntervalSet.empty a.width
      else performBinOp (fun x y => ⟨udivBits a.width x y, false, false⟩)
        a Tonicity.monotone nonzero Tonicity.antitone a.width
    IntervalSet.normalize
      ⟨results.width, results.ivals ++ [⟨2 ^ a.width - 1, 2 ^ a.width - 1⟩]⟩

/-- `bits_ops::SignExtend` as a value: add the high ones when the sign
bit is set. -/
def signExtBits (w W x : Nat) : Nat :=
  if x % 2 ^ w < 2 ^ (w - 1) then x % 2 ^ w else x % 2 ^ w + (2 ^ W - 2 ^ w)

/-- `SignExtend` (interval_ops.cc). -/
def SignExtend (a : IntervalSet) (width : Nat) : IntervalSet :=
  performUnaryOp (fun x => ⟨signExtBits a.width width x, false, false⟩)
    a Tonicity.monotone width

/-- `ZeroExtend` (interval_ops.cc). -/
def ZeroExtend (a : IntervalSet) (width : Nat) : IntervalSet :=
  performUnaryOp (fun x => ⟨x % 2 ^ a.width, false, false⟩) a Tonicity.monotone width

/-- The per-interval loop of `Truncate`: `none` means some interval
spans the whole output space. -/
def truncateGo (w W : Nat) : List Iv → Option (List Iv)
  | [] => some []
  | i :: rest =>
      if 2 ^ W - 1 < wrapSub w i.hi i.lo then none
      else
        match truncateGo w W rest with
        | none => none
        | some l => some (⟨i.lo % 2 ^ W, i.hi % 2 ^ W⟩ :: l)

/-- `Truncate` (interval_ops.cc): intervals spanning at least `2^W`
values force `Maximal`; others are truncated (possibly improper, split
by normalization). -/
def Truncate (a : IntervalSet) (width : Nat) : IntervalSet :=
  match truncateGo a.width width a.ivals with
  | none => IntervalSet.maximal width
  | some l => IntervalSet.normalize ⟨width, l⟩

/-- `bits_ops::Concat` as a value: the first operand is most
significant. -/
def concatValW : List Nat → List Nat → Nat
  | [], _ => 0
  | _ :: _, [] => 0
  | w :: ws, v :: vs => v % 2 ^ w * 2 ^ ws.sum + concatValW ws vs

/-- `Concat` (interval_ops.cc): monotone variadic concatenation, output
width is the sum of the operand widths. -/
def Concat (sets : List IntervalSet) : IntervalSet :=
  performVariadicOp
    (fun bs => ⟨concatValW (sets.map (fun s => s.width)) bs, false, false⟩)
    (sets.map (fun _ => Tonicity.monotone)) sets
    ((sets.map (fun s => s.width)).sum)

/-- `Not` (interval_ops.cc): 1-bit fast path, ternary bridge
otherwise. -/
def Not (a : IntervalSet) : IntervalSet :=
  if a.width = 1 then ternaryToOneBitRange (TV.not1 (oneBitRangeToTernary a))
  else fromTernary (bitwiseNot (extractTernaryVector a)) defaultTernaryBudget

/-- `And` (interval_ops.cc). -/
def And (a b : IntervalSet) : IntervalSet :=
  if a.width = 1 then
    ternaryToOneBitRange (TV.and1 (oneBitRangeToTernary a) (oneBitRangeToTernary b))
  else
    fromTernary (bitwiseAnd (extractTernaryVector a) (extractTernaryVector b))
      defaultTernaryBudget

/-- `Or` (interval_ops.cc). -/
def Or (a b : IntervalSet) : IntervalSet :=
  if a.width = 1 then
    ternaryToOneBitRange (TV.or1 (oneBitRangeToTernary a) (oneBitRangeToTernary b))
  else
    fromTernary (bitwiseOr (extractTernaryVector a) (extractTernaryVector b))
      defaultTernaryBudget

/-- `Xor` (interval_ops.cc). -/
def Xor (a b : IntervalSet) : IntervalSet :=
  if a.width = 1 then
    ternaryToOneBitRange (TV.xor1 (oneBitRangeToTernary a) (oneBitRangeToTernary b))
  else
    fromTernary (bitwiseXor (extractTernaryVector a) (extractTernaryVector b))
      defaultTernaryBudget

/-- `AndReduce` (interval_ops.cc). -/
def AndReduce (a : IntervalSet) : IntervalSet :=
  if a.coversMax = false then ternaryToOneBitRange TV.zero
  else if a.isPrecise then ternaryToOneBitRange TV.one
  else ternaryToOneBitRange TV.unknown

/-- `OrReduce` (interval_ops.cc). -/
def OrReduce (a : IntervalSet) : IntervalSet :=
  if a.coversZero = false then ternaryToOneBitRange TV.one
  else if a.isPrecise then ternaryToOneBitRange TV.zero
  else ternaryToOneBitRange TV.unknown

/-- `bits_ops::XorReduce` as a value: the parity of the number of set
bits. -/
def parity (x : Nat) : Nat :=
  if x = 0 then 0 else (x % 2 + parity (x / 2)) % 2
decreasing_by
  exact Nat.div_lt_self (Nat.pos_of_ne_zero (by assumption)) (by norm_num)

/-- The loop of `XorReduce` over the remaining intervals. -/
def xorReduceGo (out : Nat) : List Iv → IntervalSet
  | [] => ternaryToOneBitRange (if out = 1 then TV.one else TV.zero)
  | i :: rest =>
      if i.lo = i.hi ∧ parity i.lo = out then xorReduceGo out rest
      else ternaryToOneBitRange TV.unknown

/-- `XorReduce` (interval_ops.cc): known only when every interval is a
singleton and all parities agree. -/
def XorReduce (a : IntervalSet) : IntervalSet :=
  match a.ivals with
  | [] => ternaryToOneBitRange TV.unknown
  | i :: rest =>
      if i.lo = i.hi then xorReduceGo (parity i.lo) rest
      else ternaryToOneBitRange TV.unknown

/-- `Eq` (interval_ops.cc). -/
def Eq (a b : IntervalSet) : IntervalSet :=
  if a.isPrecise ∧ b.isPrecise then
    ternaryToOneBitRange
      (if a.getPreciseValue = b.getPreciseValue then TV.one else TV.zero)
  else
    ternaryToOneBitRange
      (if IntervalSet.disjointS a b then TV.zero else TV.unknown)

/-- `Ne` (interval_ops.cc): `Not (Eq a b)`. -/
def Ne (a b : IntervalSet) : IntervalSet := Not (Eq a b)

/-- `ULt` (interval_ops.cc): compare convex hulls; decided only when
they are disjoint. -/
def ULt (a b : IntervalSet) : IntervalSet :=
  match a.convexHull, b.convexHull with
  | some ha, some hb =>
      if ivDisjoint ha hb then
        ternaryToOneBitRange (if ivLt ha hb then TV.one else TV.zero)
      else ternaryToOneBitRange TV.unknown
  | _, _ => ternaryToOneBitRange TV.unknown

/-- `UGt` (interval_ops.cc). -/
def UGt (a : IntervalSet) (b : IntervalSet) : IntervalSet :=
  match a.convexHull, b.convexHull with
  | some ha, some hb =>
      if ivDisjoint ha hb then
        ternaryToOneBitRange (if ivLt hb ha then TV.one else TV.zero)
      else ternaryToOneBitRange TV.unknown
  | _, _ => ternaryToOneBitRange TV.unknown

/-- The whole set lies in the negative (msb-set) half. -/
def allNegative (v : IntervalSet) : Bool :=
  match v.lowerBound, v.upperBound with
  | some lo, some hi => getBit lo (v.width - 1) && getBit hi (v.width - 1)
  | _, _ => false

/-- The whole set lies in the non-negative (msb-clear) half. -/
def allPositive (v : IntervalSet) : Bool :=
  match v.lowerBound, v.upperBound with
  | some lo, some hi => !getBit lo (v.width - 1) && !getBit hi (v.width - 1)
  | _, _ => false

/-- `SLt` (interval_ops.cc): unsigned compare when both operands share
a sign class, otherwise bias both by `2^(w-1)` with `Add` and compare
unsigned. -/
def SLt (a b : IntervalSet) : IntervalSet :=
  if (allPositive a && allPositive b) || (allNegative a && allNegative b) then
    ULt a b
  else
    ULt (Add a (IntervalSet.precise a.width (2 ^ (a.width - 1))))
      (Add b (IntervalSet.precise a.width (2 ^ (a.width - 1))))

/-- `SGt` (interval_ops.cc). -/
def SGt (a b : IntervalSet) : IntervalSet :=
  if (allPositive a && allPositive b) || (allNegative a && allNegative b) then
    UGt a b
  else
    UGt (Add a (IntervalSet.precise a.width (2 ^ (a.width - 1))))
      (Add b (IntervalSet.precise a.width (2 ^ (a.width - 1))))

/-- `Gate` (interval_ops.cc): a zero condition forces zero, a precise
non-zero condition passes the value through, otherwise mix in zero. -/
def Gate (cond val : IntervalSet) : IntervalSet :=
  if cond.isPrecise then
    (if cond.coversZero then IntervalSet.precise val.width 0 else val)
  else if cond.coversZero then
    IntervalSet.combine val (IntervalSet.precise val.width 0)
  else val

/-- `LsbOrMsb` (lsb_or_msb.h is not in src/; modelled from the spec's
`OneHot(val, side, budget)`). -/
inductive LsbOrMsb
  | lsb
  | msb
deriving DecidableEq, Repr

/-- The scan underlying one-hot: emit `bit ∧ ¬seen` and accumulate
`seen ∨ bit`; returns the output bits and the final `seen`. -/
def oneHotGo (acc : TV) : TernVec → List TV × TV
  | [] => ([], acc)
  | b :: r =>
      let p := oneHotGo (TV.or1 acc b) r
      (TV.and1 b (TV.not1 acc) :: p.1, p.2)

/-- Modelled from the spec: `TernaryEvaluator::OneHotLsbToMsb`
(spec §4.9; the evaluator is not in src/): lowest set bit wins, the
extra MSB fires when no bit is set. -/
def oneHotLsbTern (t : TernVec) : TernVec :=
  (oneHotGo TV.zero t).1 ++ [TV.not1 (oneHotGo TV.zero t).2]

/-- Modelled from the spec: `TernaryEvaluator::OneHotMsbToLsb`: highest
set bit wins. -/
def oneHotMsbTern (t : TernVec) : TernVec :=
  ((oneHotGo TV.zero t.reverse).1).reverse ++ [TV.not1 (oneHotGo TV.zero t.reverse).2]

/-- `OneHot` (interval_ops.cc): lift to ternary, evaluate the ternary
one-hot, lower back with the given budget. -/
def OneHot (val : IntervalSet) (side : LsbOrMsb) (maxBits : Nat) : IntervalSet :=
  let src := extractTernaryVector val
  let res := match side with
    | LsbOrMsb.lsb => oneHotLsbTern src
    | LsbOrMsb.msb => oneHotMsbTern src
  fromTernary res maxBits

/-! ## Per-operation soundness -/

theorem aligned_cons {tn : Tonicity} {ts : List Tonicity} {s : IntervalSet}
    {ss : List IntervalSet} {x : Nat} {xs : List Nat} {lows highs : List Nat}
    (h : Aligned (tn :: ts) (s :: ss) lows (x :: xs) highs) :
    ∃ l u ls us, lows = l :: ls ∧ highs = u :: us ∧
      l < 2 ^ s.width ∧ u < 2 ^ s.width ∧
      tonBound tn l x u ∧
      Aligned ts ss ls xs us := by
  rcases lows with _ | ⟨l, ls⟩
  · exact h.elim
  rcases highs with _ | ⟨u, us⟩
  · exact h.elim
  exact ⟨l, u, ls, us, rfl, rfl, h.1, h.2.1, h.2.2.1, h.2.2.2⟩

theorem aligned_nil {lows highs : List Nat}
    (h : Aligned [] [] lows [] highs) : lows = [] ∧ highs = [] := by
  rcases lows with _ | ⟨l, ls⟩
  · rcases highs with _ | ⟨u, us⟩
    · exact ⟨rfl, rfl⟩
    · exact h.elim
  · exact h.elim

theorem Add_covers {a b : IntervalSet} {x y : Nat} (hw : b.width = a.width)
    (hwa : a.wf) (hwb : b.wf) (hca : a.coversB x = true) (hcb : b.coversB y = true)
    (hxa : x < 2 ^ a.width) (hyb : y < 2 ^ b.width) :
    (Add a b).coversB ((x + y) % 2 ^ a.width) = true := by
  unfold Add performBinOp
  refine performVariadicOp_covers _ _ _ _ [x, y] _ rfl ?_ ?_ ?_ ?_ ?_
  · exact ⟨hca, hxa, hcb, hyb, trivial⟩
  · intro s hs
    rcases List.mem_cons.mp hs with rfl | hs2
    · exact hwa
    · rcases List.mem_cons.mp hs2 with rfl | hs3
      · exact hwb
      · simp at hs3
  · exact Nat.mod_lt _ (Nat.two_pow_pos _)
  · intro bs
    rcases bs with _ | ⟨p, _ | ⟨q, _ | ⟨r, rest⟩⟩⟩
    · exact Nat.two_pow_pos _
    · exact Nat.two_pow_pos _
    · exact Nat.mod_lt _ (Nat.two_pow_pos _)
    · exact Nat.two_pow_pos _
  · intro lows highs halign
    rcases aligned_cons halign with ⟨l1, u1, ls, us, rfl, rfl, hl1, hu1, hm1, htail⟩
    rcases aligned_cons htail with ⟨l2, u2, ls2, us2, rfl, rfl, hl2, hu2, hm2, htail2⟩
    rcases aligned_nil htail2 with ⟨rfl, rfl⟩
    obtain ⟨hm1a, hm1b⟩ : l1 ≤ x ∧ x ≤ u1 := hm1
    obtain ⟨hm2a, hm2b⟩ : l2 ≤ y ∧ y ≤ u2 := hm2
    rw [hw] at hl2 hu2 hyb
    constructor
    · intro hof1 hof2
      dsimp only at hof1 hof2 ⊢
      rw [decide_eq_false_iff_not, not_le] at hof1 hof2
      have hlsum : (l1 + l2) % 2 ^ a.width = l1 + l2 := Nat.mod_eq_of_lt hof1
      have husum : (u1 + u2) % 2 ^ a.width = u1 + u2 := Nat.mod_eq_of_lt hof2
      have hx : (x + y) % 2 ^ a.width = x + y := by
        refine Nat.mod_eq_of_lt ?_
        omega
      unfold Iv.coversB
      dsimp only
      rw [hlsum, husum, hx]
      rw [if_pos (by omega)]
      simp only [Bool.and_eq_true, decide_eq_true_eq]
      omega
    · intro hone _ _ hnotlt
      dsimp only at hone hnotlt ⊢
      have hlu : l1 + l2 ≤ u1 + u2 := by omega
      have hcase : l1 + l2 < 2 ^ a.width ∧ 2 ^ a.width ≤ u1 + u2 := by
        by_cases h1 : 2 ^ a.width ≤ l1 + l2
        · exfalso
          have h2 : 2 ^ a.width ≤ u1 + u2 := by omega
          apply hone
          simp [h1, h2]
        · by_cases h2 : 2 ^ a.width ≤ u1 + u2
          · exact ⟨by omega, h2⟩
          · exfalso
            apply hone
            simp only [decide_eq_false_iff_not, not_le] at h1 h2 ⊢
            rw [decide_eq_false (by omega), decide_eq_false (by omega)]
      have hlsum : (l1 + l2) % 2 ^ a.width = l1 + l2 := Nat.mod_eq_of_lt hcase.1
      have husum : (u1 + u2) % 2 ^ a.width = u1 + u2 - 2 ^ a.width := by
        have hub : u1 + u2 < 2 ^ a.width + 2 ^ a.width := by omega
        rw [Nat.mod_eq_sub_mod hcase.2, Nat.mod_eq_of_lt (by omega)]
      rw [hlsum, husum]
      by_cases hxy : x + y < 2 ^ a.width
      · left
        rw [Nat.mod_eq_of_lt hxy]
        omega
      · right
        rw [Nat.mod_eq_sub_mod (by omega), Nat.mod_eq_of_lt (by omega)]
        omega

theorem wrapSub_lt (w x y : Nat) : wrapSub w x y < 2 ^ w := by
  unfold wrapSub
  exact Nat.mod_lt _ (Nat.two_pow_pos w)

theorem wrapSub_eq {w x y : Nat} (hx : x < 2 ^ w) (hy : y < 2 ^ w) :
    wrapSub w x y = if y ≤ x then x - y else x + 2 ^ w - y := by
  unfold wrapSub
  rw [Nat.mod_eq_of_lt hy]
  have hp : 0 < 2 ^ w := Nat.two_pow_pos w
  by_cases h : y ≤ x
  · rw [if_pos h]
    have he : x + (2 ^ w - y) = (x - y) + 2 ^ w := by omega
    rw [he, Nat.add_mod_right, Nat.mod_eq_of_lt (by omega)]
  · rw [if_neg h]
    have he : x + (2 ^ w - y) = x + 2 ^ w - y := by omega
    rw [he, Nat.mod_eq_of_lt (by omega)]

theorem negBits_lt (w x : Nat) : negBits w x < 2 ^ w := by
  unfold negBits
  exact Nat.mod_lt _ (Nat.two_pow_pos w)

theorem negBits_eq {w x : Nat} (hx : x < 2 ^ w) :
    negBits w x = if x = 0 then 0 else 2 ^ w - x := by
  unfold negBits
  rw [Nat.mod_eq_of_lt hx]
  have hp : 0 < 2 ^ w := Nat.two_pow_pos w
  by_cases h : x = 0
  · rw [if_pos h, h]
    simp
  · rw [if_neg h, Nat.mod_eq_of_lt (by omega)]

theorem udivBits_lt (w x y : Nat) : udivBits w x y < 2 ^ w := by
  unfold udivBits
  have hp : 0 < 2 ^ w := Nat.two_pow_pos w
  split
  · omega
  · exact lt_of_le_of_lt (Nat.div_le_self _ _) (Nat.mod_lt _ hp)

theorem udivBits_mono {w x1 x2 y1 y2 : Nat} (hx : x1 ≤ x2) (hy : y2 ≤ y1)
    (hx2 : x2 < 2 ^ w) :
    udivBits w x1 y1 ≤ udivBits w x2 y2 := by
  unfold udivBits
  have hx1 : x1 < 2 ^ w := lt_of_le_of_lt hx hx2
  rw [Nat.mod_eq_of_lt hx1, Nat.mod_eq_of_lt hx2]
  have hp : 0 < 2 ^ w := Nat.two_pow_pos w
  by_cases h1 : y1 = 0
  · have h2 : y2 = 0 := by omega
    rw [if_pos h1, if_pos h2]
  · rw [if_neg h1]
    by_cases h2 : y2 = 0
    · rw [if_pos h2]
      have := Nat.div_le_self x1 y1
      omega
    · rw [if_neg h2]
      exact le_trans (Nat.div_le_div_right hx)
        (Nat.div_le_div_left hy (Nat.pos_of_ne_zero h2))

theorem Sub_covers {a b : IntervalSet} {x y : Nat} (hw : b.width = a.width)
    (hwa : a.wf) (hwb : b.wf) (hca : a.coversB x = true) (hcb : b.coversB y = true)
    (hxa : x < 2 ^ a.width) (hyb : y < 2 ^ b.width) :
    (Sub a b).coversB (wrapSub a.width x y) = true := by
  unfold Sub performBinOp
  refine performVariadicOp_covers _ _ _ _ [x, y] _ rfl ?_ ?_ ?_ ?_ ?_
  · exact ⟨hca, hxa, hcb, hyb, trivial⟩
  · intro s hs
    rcases List.mem_cons.mp hs with rfl | hs2
    · exact hwa
    · rcases List.mem_cons.mp hs2 with rfl | hs3
      · exact hwb
      · simp at hs3
  · exact wrapSub_lt _ _ _
  · intro bs
    rcases bs with _ | ⟨p, _ | ⟨q, _ | ⟨r, rest⟩⟩⟩
    · exact Nat.two_pow_pos _
    · exact Nat.two_pow_pos _
    · exact wrapSub_lt _ _ _
    · exact Nat.two_pow_pos _
  · intro lows highs halign
    rcases aligned_cons halign with ⟨l1, u1, ls, us, rfl, rfl, hl1, hu1, hm1, htail⟩
    rcases aligned_cons htail with ⟨l2, u2, ls2, us2, rfl, rfl, hl2, hu2, hm2, htail2⟩
    rcases aligned_nil htail2 with ⟨rfl, rfl⟩
    obtain ⟨hm1a, hm1b⟩ : l1 ≤ x ∧ x ≤ u1 := hm1
    obtain ⟨hm2a, hm2b⟩ : u2 ≤ y ∧ y ≤ l2 := hm2
    rw [hw] at hl2 hu2 hyb
    constructor
    · intro hof1 hof2
      dsimp only at hof1 hof2 ⊢
      rw [decide_eq_false_iff_not, not_lt] at hof1 hof2
      have e1 : wrapSub a.width l1 l2 = l1 - l2 := by
        rw [wrapSub_eq hl1 hl2, if_pos hof1]
      have e2 : wrapSub a.width u1 u2 = u1 - u2 := by
        rw [wrapSub_eq hu1 hu2, if_pos hof2]
      have e3 : wrapSub a.width x y = x - y := by
        rw [wrapSub_eq hxa hyb, if_pos (by omega)]
      unfold Iv.coversB
      dsimp only
      rw [e1, e2, e3, if_pos (by omega)]
      simp only [Bool.and_eq_true, decide_eq_true_eq]
      omega
    · intro hone _ _ _
      dsimp only at hone ⊢
      by_cases hA : l1 < l2
      · have hU : ¬(u1 < u2) := by
          intro hc
          apply hone
          rw [decide_eq_true hA, decide_eq_true hc]
        have e1 : wrapSub a.width l1 l2 = l1 + 2 ^ a.width - l2 := by
          rw [wrapSub_eq hl1 hl2, if_neg (by omega)]
        have e2 : wrapSub a.width u1 u2 = u1 - u2 := by
          rw [wrapSub_eq hu1 hu2, if_pos (by omega)]
        rw [e1, e2]
        by_cases hyx : y ≤ x
        · right
          rw [wrapSub_eq hxa hyb, if_pos hyx]
          omega
        · left
          rw [wrapSub_eq hxa hyb, if_neg hyx]
          omega
      · have hU : u1 < u2 := by
          by_contra hc
          apply hone
          rw [decide_eq_false hA, decide_eq_false hc]
        exfalso
        omega

theorem Neg_covers {a : IntervalSet} {x : Nat} (hwa : a.wf)
    (hca : a.coversB x = true) (hxa : x < 2 ^ a.width) :
    (Neg a).coversB (negBits a.width x) = true := by
  unfold Neg performUnaryOp
  refine performVariadicOp_covers _ _ _ _ [x] _ rfl ?_ ?_ ?_ ?_ ?_
  · exact ⟨hca, hxa, trivial⟩
  · intro s hs
    rcases List.mem_cons.mp hs with rfl | hs2
    · exact hwa
    · simp at hs2
  · exact negBits_lt _ _
  · intro bs
    rcases bs with _ | ⟨p, _ | ⟨q, rest⟩⟩
    · exact Nat.two_pow_pos _
    · exact negBits_lt _ _
    · exact Nat.two_pow_pos _
  · intro lows highs halign
    rcases aligned_cons halign with ⟨l1, u1, ls, us, rfl, rfl, hl1, hu1, hm1, htail⟩
    rcases aligned_nil htail with ⟨rfl, rfl⟩
    obtain ⟨hm1a, hm1b⟩ : u1 ≤ x ∧ x ≤ l1 := hm1
    have hp := Nat.two_pow_pos a.width
    constructor
    · intro _ _
      dsimp only
      unfold Iv.coversB
      dsimp only
      rw [negBits_eq hl1, negBits_eq hu1, negBits_eq hxa]
      split_ifs <;>
        simp only [Bool.and_eq_true, Bool.or_eq_true, decide_eq_true_eq] <;>
        omega
    · intro hone _ _ _
      dsimp only at hone
      exact absurd rfl hone

theorem UMul_covers {a b : IntervalSet} {W : Nat} {x y : Nat}
    (hwa : a.wf) (hwb : b.wf) (hca : a.coversB x = true) (hcb : b.coversB y = true)
    (hxa : x < 2 ^ a.width) (hyb : y < 2 ^ b.width) :
    (UMul a b W).coversB (x * y % 2 ^ W) = true := by
  unfold UMul performBinOp
  refine performVariadicOp_covers _ _ _ _ [x, y] _ rfl ?_ ?_ ?_ ?_ ?_
  · exact ⟨hca, hxa, hcb, hyb, trivial⟩
  · intro s hs
    rcases List.mem_cons.mp hs with rfl | hs2
    · exact hwa
    · rcases List.mem_cons.mp hs2 with rfl | hs3
      · exact hwb
      · simp at hs3
  · exact Nat.mod_lt _ (Nat.two_pow_pos _)
  · intro bs
    rcases bs with _ | ⟨p, _ | ⟨q, _ | ⟨r, rest⟩⟩⟩
    · exact Nat.two_pow_pos _
    · exact Nat.two_pow_pos _
    · exact Nat.mod_lt _ (Nat.two_pow_pos _)
    · exact Nat.two_pow_pos _
  · intro lows highs halign
    rcases aligned_cons halign with ⟨l1, u1, ls, us, rfl, rfl, hl1, hu1, hm1, htail⟩
    rcases aligned_cons htail with ⟨l2, u2, ls2, us2, rfl, rfl, hl2, hu2, hm2, htail2⟩
    rcases aligned_nil htail2 with ⟨rfl, rfl⟩
    obtain ⟨hm1a, hm1b⟩ : l1 ≤ x ∧ x ≤ u1 := hm1
    obtain ⟨hm2a, hm2b⟩ : l2 ≤ y ∧ y ≤ u2 := hm2
    have h1 : l1 * l2 ≤ x * y := Nat.mul_le_mul hm1a hm2a
    have h2 : x * y ≤ u1 * u2 := Nat.mul_le_mul hm1b hm2b
    have hps : 2 ^ (W + 1) = 2 * 2 ^ W := by
      rw [Nat.pow_succ]
      ring
    constructor
    · intro hof1 hof2
      dsimp only at hof1 hof2 ⊢
      rw [decide_eq_false_iff_not, not_le] at hof1 hof2
      unfold Iv.coversB
      dsimp only
      rw [Nat.mod_eq_of_lt hof1, Nat.mod_eq_of_lt hof2,
        Nat.mod_eq_of_lt (by omega), if_pos (by omega)]
      simp only [Bool.and_eq_true, decide_eq_true_eq]
      omega
    · intro hone h2a h2b _
      dsimp only at hone h2a h2b ⊢
      rw [decide_eq_false_iff_not, not_le] at h2a h2b
      by_cases hLof : 2 ^ W ≤ l1 * l2
      · exfalso
        apply hone
        rw [decide_eq_true hLof, decide_eq_true (by omega)]
      · have hUof : 2 ^ W ≤ u1 * u2 := by
          by_contra hc
          apply hone
          rw [decide_eq_false hLof, decide_eq_false hc]
        push_neg at hLof
        rw [Nat.mod_eq_of_lt hLof]
        have hU : u1 * u2 % 2 ^ W = u1 * u2 - 2 ^ W := by
          rw [Nat.mod_eq_sub_mod hUof, Nat.mod_eq_of_lt (by omega)]
        rw [hU]
        by_cases hxy : x * y < 2 ^ W
        · left
          rw [Nat.mod_eq_of_lt hxy]
          omega
        · right
          push_neg at hxy
          rw [Nat.mod_eq_sub_mod hxy, Nat.mod_eq_of_lt (by omega)]
          omega

/-- The intervals a harness step appends are width-bounded. -/
theorem harnessStep_wf {cal : List Nat → OverflowResult} {w : Nat}
    (operands : List IntervalSet) (tons : List Tonicity)
    (hcalw : ∀ bs, (cal bs).result < 2 ^ w) :
    ∀ acc tu2, wfList w acc →
      wfList w (harnessStep cal w operands tons acc tu2).1 := by
  intro acc tu2 hacc
  have hmax : (2 : Nat) ^ w - 1 < 2 ^ w := by
    have := Nat.two_pow_pos w
    omega
  have hzero : (0 : Nat) < 2 ^ w := Nat.two_pow_pos w
  unfold harnessStep
  by_cases h1 : (cal (cornerBounds operands tons tu2).1).of1 = false ∧
      (cal (cornerBounds operands tons tu2).2).of1 = false
  · rw [if_pos h1]
    intro i hi
    rcases List.mem_append.mp hi with hh | hh
    · exact hacc i hh
    · simp at hh
      rw [hh]
      exact ⟨hcalw _, hcalw _⟩
  · rw [if_neg h1]
    by_cases h2 : ((cal (cornerBounds operands tons tu2).1).of1 = true ∧
          (cal (cornerBounds operands tons tu2).2).of1 = true) ∨
        (cal (cornerBounds operands tons tu2).1).of2 = true ∨
        (cal (cornerBounds operands tons tu2).2).of2 = true ∨
        (cal (cornerBounds operands tons tu2).1).result <
          (cal (cornerBounds operands tons tu2).2).result
    · rw [if_pos h2]
      intro i hi
      rcases List.mem_append.mp hi with hh | hh
      · exact hacc i hh
      · simp at hh
        rw [hh]
        exact ⟨hzero, hmax⟩
    · rw [if_neg h2]
      intro i hi
      rcases List.mem_append.mp hi with hh | hh
      · exact hacc i hh
      · simp at hh
        rcases hh with hh | hh <;> rw [hh]
        · exact ⟨hcalw _, hmax⟩
        · exact ⟨hzero, hcalw _⟩

/-- The harness output is well-formed, normalized and of the requested
width whenever the concrete operation respects the width. -/
theorem performVariadicOp_wfn (cal : List Nat → OverflowResult)
    (tons : List Tonicity) (inputs : List IntervalSet) (w : Nat)
    (hcalw : ∀ bs, (cal bs).result < 2 ^ w) :
    (performVariadicOp cal tons inputs w).wf ∧
    (performVariadicOp cal tons inputs w).Normalized ∧
    (performVariadicOp cal tons inputs w).width = w := by
  have hwfr : wfList w (runTuples (harnessStep cal w (minimizeOperands 0 inputs) tons)
      (allTuples ((minimizeOperands 0 inputs).map (fun s => s.ivals.length))) []) :=
    runTuples_wf (harnessStep_wf _ _ hcalw) _ [] (by intro i hi; simp at hi)
  have hnorm_wf : (IntervalSet.normalize ⟨w, runTuples
      (harnessStep cal w (minimizeOperands 0 inputs) tons)
      (allTuples ((minimizeOperands 0 inputs).map (fun s => s.ivals.length))) []⟩).wf :=
    normalize_wf (s := ⟨w, _⟩) hwfr
  have hm := minimizeIntervals_main _ 16 hnorm_wf
  have hgoal : performVariadicOp cal tons inputs w =
      minimizeIntervals (IntervalSet.normalize ⟨w, runTuples
        (harnessStep cal w (minimizeOperands 0 inputs) tons)
        (allTuples ((minimizeOperands 0 inputs).map (fun s => s.ivals.length))) []⟩) 16 := rfl
  rw [hgoal]
  exact ⟨hm.2.1, hm.1, by rw [minimizeIntervals_width]; exact rfl⟩

theorem performBinOp_wfn (cal : Nat → Nat → OverflowResult) (lhs : IntervalSet)
    (lt : Tonicity) (rhs : IntervalSet) (rt : Tonicity) (w : Nat)
    (hcalw : ∀ p q, (cal p q).result < 2 ^ w) :
    (performBinOp cal lhs lt rhs rt w).wf ∧
    (performBinOp cal lhs lt rhs rt w).Normalized ∧
    (performBinOp cal lhs lt rhs rt w).width = w := by
  unfold performBinOp
  refine performVariadicOp_wfn _ _ _ _ ?_
  intro bs
  rcases bs with _ | ⟨p, _ | ⟨q, _ | ⟨r, rest⟩⟩⟩
  · exact Nat.two_pow_pos _
  · exact Nat.two_pow_pos _
  · exact hcalw p q
  · exact Nat.two_pow_pos _

theorem performUnaryOp_wfn (cal : Nat → OverflowResult) (arg : IntervalSet)
    (t : Tonicity) (w : Nat)
    (hcalw : ∀ p, (cal p).result < 2 ^ w) :
    (performUnaryOp cal arg t w).wf ∧
    (performUnaryOp cal arg t w).Normalized ∧
    (performUnaryOp cal arg t w).width = w := by
  unfold performUnaryOp
  refine performVariadicOp_wfn _ _ _ _ ?_
  intro bs
  rcases bs with _ | ⟨p, _ | ⟨q, rest⟩⟩
  · exact Nat.two_pow_pos _
  · exact hcalw p
  · exact Nat.two_pow_pos _

/-! ## Intersection lemmas -/

theorem intersect_wfList {a b : IntervalSet} (hwa : a.wf) (hwb : b.wf)
    (hw : b.width = a.width) :
    wfList a.width
      (a.ivals.flatMap fun i => b.ivals.filterMap fun j => intersectIv i j) := by
  intro iv hiv
  rw [List.mem_flatMap] at hiv
  rcases hiv with ⟨i, hi, hiv2⟩
  rw [List.mem_filterMap] at hiv2
  rcases hiv2 with ⟨j, hj, hij⟩
  unfold intersectIv at hij
  split at hij
  · cases hij
    have hiw := hwa i hi
    have hjw := hwb j hj
    rw [hw] at hjw
    exact ⟨Nat.max_lt.mpr ⟨hiw.1, hjw.1⟩,
      lt_of_le_of_lt (min_le_left _ _) hiw.2⟩
  · cases hij

theorem intersect_wf {a b : IntervalSet} (hwa : a.wf) (hwb : b.wf)
    (hw : b.width = a.width) :
    (IntervalSet.intersect a b).wf := by
  unfold IntervalSet.intersect
  exact normalize_wf (s := ⟨a.width, _⟩) (intersect_wfList hwa hwb hw)

theorem intersect_covers {a b : IntervalSet} {v : Nat}
    (hpa : properList a.ivals) (hpb : properList b.ivals)
    (hwa : a.wf) (hwb : b.wf) (hw : b.width = a.width) (hv : v < 2 ^ a.width)
    (hca : a.coversB v = true) (hcb : b.coversB v = true) :
    (IntervalSet.intersect a b).coversB v = true := by
  unfold IntervalSet.intersect
  rw [normalize_covers
    (s := ⟨a.width, a.ivals.flatMap fun i => b.ivals.filterMap fun j => intersectIv i j⟩)
    (intersect_wfList hwa hwb hw) hv]
  unfold IntervalSet.coversB at hca hcb ⊢
  rw [List.any_eq_true] at hca hcb ⊢
  rcases hca with ⟨i, hi, hci⟩
  rcases hcb with ⟨j, hj, hcj⟩
  have hip := hpa i hi
  have hjp := hpb j hj
  unfold Iv.coversB at hci hcj
  rw [if_pos hip] at hci
  rw [if_pos hjp] at hcj
  simp only [Bool.and_eq_true, decide_eq_true_eq] at hci hcj
  have hle : max i.lo j.lo ≤ min i.hi j.hi :=
    le_trans (Nat.max_le.mpr ⟨le_trans hci.1 (le_refl _), hcj.1⟩)
      (Nat.le_min.mpr ⟨hci.2, hcj.2⟩)
  refine ⟨⟨max i.lo j.lo, min i.hi j.hi⟩, ?_, ?_⟩
  · rw [List.mem_flatMap]
    refine ⟨i, hi, ?_⟩
    rw [List.mem_filterMap]
    refine ⟨j, hj, ?_⟩
    unfold intersectIv
    rw [if_pos hle]
  · unfold Iv.coversB
    dsimp only
    rw [if_pos hle]
    simp only [Bool.and_eq_true, decide_eq_true_eq]
    exact ⟨Nat.max_le.mpr ⟨hci.1, hcj.1⟩, Nat.le_min.mpr ⟨hci.2, hcj.2⟩⟩

theorem append_max_covers {w : Nat} {l : List Iv} {v : Nat}
    (hswf : wfList w l) (hv : v < 2 ^ w)
    (hcov : l.any (fun i => i.coversB v) = true ∨ v = 2 ^ w - 1) :
    (IntervalSet.normalize
      ⟨w, l ++ [⟨2 ^ w - 1, 2 ^ w - 1⟩]⟩).coversB v = true := by
  have hp := Nat.two_pow_pos w
  have hwl : wfList w (l ++ [⟨2 ^ w - 1, 2 ^ w - 1⟩]) := by
    intro i hi
    rcases List.mem_append.mp hi with hh | hh
    · exact hswf i hh
    · simp at hh
      rw [hh]
      refine ⟨?_, ?_⟩ <;> dsimp only <;> omega
  rw [normalize_covers (s := ⟨w, l ++ [Iv.mk (2 ^ w - 1) (2 ^ w - 1)]⟩) hwl hv]
  unfold IntervalSet.coversB
  dsimp only
  rw [List.any_append]
  rcases hcov with h | h
  · rw [h]
    simp
  · have hone : Iv.coversB ⟨2 ^ w - 1, 2 ^ w - 1⟩ v = true := by
      unfold Iv.coversB
      rw [if_pos (le_refl _)]
      simp only [Bool.and_eq_true, decide_eq_true_eq]
      omega
    simp [hone]

theorem udiv_binop_covers {a d : IntervalSet} {x y : Nat} (hw : d.width = a.width)
    (hwa : a.wf) (hwd : d.wf) (hca : a.coversB x = true) (hcd : d.coversB y = true)
    (hxa : x < 2 ^ a.width) (hyd : y < 2 ^ d.width) :
    (performBinOp (fun x y => ⟨udivBits a.width x y, false, false⟩)
      a Tonicity.monotone d Tonicity.antitone a.width).coversB
        (udivBits a.width x y) = true := by
  unfold performBinOp
  refine performVariadicOp_covers _ _ _ _ [x, y] _ rfl ?_ ?_ ?_ ?_ ?_
  · exact ⟨hca, hxa, hcd, hyd, trivial⟩
  · intro s hs
    rcases List.mem_cons.mp hs with rfl | hs2
    · exact hwa
    · rcases List.mem_cons.mp hs2 with rfl | hs3
      · exact hwd
      · simp at hs3
  · exact udivBits_lt _ _ _
  · intro bs
    rcases bs with _ | ⟨p, _ | ⟨q, _ | ⟨r, rest⟩⟩⟩
    · exact Nat.two_pow_pos _
    · exact Nat.two_pow_pos _
    · exact udivBits_lt _ _ _
    · exact Nat.two_pow_pos _
  · intro lows highs halign
    rcases aligned_cons halign with ⟨l1, u1, ls, us, rfl, rfl, hl1, hu1, hm1, htail⟩
    rcases aligned_cons htail with ⟨l2, u2, ls2, us2, rfl, rfl, hl2, hu2, hm2, htail2⟩
    rcases aligned_nil htail2 with ⟨rfl, rfl⟩
    obtain ⟨hm1a, hm1b⟩ : l1 ≤ x ∧ x ≤ u1 := hm1
    obtain ⟨hm2a, hm2b⟩ : u2 ≤ y ∧ y ≤ l2 := hm2
    constructor
    · intro _ _
      dsimp only
      have h1 : udivBits a.width l1 l2 ≤ udivBits a.width x y :=
        udivBits_mono hm1a hm2b hxa
      have h2 : udivBits a.width x y ≤ udivBits a.width u1 u2 :=
        udivBits_mono hm1b hm2a hu1
      unfold Iv.coversB
      dsimp only
      rw [if_pos (le_trans h1 h2)]
      simp only [Bool.and_eq_true, decide_eq_true_eq]
      exact ⟨h1, h2⟩
    · intro hone _ _ _
      dsimp only at hone
      exact absurd rfl hone

theorem UDiv_covers {a b : IntervalSet} {x y : Nat} (hw : b.width = a.width)
    (hpb : properList b.ivals)
    (hwa : a.wf) (hwb : b.wf) (hca : a.coversB x = true) (hcb : b.coversB y = true)
    (hxa : x < 2 ^ a.width) (hyb : y < 2 ^ b.width) :
    (UDiv a b).coversB (udivBits a.width x y) = true := by
  by_cases hcz : b.coversZero = false
  · unfold UDiv
    rw [if_pos hcz]
    exact udiv_binop_covers hw hwa hwb hca hcb hxa hyb
  · have hUDiv : UDiv a b = IntervalSet.normalize
        ⟨(if (IntervalSet.intersect b (IntervalSet.nonZero b.width)).ivals.isEmpty then
            IntervalSet.empty a.width
          else performBinOp (fun x y => ⟨udivBits a.width x y, false, false⟩)
            a Tonicity.monotone (IntervalSet.intersect b (IntervalSet.nonZero b.width))
            Tonicity.antitone a.width).width,
         (if (IntervalSet.intersect b (IntervalSet.nonZero b.width)).ivals.isEmpty then
            IntervalSet.empty a.width
          else performBinOp (fun x y => ⟨udivBits a.width x y, false, false⟩)
            a Tonicity.monotone (IntervalSet.intersect b (IntervalSet.nonZero b.width))
            Tonicity.antitone a.width).ivals ++
           [⟨2 ^ a.width - 1, 2 ^ a.width - 1⟩]⟩ := by
      unfold UDiv
      rw [if_neg hcz]
    rw [hUDiv]
    have hpw := Nat.two_pow_pos a.width
    by_cases hy0 : y = 0
    · subst hy0
      have hudiv : udivBits a.width x 0 = 2 ^ a.width - 1 := by
        unfold udivBits
        rw [if_pos rfl]
      rw [hudiv]
      by_cases hemp : (IntervalSet.intersect b (IntervalSet.nonZero b.width)).ivals.isEmpty
      · rw [if_pos hemp]
        have hew : (IntervalSet.empty a.width).width = a.width := rfl
        rw [hew]
        refine append_max_covers ?_ (by omega) (Or.inr rfl)
        intro i hi
        simp [IntervalSet.empty] at hi
      · rw [if_neg hemp]
        have hfacts := performBinOp_wfn
          (fun x y => ⟨udivBits a.width x y, false, false⟩) a Tonicity.monotone
          (IntervalSet.intersect b (IntervalSet.nonZero b.width)) Tonicity.antitone
          a.width (fun p q => udivBits_lt _ _ _)
        rw [hfacts.2.2]
        refine append_max_covers ?_ (by omega) (Or.inr rfl)
        have h2 := hfacts.1
        unfold IntervalSet.wf at h2
        rw [hfacts.2.2] at h2
        exact h2
    · -- the divisor is non-zero: it lies in the intersection with NonZero
      have hy1 : 1 ≤ y := Nat.pos_of_ne_zero hy0
      have h2w : 2 ≤ 2 ^ b.width := by omega
      have hnzp : properList (IntervalSet.nonZero b.width).ivals := by
        intro i hi
        simp [IntervalSet.nonZero] at hi
        rw [hi]
        dsimp only
        omega
      have hnzwf : (IntervalSet.nonZero b.width).wf := by
        intro i hi
        simp [IntervalSet.nonZero] at hi
        rw [hi]
        refine ⟨?_, ?_⟩ <;> dsimp only [IntervalSet.nonZero] <;> omega
      have hnzcy : (IntervalSet.nonZero b.width).coversB y = true := by
        unfold IntervalSet.coversB IntervalSet.nonZero
        simp only [List.any_cons, List.any_nil, Bool.or_false]
        unfold Iv.coversB
        dsimp only
        rw [if_pos (by omega)]
        simp only [Bool.and_eq_true, decide_eq_true_eq]
        omega
      have hnzcov : (IntervalSet.intersect b (IntervalSet.nonZero b.width)).coversB y
          = true :=
        intersect_covers hpb hnzp hwb hnzwf rfl hyb hcb hnzcy
      have hemp : ¬((IntervalSet.intersect b (IntervalSet.nonZero b.width)).ivals.isEmpty
          = true) := by
        intro hc
        unfold IntervalSet.coversB at hnzcov
        rcases List.any_eq_true.mp hnzcov with ⟨i, hi, _⟩
        rw [List.isEmpty_iff] at hc
        rw [hc] at hi
        simp at hi
      rw [if_neg hemp]
      have hnzwf2 : (IntervalSet.intersect b (IntervalSet.nonZero b.width)).wf :=
        intersect_wf hwb hnzwf rfl
      have hbin := udiv_binop_covers (a := a)
        (d := IntervalSet.intersect b (IntervalSet.nonZero b.width))
        (x := x) (y := y) hw hwa hnzwf2 hca hnzcov hxa hyb
      have hfacts := performBinOp_wfn
        (fun x y => ⟨udivBits a.width x y, false, false⟩) a Tonicity.monotone
        (IntervalSet.intersect b (IntervalSet.nonZero b.width)) Tonicity.antitone
        a.width (fun p q => udivBits_lt _ _ _)
      rw [hfacts.2.2]
      refine append_max_covers ?_ (udivBits_lt _ _ _) (Or.inl ?_)
      · have h2 := hfacts.1
        unfold IntervalSet.wf at h2
        rw [hfacts.2.2] at h2
        exact h2
      · exact hbin

theorem SignExtend_covers {a : IntervalSet} {W : Nat} {x : Nat}
    (hwa : a.wf) (hwW : a.width ≤ W)
    (hca : a.coversB x = true) (hxa : x < 2 ^ a.width) :
    (SignExtend a W).coversB (signExtBits a.width W x) = true := by
  unfold SignExtend performUnaryOp
  have hle : 2 ^ a.width ≤ 2 ^ W := Nat.pow_le_pow_right (by norm_num) hwW
  have hres : ∀ z, signExtBits a.width W z < 2 ^ W := by
    intro z
    unfold signExtBits
    have hm : z % 2 ^ a.width < 2 ^ a.width := Nat.mod_lt _ (Nat.two_pow_pos _)
    split
    · omega
    · omega
  have hmono : ∀ p q, p ≤ q → q < 2 ^ a.width →
      signExtBits a.width W p ≤ signExtBits a.width W q := by
    intro p q hpq hq
    unfold signExtBits
    have hp : p < 2 ^ a.width := by omega
    rw [Nat.mod_eq_of_lt hp, Nat.mod_eq_of_lt hq]
    split_ifs <;> omega
  refine performVariadicOp_covers _ _ _ _ [x] _ rfl ?_ ?_ ?_ ?_ ?_
  · exact ⟨hca, hxa, trivial⟩
  · intro s hs
    rcases List.mem_cons.mp hs with rfl | hs2
    · exact hwa
    · simp at hs2
  · exact hres x
  · intro bs
    rcases bs with _ | ⟨p, _ | ⟨q, rest⟩⟩
    · exact Nat.two_pow_pos _
    · exact hres p
    · exact Nat.two_pow_pos _
  · intro lows highs halign
    rcases aligned_cons halign with ⟨l1, u1, ls, us, rfl, rfl, hl1, hu1, hm1, htail⟩
    rcases aligned_nil htail with ⟨rfl, rfl⟩
    obtain ⟨hm1a, hm1b⟩ : l1 ≤ x ∧ x ≤ u1 := hm1
    constructor
    · intro _ _
      dsimp only
      have h1 := hmono l1 x hm1a hxa
      have h2 := hmono x u1 hm1b hu1
      unfold Iv.coversB
      dsimp only
      rw [if_pos (le_trans h1 h2)]
      simp only [Bool.and_eq_true, decide_eq_true_eq]
      exact ⟨h1, h2⟩
    · intro hone _ _ _
      dsimp only at hone
      exact absurd rfl hone

theorem ZeroExtend_covers {a : IntervalSet} {W : Nat} {x : Nat}
    (hwa : a.wf) (hwW : a.width ≤ W)
    (hca : a.coversB x = true) (hxa : x < 2 ^ a.width) :
    (ZeroExtend a W).coversB x = true := by
  unfold ZeroExtend performUnaryOp
  have hle : 2 ^ a.width ≤ 2 ^ W := Nat.pow_le_pow_right (by norm_num) hwW
  refine performVariadicOp_covers _ _ _ _ [x] _ rfl ?_ ?_ ?_ ?_ ?_
  · exact ⟨hca, hxa, trivial⟩
  · intro s hs
    rcases List.mem_cons.mp hs with rfl | hs2
    · exact hwa
    · simp at hs2
  · omega
  · intro bs
    rcases bs with _ | ⟨p, _ | ⟨q, rest⟩⟩
    · exact Nat.two_pow_pos _
    · exact lt_of_lt_of_le (Nat.mod_lt _ (Nat.two_pow_pos _)) hle
    · exact Nat.two_pow_pos _
  · intro lows highs halign
    rcases aligned_cons halign with ⟨l1, u1, ls, us, rfl, rfl, hl1, hu1, hm1, htail⟩
    rcases aligned_nil htail with ⟨rfl, rfl⟩
    obtain ⟨hm1a, hm1b⟩ : l1 ≤ x ∧ x ≤ u1 := hm1
    constructor
    · intro _ _
      dsimp only
      unfold Iv.coversB
      dsimp only
      rw [Nat.mod_eq_of_lt hl1, Nat.mod_eq_of_lt hu1, if_pos (by omega)]
      simp only [Bool.and_eq_true, decide_eq_true_eq]
      omega
    · intro hone _ _ _
      dsimp only at hone
      exact absurd rfl hone

/-- Truncating an interval that spans less than `2^W` values keeps the
value inside the (possibly improper) truncated interval. -/
theorem truncMod_covers {W lo hi x : Nat} (hlx : lo ≤ x) (hxh : x ≤ hi)
    (hspan : hi - lo < 2 ^ W) :
    Iv.coversB ⟨lo % 2 ^ W, hi % 2 ^ W⟩ (x % 2 ^ W) = true := by
  have hP := Nat.two_pow_pos W
  have hk12 : lo / 2 ^ W ≤ x / 2 ^ W := Nat.div_le_div_right hlx
  have hk23 : x / 2 ^ W ≤ hi / 2 ^ W := Nat.div_le_div_right hxh
  have hk2b : hi / 2 ^ W ≤ lo / 2 ^ W + 1 := by
    have h1 : hi ≤ lo + 2 ^ W := by omega
    calc hi / 2 ^ W ≤ (lo + 2 ^ W) / 2 ^ W := Nat.div_le_div_right h1
      _ = lo / 2 ^ W + 1 := by rw [Nat.add_div_right _ hP]
  have e1 := Nat.div_add_mod lo (2 ^ W)
  have e2 := Nat.div_add_mod x (2 ^ W)
  have e3 := Nat.div_add_mod hi (2 ^ W)
  have m1 : lo % 2 ^ W < 2 ^ W := Nat.mod_lt _ hP
  have m2 : x % 2 ^ W < 2 ^ W := Nat.mod_lt _ hP
  have m3 : hi % 2 ^ W < 2 ^ W := Nat.mod_lt _ hP
  unfold Iv.coversB
  dsimp only
  by_cases hcase : hi / 2 ^ W = lo / 2 ^ W
  · have hx3 : x / 2 ^ W = lo / 2 ^ W := by omega
    rw [hcase] at e3
    rw [hx3] at e2
    obtain ⟨p, hp⟩ : ∃ p, 2 ^ W * (lo / 2 ^ W) = p := ⟨_, rfl⟩
    rw [hp] at e1 e2 e3
    rw [if_pos (by omega)]
    simp only [Bool.and_eq_true, decide_eq_true_eq]
    omega
  · have hcase2 : hi / 2 ^ W = lo / 2 ^ W + 1 := by omega
    rw [hcase2] at e3
    have hmul : 2 ^ W * (lo / 2 ^ W + 1) = 2 ^ W * (lo / 2 ^ W) + 2 ^ W := by ring
    rw [hmul] at e3
    by_cases hx3 : x / 2 ^ W = lo / 2 ^ W
    · rw [hx3] at e2
      obtain ⟨p, hp⟩ : ∃ p, 2 ^ W * (lo / 2 ^ W) = p := ⟨_, rfl⟩
      rw [hp] at e1 e2 e3
      rw [if_neg (by omega)]
      simp only [Bool.or_eq_true, decide_eq_true_eq]
      left
      omega
    · have hx32 : x / 2 ^ W = lo / 2 ^ W + 1 := by omega
      rw [hx32] at e2
      have hmul2 : 2 ^ W * (lo / 2 ^ W + 1) = 2 ^ W * (lo / 2 ^ W) + 2 ^ W := by ring
      rw [hmul2] at e2
      obtain ⟨p, hp⟩ : ∃ p, 2 ^ W * (lo / 2 ^ W) = p := ⟨_, rfl⟩
      rw [hp] at e1 e2 e3
      rw [if_neg (by omega)]
      simp only [Bool.or_eq_true, decide_eq_true_eq]
      right
      omega

theorem truncateGo_wf {w W : Nat} : ∀ (l : List Iv) (res : List Iv),
    truncateGo w W l = some res → wfList W res := by
  intro l
  induction l with
  | nil =>
      intro res h
      cases h
      intro i hi
      simp at hi
  | cons iv rest ih =>
      intro res h
      unfold truncateGo at h
      split at h
      · cases h
      · rcases hrec : truncateGo w W rest with _ | l2
        · rw [hrec] at h
          cases h
        · rw [hrec] at h
          cases h
          intro i hi
          rcases List.mem_cons.mp hi with rfl | hi2
          · exact ⟨by dsimp only; exact Nat.mod_lt _ (Nat.two_pow_pos W),
              by dsimp only; exact Nat.mod_lt _ (Nat.two_pow_pos W)⟩
          · exact ih l2 hrec i hi2

theorem truncateGo_covers {w W : Nat} {x : Nat} :
    ∀ (l : List Iv), properList l → wfList w l →
    ∀ res, truncateGo w W l = some res →
    l.any (fun i => i.coversB x) = true →
    res.any (fun i => i.coversB (x % 2 ^ W)) = true := by
  intro l
  induction l with
  | nil =>
      intro _ _ res h hcov
      simp at hcov
  | cons iv rest ih =>
      intro hp hwf res h hcov
      unfold truncateGo at h
      by_cases hguard : 2 ^ W - 1 < wrapSub w iv.hi iv.lo
      · rw [if_pos hguard] at h
        cases h
      · rw [if_neg hguard] at h
        rcases hrec : truncateGo w W rest with _ | l2
        · rw [hrec] at h
          cases h
        · rw [hrec] at h
          cases h
          simp only [List.any_cons, Bool.or_eq_true] at hcov ⊢
          have hprop : iv.lo ≤ iv.hi := hp iv (by simp)
          have hivwf := hwf iv (by simp)
          have hspan : iv.hi - iv.lo < 2 ^ W := by
            have hws : wrapSub w iv.hi iv.lo = iv.hi - iv.lo := by
              rw [wrapSub_eq hivwf.2 hivwf.1, if_pos hprop]
            have hWp := Nat.two_pow_pos W
            omega
          rcases hcov with hcov | hcov
          · left
            unfold Iv.coversB at hcov
            rw [if_pos hprop] at hcov
            simp only [Bool.and_eq_true, decide_eq_true_eq] at hcov
            exact truncMod_covers hcov.1 hcov.2 hspan
          · right
            exact ih (fun i hi => hp i (by simp [hi]))
              (fun i hi => hwf i (by simp [hi])) l2 hrec hcov

theorem Truncate_covers {a : IntervalSet} {W : Nat} {x : Nat}
    (hna : a.Normalized) (hwa : a.wf) (hca : a.coversB x = true) :
    (Truncate a W).coversB (x % 2 ^ W) = true := by
  have hWp := Nat.two_pow_pos W
  unfold Truncate
  rcases hgo : truncateGo a.width W a.ivals with _ | l
  · unfold IntervalSet.maximal IntervalSet.coversB
    simp only [List.any_cons, List.any_nil, Bool.or_false]
    unfold Iv.coversB
    dsimp only
    rw [if_pos (Nat.zero_le _)]
    simp only [Bool.and_eq_true, decide_eq_true_eq]
    have := Nat.mod_lt x hWp
    omega
  · rw [normalize_covers (s := ⟨W, l⟩) (truncateGo_wf a.ivals l hgo)
      (Nat.mod_lt _ hWp)]
    exact truncateGo_covers a.ivals hna.1 hwa l hgo hca

theorem concatValW_lt : ∀ (ws : List Nat) (vs : List Nat),
    concatValW ws vs < 2 ^ ws.sum := by
  intro ws
  induction ws with
  | nil =>
      intro vs
      rcases vs with _ | ⟨v, vs⟩ <;> simp [concatValW]
  | cons w ws ih =>
      intro vs
      rcases vs with _ | ⟨v, vs⟩
      · simp only [concatValW]
        exact Nat.two_pow_pos _
      · unfold concatValW
        have h1 : v % 2 ^ w < 2 ^ w := Nat.mod_lt _ (Nat.two_pow_pos w)
        have h2 := ih vs
        have hsum : (w :: ws).sum = w + ws.sum := by simp
        rw [hsum, pow_add]
        calc v % 2 ^ w * 2 ^ ws.sum + concatValW ws vs
            < v % 2 ^ w * 2 ^ ws.sum + 2 ^ ws.sum := by omega
          _ = (v % 2 ^ w + 1) * 2 ^ ws.sum := by ring
          _ ≤ 2 ^ w * 2 ^ ws.sum := Nat.mul_le_mul_right _ (by omega)

theorem concat_aligned_bounds : ∀ (sets : List IntervalSet) (xs lows highs : List Nat),
    Aligned (sets.map fun _ => Tonicity.monotone) sets lows xs highs →
    concatValW (sets.map (fun s => s.width)) lows ≤
      concatValW (sets.map (fun s => s.width)) xs ∧
    concatValW (sets.map (fun s => s.width)) xs ≤
      concatValW (sets.map (fun s => s.width)) highs := by
  intro sets
  induction sets with
  | nil =>
      intro xs lows highs _
      simp [concatValW]
  | cons s ss ih =>
      intro xs lows highs halign
      rw [List.map_cons] at halign
      rcases xs with _ | ⟨x, xs⟩
      · rcases lows with _ | ⟨l, ls⟩
        · exact halign.elim
        · rcases highs with _ | ⟨u, us⟩ <;> exact halign.elim
      · rcases aligned_cons halign with ⟨l, u, ls, us, rfl, rfl, hl, hu, hm, htail⟩
        obtain ⟨hma, hmb⟩ : l ≤ x ∧ x ≤ u := hm
        have hx : x < 2 ^ s.width := lt_of_le_of_lt hmb hu
        have hrec := ih xs ls us htail
        simp only [List.map_cons]
        unfold concatValW
        have hml : l % 2 ^ s.width = l := Nat.mod_eq_of_lt hl
        have hmu : u % 2 ^ s.width = u := Nat.mod_eq_of_lt hu
        have hmx : x % 2 ^ s.width = x := Nat.mod_eq_of_lt hx
        rw [hml, hmu, hmx]
        constructor
        · exact Nat.add_le_add (Nat.mul_le_mul_right _ hma) hrec.1
        · exact Nat.add_le_add (Nat.mul_le_mul_right _ hmb) hrec.2

theorem Concat_covers {sets : List IntervalSet} {xs : List Nat}
    (hwf : ∀ s ∈ sets, s.wf) (hmem : MemAll sets xs) :
    (Concat sets).coversB (concatValW (sets.map (fun s => s.width)) xs) = true := by
  unfold Concat
  refine performVariadicOp_covers _ _ _ _ xs _ (by simp) hmem hwf
    (concatValW_lt _ _) (fun bs => concatValW_lt _ _) ?_
  intro lows highs halign
  constructor
  · intro _ _
    dsimp only
    have hb := concat_aligned_bounds sets xs lows highs halign
    unfold Iv.coversB
    dsimp only
    rw [if_pos (le_trans hb.1 hb.2)]
    simp only [Bool.and_eq_true, decide_eq_true_eq]
    exact hb
  · intro hone _ _ _
    dsimp only at hone
    exact absurd rfl hone

/-! ## Concrete bit-level semantics (modelled from the spec's description
of the IR operations; the IR evaluator itself is not in src/) -/

/-- The `w` low bits of `x`, least significant first. -/
def natBits (w x : Nat) : List Bool := (List.range w).map (getBit x)

/-- The value of a bit list, least significant first. -/
def bitsVal : List Bool → Nat
  | [] => 0
  | b :: r => (if b then 1 else 0) + 2 * bitsVal r

/-- Modelled from the spec: concrete bitwise NOT at width `w`. -/
def notVal (w x : Nat) : Nat := bitsVal ((natBits w x).map (fun b => !b))

/-- Modelled from the spec: concrete bitwise AND at width `w`. -/
def andVal (w x y : Nat) : Nat :=
  bitsVal (List.zipWith (fun p q => p && q) (natBits w x) (natBits w y))

/-- Modelled from the spec: concrete bitwise OR at width `w`. -/
def orVal (w x y : Nat) : Nat :=
  bitsVal (List.zipWith (fun p q => p || q) (natBits w x) (natBits w y))

/-- Modelled from the spec: concrete bitwise XOR at width `w`. -/
def xorVal (w x y : Nat) : Nat :=
  bitsVal (List.zipWith (fun p q => xor p q) (natBits w x) (natBits w y))

/-- Modelled from the spec: the signed (two's-complement) reading of a
`w`-bit value. -/
def toSigned (w x : Nat) : Int :=
  if x < 2 ^ (w - 1) then (x : Int) else (x : Int) - 2 ^ w

/-- Concrete `eq`. -/
def eqVal (x y : Nat) : Nat := if x = y then 1 else 0

/-- Concrete `ne`. -/
def neVal (x y : Nat) : Nat := if x = y then 0 else 1

/-- Concrete `ult`. -/
def ultVal (x y : Nat) : Nat := if x < y then 1 else 0

/-- Concrete `ugt`. -/
def ugtVal (x y : Nat) : Nat := if y < x then 1 else 0

/-- Concrete `slt`. -/
def sltVal (w x y : Nat) : Nat := if toSigned w x < toSigned w y then 1 else 0

/-- Concrete `sgt`. -/
def sgtVal (w x y : Nat) : Nat := if toSigned w y < toSigned w x then 1 else 0

/-- Concrete `and_reduce`: 1 iff all bits set. -/
def andReduceVal (w x : Nat) : Nat := if x = 2 ^ w - 1 then 1 else 0

/-- Concrete `or_reduce`: 1 iff any bit set. -/
def orReduceVal (x : Nat) : Nat := if x = 0 then 0 else 1

/-- Concrete `gate`: a false condition forces zero. -/
def gateVal (c v : Nat) : Nat := if c = 0 then 0 else v

/-- The Boolean one-hot scan mirroring `oneHotGo`. -/
def oneHotGoB (acc : Bool) : List Bool → List Bool × Bool
  | [] => ([], acc)
  | b :: r =>
      let p := oneHotGoB (acc || b) r
      ((b && !acc) :: p.1, p.2)

/-- Modelled from the spec: concrete one-hot, lowest set bit wins, the
extra MSB fires when no bit is set. -/
def oneHotValLsb (w x : Nat) : Nat :=
  bitsVal ((oneHotGoB false (natBits w x)).1 ++ [!(oneHotGoB false (natBits w x)).2])

/-- Modelled from the spec: concrete one-hot, highest set bit wins. -/
def oneHotValMsb (w x : Nat) : Nat :=
  bitsVal (((oneHotGoB false (natBits w x).reverse).1).reverse ++
    [!(oneHotGoB false (natBits w x).reverse).2])

/-- A ternary bit covers a Boolean bit. -/
def TVm (a : TV) (b : Bool) : Prop :=
  a = TV.unknown ∨ a = (if b then TV.one else TV.zero)

/-! ## Bit-level lemmas -/

theorem bitsVal_lt : ∀ bs : List Bool, bitsVal bs < 2 ^ bs.length := by
  intro bs
  induction bs with
  | nil => simp [bitsVal]
  | cons b r ih =>
      unfold bitsVal
      have : (2 : Nat) ^ (b :: r).length = 2 * 2 ^ r.length := by
        rw [List.length_cons, pow_succ]
        ring
      rw [this]
      split <;> omega

theorem consistentB_forall2 : ∀ (t : TernVec) (bs : List Bool),
    List.Forall₂ TVm t bs → consistentB t (bitsVal bs) = true := by
  intro t
  induction t with
  | nil => intro bs _; rfl
  | cons a r ih =>
      intro bs h
      rcases bs with _ | ⟨b, bs⟩
      · cases h
      · rcases h with _ | ⟨hab, htail⟩
        unfold consistentB bitsVal
        have hmod : ((if b then 1 else 0) + 2 * bitsVal bs) % 2 =
            (if b then 1 else 0) := by
          split <;> omega
        have hdiv : ((if b then 1 else 0) + 2 * bitsVal bs) / 2 = bitsVal bs := by
          split <;> omega
        rw [hmod, hdiv, ih bs htail, Bool.and_true]
        rcases hab with hab | hab
        · rw [hab]
        · rw [hab]
          rcases b with _ | _ <;> simp

theorem natBits_succ (w x : Nat) :
    natBits (w + 1) x = getBit x 0 :: natBits w (x / 2) := by
  unfold natBits
  rw [List.range_succ_eq_map, List.map_cons, List.map_map]
  congr 1
  apply List.map_congr_left
  intro i _
  show getBit x (i + 1) = getBit (x / 2) i
  rw [getBit_div2]

theorem forall2_consistent_natBits : ∀ (t : TernVec) (x : Nat),
    consistentB t x = true → List.Forall₂ TVm t (natBits t.length x) := by
  intro t
  induction t with
  | nil =>
      intro x _
      show List.Forall₂ TVm [] (natBits 0 x)
      exact List.Forall₂.nil
  | cons a r ih =>
      intro x h
      unfold consistentB at h
      rw [Bool.and_eq_true] at h
      rw [List.length_cons, natBits_succ]
      refine List.Forall₂.cons ?_ (ih _ h.2)
      rcases ha : a with _ | _ | _
      · rw [ha] at h
        right
        rw [getBit_zero_eq]
        have : x % 2 ≠ 1 := by
          intro hc
          rw [hc] at h
          simp at h
        rcases h with ⟨h1, _⟩
        have hb : (x % 2 == 1) = false := by
          rw [beq_eq_false_iff_ne]
          exact this
        rw [hb]
        rfl
      · rw [ha] at h
        right
        rw [getBit_zero_eq]
        have hb : (x % 2 == 1) = true := h.1
        rw [hb]
        rfl
      · left
        rfl

theorem TVm_not1 {a : TV} {p : Bool} (ha : TVm a p) : TVm (TV.not1 a) (!p) := by
  rcases ha with rfl | rfl
  · left
    rfl
  · rcases p with _ | _ <;> simp [TV.not1, TVm]

theorem TVm_and1 {a b : TV} {p q : Bool} (ha : TVm a p) (hb : TVm b q) :
    TVm (TV.and1 a b) (p && q) := by
  rcases ha with rfl | rfl <;> rcases hb with rfl | rfl <;>
    rcases p with _ | _ <;> rcases q with _ | _ <;> simp [TV.and1, TVm]

theorem TVm_or1 {a b : TV} {p q : Bool} (ha : TVm a p) (hb : TVm b q) :
    TVm (TV.or1 a b) (p || q) := by
  rcases ha with rfl | rfl <;> rcases hb with rfl | rfl <;>
    rcases p with _ | _ <;> rcases q with _ | _ <;> simp [TV.or1, TVm]

theorem TVm_xor1 {a b : TV} {p q : Bool} (ha : TVm a p) (hb : TVm b q) :
    TVm (TV.xor1 a b) (xor p q) := by
  rcases ha with rfl | rfl <;> rcases hb with rfl | rfl <;>
    rcases p with _ | _ <;> rcases q with _ | _ <;> simp [TV.xor1, TVm]

theorem forall2_map_not1 : ∀ {t : TernVec} {bs : List Bool},
    List.Forall₂ TVm t bs →
    List.Forall₂ TVm (t.map TV.not1) (bs.map (fun b => !b)) := by
  intro t bs h
  induction h with
  | nil => exact List.Forall₂.nil
  | cons hab htail ih =>
      rw [List.map_cons, List.map_cons]
      exact List.Forall₂.cons (TVm_not1 hab) ih

theorem forall2_zipWith {f : TV → TV → TV} {g : Bool → Bool → Bool}
    (hc : ∀ a b p q, TVm a p → TVm b q → TVm (f a b) (g p q)) :
    ∀ {t1 : TernVec} {bs1 : List Bool}, List.Forall₂ TVm t1 bs1 →
    ∀ {t2 : TernVec} {bs2 : List Bool}, List.Forall₂ TVm t2 bs2 →
    List.Forall₂ TVm (List.zipWith f t1 t2) (List.zipWith g bs1 bs2) := by
  intro t1 bs1 h1
  induction h1 with
  | nil =>
      intro t2 bs2 _
      exact List.Forall₂.nil
  | cons hab htail ih =>
      intro t2 bs2 h2
      rcases h2 with _ | ⟨hab2, htail2⟩
      · exact List.Forall₂.nil
      · rw [List.zipWith_cons_cons, List.zipWith_cons_cons]
        exact List.Forall₂.cons (hc _ _ _ _ hab hab2) (ih htail2)

theorem natBits_length (w x : Nat) : (natBits w x).length = w := by
  unfold natBits
  simp

theorem extractTernaryVector_length {s : IntervalSet} (h : s.ivals ≠ []) :
    (extractTernaryVector s).length = s.width := by
  unfold extractTernaryVector
  rcases hres : s.ivals with _ | ⟨i, rest⟩
  · exact absurd hres h
  · have hstart : (extractTernaryInterval s.width i).length = s.width := by
      unfold extractTernaryInterval
      simp
    have hfold : ∀ (l : List Iv) (acc : TernVec), acc.length = s.width →
        (l.foldl (fun acc j =>
          updateWithIntersection acc (extractTernaryInterval s.width j)) acc).length
          = s.width := by
      intro l
      induction l with
      | nil => intro acc hacc; exact hacc
      | cons j r ih =>
          intro acc hacc
          rw [List.foldl_cons]
          apply ih
          unfold updateWithIntersection
          rw [List.length_zipWith, hacc]
          unfold extractTernaryInterval
          simp
    exact hfold rest _ hstart

theorem TVm_oneBit {a : IntervalSet} {x : Nat}
    (hca : a.coversB x = true) (hx2 : x < 2) :
    TVm (oneBitRangeToTernary a) (getBit x 0) := by
  unfold oneBitRangeToTernary
  by_cases hp : a.isPrecise = true
  · rw [if_pos hp]
    unfold IntervalSet.isPrecise at hp
    rcases hiv : a.ivals with _ | ⟨i, rest⟩
    · rw [hiv] at hp
      exact absurd hp (by simp)
    · rcases rest with _ | ⟨j, rest2⟩
      · rw [hiv] at hp
        simp at hp
        unfold IntervalSet.coversB at hca
        rw [hiv] at hca
        simp only [List.any_cons, List.any_nil, Bool.or_false] at hca
        unfold Iv.coversB at hca
        rw [if_pos (le_of_eq hp)] at hca
        simp only [Bool.and_eq_true, decide_eq_true_eq] at hca
        by_cases hz : a.coversZero = true
        · rw [if_pos hz]
          unfold IntervalSet.coversZero IntervalSet.coversB at hz
          rw [hiv] at hz
          simp only [List.any_cons, List.any_nil, Bool.or_false] at hz
          unfold Iv.coversB at hz
          rw [if_pos (le_of_eq hp)] at hz
          simp only [Bool.and_eq_true, decide_eq_true_eq] at hz
          have hx0 : x = 0 := by omega
          right
          rw [hx0]
          decide
        · rw [if_neg hz]
          have hxne : x ≠ 0 := by
            intro hc
            apply hz
            unfold IntervalSet.coversZero IntervalSet.coversB
            rw [hiv]
            simp only [List.any_cons, List.any_nil, Bool.or_false]
            unfold Iv.coversB
            rw [if_pos (le_of_eq hp)]
            simp only [Bool.and_eq_true, decide_eq_true_eq]
            omega
          have hx1 : x = 1 := by omega
          right
          rw [hx1]
          decide
      · rw [hiv] at hp
        exact absurd hp (by simp)
  · rw [if_neg hp]
    left
    rfl

theorem TVm_oneBitRange {t : TV} {b : Bool} (h : TVm t b) :
    (ternaryToOneBitRange t).coversB (bitsVal [b]) = true := by
  rcases h with rfl | rfl
  · rcases b with _ | _ <;> decide
  · rcases b with _ | _ <;> decide

theorem covers_nonempty {s : IntervalSet} {x : Nat} (h : s.coversB x = true) :
    s.ivals ≠ [] := by
  unfold IntervalSet.coversB at h
  rcases List.any_eq_true.mp h with ⟨i, hi, _⟩
  exact List.ne_nil_of_mem hi

theorem fromTernary_zip_covers {a b : IntervalSet} {x y : Nat}
    {f : TV → TV → TV} {g : Bool → Bool → Bool} {budget : Nat}
    (hc : ∀ p q r s, TVm p r → TVm q s → TVm (f p q) (g r s))
    (hw : b.width = a.width)
    (hna : a.Normalized) (hnb : b.Normalized) (hwa : a.wf) (hwb : b.wf)
    (hca : a.coversB x = true) (hcb : b.coversB y = true) :
    (fromTernary (List.zipWith f (extractTernaryVector a) (extractTernaryVector b))
      budget).coversB
      (bitsVal (List.zipWith g (natBits a.width x) (natBits a.width y))) = true := by
  have hla := extractTernaryVector_length (s := a) (covers_nonempty hca)
  have hlb := extractTernaryVector_length (s := b) (covers_nonempty hcb)
  have hf2a : List.Forall₂ TVm (extractTernaryVector a) (natBits a.width x) := by
    have h2 := forall2_consistent_natBits _ _ (extractTernaryVector_consistent hna hwa hca)
    rw [hla] at h2
    exact h2
  have hf2b : List.Forall₂ TVm (extractTernaryVector b) (natBits a.width y) := by
    have h2 := forall2_consistent_natBits _ _ (extractTernaryVector_consistent hnb hwb hcb)
    rw [hlb, hw] at h2
    exact h2
  have hf2 := forall2_zipWith hc hf2a hf2b
  refine fromTernary_covers (consistentB_forall2 _ _ hf2) ?_
  have hlen1 : (List.zipWith g (natBits a.width x) (natBits a.width y)).length
      = a.width := by
    rw [List.length_zipWith, natBits_length, natBits_length]
    simp
  have hlen2 : (List.zipWith f (extractTernaryVector a)
      (extractTernaryVector b)).length = a.width := by
    rw [List.length_zipWith, hla, hlb, hw]
    simp
  calc bitsVal (List.zipWith g (natBits a.width x) (natBits a.width y))
      < 2 ^ (List.zipWith g (natBits a.width x) (natBits a.width y)).length :=
        bitsVal_lt _
    _ = 2 ^ (List.zipWith f (extractTernaryVector a)
        (extractTernaryVector b)).length := by rw [hlen1, hlen2]

theorem fromTernary_map_covers {a : IntervalSet} {x : Nat} {budget : Nat}
    (hna : a.Normalized) (hwa : a.wf) (hca : a.coversB x = true) :
    (fromTernary ((extractTernaryVector a).map TV.not1) budget).coversB
      (bitsVal ((natBits a.width x).map (fun b => !b))) = true := by
  have hla := extractTernaryVector_length (s := a) (covers_nonempty hca)
  have hf2a : List.Forall₂ TVm (extractTernaryVector a) (natBits a.width x) := by
    have h2 := forall2_consistent_natBits _ _ (extractTernaryVector_consistent hna hwa hca)
    rw [hla] at h2
    exact h2
  have hf2 := forall2_map_not1 hf2a
  refine fromTernary_covers (consistentB_forall2 _ _ hf2) ?_
  have hlen1 : ((natBits a.width x).map (fun b => !b)).length = a.width := by
    rw [List.length_map, natBits_length]
  have hlen2 : ((extractTernaryVector a).map TV.not1).length = a.width := by
    rw [List.length_map, hla]
  calc bitsVal ((natBits a.width x).map (fun b => !b))
      < 2 ^ ((natBits a.width x).map (fun b => !b)).length := bitsVal_lt _
    _ = 2 ^ ((extractTernaryVector a).map TV.not1).length := by rw [hlen1, hlen2]

theorem Not_covers {a : IntervalSet} {x : Nat}
    (hna : a.Normalized) (hwa : a.wf)
    (hca : a.coversB x = true) (hxa : x < 2 ^ a.width) :
    (Not a).coversB (notVal a.width x) = true := by
  unfold Not
  by_cases h1 : a.width = 1
  · rw [if_pos h1]
    have heq : notVal a.width x = bitsVal [!getBit x 0] := by
      rw [h1]
      rfl
    rw [heq]
    rw [h1] at hxa
    exact TVm_oneBitRange (TVm_not1 (TVm_oneBit hca (by simpa using hxa)))
  · rw [if_neg h1]
    exact fromTernary_map_covers hna hwa hca

theorem And_covers {a b : IntervalSet} {x y : Nat} (hw : b.width = a.width)
    (hna : a.Normalized) (hnb : b.Normalized) (hwa : a.wf) (hwb : b.wf)
    (hca : a.coversB x = true) (hcb : b.coversB y = true)
    (hxa : x < 2 ^ a.width) (hyb : y < 2 ^ b.width) :
    (And a b).coversB (andVal a.width x y) = true := by
  unfold And
  by_cases h1 : a.width = 1
  · rw [if_pos h1]
    have heq : andVal a.width x y = bitsVal [getBit x 0 && getBit y 0] := by
      rw [h1]
      rfl
    rw [heq]
    rw [h1] at hxa
    rw [hw, h1] at hyb
    exact TVm_oneBitRange (TVm_and1 (TVm_oneBit hca (by simpa using hxa))
      (TVm_oneBit hcb (by simpa using hyb)))
  · rw [if_neg h1]
    exact fromTernary_zip_covers (fun p q r s => TVm_and1) hw hna hnb hwa hwb hca hcb

theorem Or_covers {a b : IntervalSet} {x y : Nat} (hw : b.width = a.width)
    (hna : a.Normalized) (hnb : b.Normalized) (hwa : a.wf) (hwb : b.wf)
    (hca : a.coversB x = true) (hcb : b.coversB y = true)
    (hxa : x < 2 ^ a.width) (hyb : y < 2 ^ b.width) :
    (Or a b).coversB (orVal a.width x y) = true := by
  unfold Or
  by_cases h1 : a.width = 1
  · rw [if_pos h1]
    have heq : orVal a.width x y = bitsVal [getBit x 0 || getBit y 0] := by
      rw [h1]
      rfl
    rw [heq]
    rw [h1] at hxa
    rw [hw, h1] at hyb
    exact TVm_oneBitRange (TVm_or1 (TVm_oneBit hca (by simpa using hxa))
      (TVm_oneBit hcb (by simpa using hyb)))
  · rw [if_neg h1]
    exact fromTernary_zip_covers (fun p q r s => TVm_or1) hw hna hnb hwa hwb hca hcb

theorem Xor_covers {a b : IntervalSet} {x y : Nat} (hw : b.width = a.width)
    (hna : a.Normalized) (hnb : b.Normalized) (hwa : a.wf) (hwb : b.wf)
    (hca : a.coversB x = true) (hcb : b.coversB y = true)
    (hxa : x < 2 ^ a.width) (hyb : y < 2 ^ b.width) :
    (Xor a b).coversB (xorVal a.width x y) = true := by
  unfold Xor
  by_cases h1 : a.width = 1
  · rw [if_pos h1]
    have heq : xorVal a.width x y = bitsVal [xor (getBit x 0) (getBit y 0)] := by
      rw [h1]
      rfl
    rw [heq]
    rw [h1] at hxa
    rw [hw, h1] at hyb
    exact TVm_oneBitRange (TVm_xor1 (TVm_oneBit hca (by simpa using hxa))
      (TVm_oneBit hcb (by simpa using hyb)))
  · rw [if_neg h1]
    exact fromTernary_zip_covers (fun p q r s => TVm_xor1) hw hna hnb hwa hwb hca hcb

theorem precise_unique {a : IntervalSet} (hp : a.isPrecise = true) {u v : Nat}
    (hu : a.coversB u = true) (hv : a.coversB v = true) : u = v := by
  unfold IntervalSet.isPrecise at hp
  rcases hiv : a.ivals with _ | ⟨i, rest⟩
  · rw [hiv] at hp
    exact absurd hp (by simp)
  · rcases rest with _ | ⟨j, rest2⟩
    · rw [hiv] at hp
      simp at hp
      unfold IntervalSet.coversB at hu hv
      rw [hiv] at hu hv
      simp only [List.any_cons, List.any_nil, Bool.or_false] at hu hv
      unfold Iv.coversB at hu hv
      rw [if_pos (le_of_eq hp)] at hu hv
      simp only [Bool.and_eq_true, decide_eq_true_eq] at hu hv
      omega
    · rw [hiv] at hp
      exact absurd hp (by simp)

theorem precise_getValue {a : IntervalSet} (hp : a.isPrecise = true) {x : Nat}
    (hc : a.coversB x = true) : a.getPreciseValue = some x := by
  unfold IntervalSet.getPreciseValue
  unfold IntervalSet.isPrecise at hp
  rcases hiv : a.ivals with _ | ⟨i, rest⟩
  · rw [hiv] at hp
    exact absurd hp (by simp)
  · rcases rest with _ | ⟨j, rest2⟩
    · rw [hiv] at hp
      have hp2 : i.lo = i.hi := by simpa using hp
      dsimp only
      rw [if_pos hp]
      unfold IntervalSet.coversB at hc
      rw [hiv] at hc
      simp only [List.any_cons, List.any_nil, Bool.or_false] at hc
      unfold Iv.coversB at hc
      rw [if_pos (le_of_eq hp2)] at hc
      simp only [Bool.and_eq_true, decide_eq_true_eq] at hc
      have : i.lo = x := by omega
      rw [this]
    · rw [hiv] at hp
      exact absurd hp (by simp)

theorem tern1_covers_lt {v : Nat} (h : v < 2) :
    (ternaryToOneBitRange TV.unknown).coversB v = true := by
  unfold ternaryToOneBitRange IntervalSet.maximal IntervalSet.coversB
  simp only [List.any_cons, List.any_nil, Bool.or_false]
  unfold Iv.coversB
  dsimp only
  rw [if_pos (by omega : (0 : Nat) ≤ 2 ^ 1 - 1)]
  simp only [Bool.and_eq_true, decide_eq_true_eq]
  omega

theorem AndReduce_covers {a : IntervalSet} {x : Nat}
    (hca : a.coversB x = true) (hxa : x < 2 ^ a.width) :
    (AndReduce a).coversB (andReduceVal a.width x) = true := by
  unfold AndReduce
  by_cases hm : a.coversMax = false
  · rw [if_pos hm]
    have hx : x ≠ 2 ^ a.width - 1 := by
      intro hc
      unfold IntervalSet.coversMax at hm
      rw [hc] at hca
      rw [hca] at hm
      cases hm
    unfold andReduceVal
    rw [if_neg hx]
    decide
  · rw [if_neg hm]
    have hmt : a.coversMax = true := by
      rcases Bool.eq_false_or_eq_true a.coversMax with h | h
      · exact h
      · exact absurd h hm
    by_cases hp : a.isPrecise = true
    · rw [if_pos hp]
      unfold IntervalSet.coversMax at hmt
      have hx : x = 2 ^ a.width - 1 := precise_unique hp hca hmt
      unfold andReduceVal
      rw [if_pos hx]
      decide
    · rw [if_neg hp]
      exact tern1_covers_lt (by unfold andReduceVal; split <;> omega)

theorem OrReduce_covers {a : IntervalSet} {x : Nat}
    (hca : a.coversB x = true) :
    (OrReduce a).coversB (orReduceVal x) = true := by
  unfold OrReduce
  by_cases hz : a.coversZero = false
  · rw [if_pos hz]
    have hx : x ≠ 0 := by
      intro hc
      unfold IntervalSet.coversZero at hz
      rw [hc] at hca
      rw [hca] at hz
      cases hz
    unfold orReduceVal
    rw [if_neg hx]
    decide
  · rw [if_neg hz]
    have hzt : a.coversZero = true := by
      rcases Bool.eq_false_or_eq_true a.coversZero with h | h
      · exact h
      · exact absurd h hz
    by_cases hp : a.isPrecise = true
    · rw [if_pos hp]
      unfold IntervalSet.coversZero at hzt
      have hx : x = 0 := precise_unique hp hca hzt
      unfold orReduceVal
      rw [if_pos hx]
      decide
    · rw [if_neg hp]
      exact tern1_covers_lt (by unfold orReduceVal; split <;> omega)

theorem parity_lt (x : Nat) : parity x < 2 := by
  rw [parity]
  split
  · omega
  · exact Nat.mod_lt _ (by norm_num)

theorem singleton_covers_eq {i : Iv} {x : Nat} (hlo : i.lo = i.hi)
    (h : i.coversB x = true) : x = i.lo := by
  unfold Iv.coversB at h
  rw [if_pos (le_of_eq hlo)] at h
  simp only [Bool.and_eq_true, decide_eq_true_eq] at h
  omega

theorem tern1_parity_covers {p : Nat} (hp : p < 2) :
    (ternaryToOneBitRange (if p = 1 then TV.one else TV.zero)).coversB p = true := by
  by_cases h1 : p = 1
  · rw [if_pos h1, h1]
    decide
  · rw [if_neg h1]
    have : p = 0 := by omega
    rw [this]
    decide

theorem xorReduceGo_covers {x : Nat} : ∀ (l : List Iv) (out : Nat),
    (out = parity x ∨ l.any (fun i => i.coversB x) = true) →
    (xorReduceGo out l).coversB (parity x) = true := by
  intro l
  induction l with
  | nil =>
      intro out h
      rcases h with h | h
      · subst h
        unfold xorReduceGo
        exact tern1_parity_covers (parity_lt x)
      · simp at h
  | cons i rest ih =>
      intro out h
      unfold xorReduceGo
      by_cases hc : i.lo = i.hi ∧ parity i.lo = out
      · rw [if_pos hc]
        apply ih
        rcases h with h | h
        · left
          exact h
        · simp only [List.any_cons, Bool.or_eq_true] at h
          rcases h with h | h
          · left
            have hx : x = i.lo := singleton_covers_eq hc.1 h
            rw [hx]
            exact hc.2.symm
          · right
            exact h
      · rw [if_neg hc]
        exact tern1_covers_lt (parity_lt x)

theorem XorReduce_covers {a : IntervalSet} {x : Nat}
    (hca : a.coversB x = true) :
    (XorReduce a).coversB (parity x) = true := by
  unfold XorReduce
  unfold IntervalSet.coversB at hca
  rcases hiv : a.ivals with _ | ⟨i, rest⟩
  · rw [hiv] at hca
    simp at hca
  · rw [hiv] at hca
    dsimp only
    by_cases hlo : i.lo = i.hi
    · rw [if_pos hlo]
      apply xorReduceGo_covers
      simp only [List.any_cons, Bool.or_eq_true] at hca
      rcases hca with h | h
      · left
        have hx : x = i.lo := singleton_covers_eq hlo h
        rw [hx]
      · right
        exact h
    · rw [if_neg hlo]
      exact tern1_covers_lt (parity_lt x)

theorem convexHull_bounds {s : IntervalSet} {x : Nat}
    (hps : properList s.ivals) (hca : s.coversB x = true) :
    ∃ h, s.convexHull = some h ∧ h.lo ≤ x ∧ x ≤ h.hi := by
  unfold IntervalSet.coversB at hca
  rcases List.any_eq_true.mp hca with ⟨i, hi, hci⟩
  rcases convexHull_spec s.ivals (List.ne_nil_of_mem hi) with ⟨h, hh, hbounds, _⟩
  have hb := hbounds i hi
  have hip := hps i hi
  unfold Iv.coversB at hci
  rw [if_pos hip] at hci
  simp only [Bool.and_eq_true, decide_eq_true_eq] at hci
  exact ⟨h, hh, by omega, by omega⟩

theorem ULt_covers {a b : IntervalSet} {x y : Nat}
    (hpa : properList a.ivals) (hpb : properList b.ivals)
    (hca : a.coversB x = true) (hcb : b.coversB y = true) :
    (ULt a b).coversB (ultVal x y) = true := by
  unfold ULt
  rcases convexHull_bounds hpa hca with ⟨ha, hha, hal, har⟩
  rcases convexHull_bounds hpb hcb with ⟨hb, hhb, hbl, hbr⟩
  rw [hha, hhb]
  dsimp only
  by_cases hd : ivDisjoint ha hb = true
  · rw [if_pos hd]
    unfold ivDisjoint at hd
    simp only [Bool.or_eq_true, decide_eq_true_eq] at hd
    by_cases hlt : ivLt ha hb = true
    · rw [if_pos hlt]
      unfold ivLt at hlt
      simp only [Bool.or_eq_true, Bool.and_eq_true, decide_eq_true_eq] at hlt
      have hxy : x < y := by
        rcases hd with hd | hd
        · omega
        · rcases hlt with hlt | hlt <;> omega
      unfold ultVal
      rw [if_pos hxy]
      decide
    · rw [if_neg hlt]
      have hlt2 : (ivLt ha hb) = false := by
        rcases Bool.eq_false_or_eq_true (ivLt ha hb) with h | h
        · exact absurd h hlt
        · exact h
      unfold ivLt at hlt2
      simp only [Bool.or_eq_false_iff, Bool.and_eq_false_iff,
        decide_eq_false_iff_not] at hlt2
      have hyx : ¬(x < y) := by
        rcases hd with hd | hd
        · rcases hlt2 with ⟨h1, h2⟩
          rcases h2 with h2 | h2 <;> omega
        · omega
      unfold ultVal
      rw [if_neg hyx]
      decide
  · rw [if_neg hd]
    exact tern1_covers_lt (by unfold ultVal; split <;> omega)

theorem UGt_covers {a b : IntervalSet} {x y : Nat}
    (hpa : properList a.ivals) (hpb : properList b.ivals)
    (hca : a.coversB x = true) (hcb : b.coversB y = true) :
    (UGt a b).coversB (ugtVal x y) = true := by
  unfold UGt
  rcases convexHull_bounds hpa hca with ⟨ha, hha, hal, har⟩
  rcases convexHull_bounds hpb hcb with ⟨hb, hhb, hbl, hbr⟩
  rw [hha, hhb]
  dsimp only
  by_cases hd : ivDisjoint ha hb = true
  · rw [if_pos hd]
    unfold ivDisjoint at hd
    simp only [Bool.or_eq_true, decide_eq_true_eq] at hd
    by_cases hlt : ivLt hb ha = true
    · rw [if_pos hlt]
      unfold ivLt at hlt
      simp only [Bool.or_eq_true, Bool.and_eq_true, decide_eq_true_eq] at hlt
      have hxy : y < x := by
        rcases hd with hd | hd
        · rcases hlt with hlt | hlt <;> omega
        · omega
      unfold ugtVal
      rw [if_pos hxy]
      decide
    · rw [if_neg hlt]
      have hlt2 : (ivLt hb ha) = false := by
        rcases Bool.eq_false_or_eq_true (ivLt hb ha) with h | h
        · exact absurd h hlt
        · exact h
      unfold ivLt at hlt2
      simp only [Bool.or_eq_false_iff, Bool.and_eq_false_iff,
        decide_eq_false_iff_not] at hlt2
      have hyx : ¬(y < x) := by
        rcases hd with hd | hd
        · omega
        · rcases hlt2 with ⟨h1, h2⟩
          rcases h2 with h2 | h2 <;> omega
      unfold ugtVal
      rw [if_neg hyx]
      decide
  · rw [if_neg hd]
    exact tern1_covers_lt (by unfold ugtVal; split <;> omega)

theorem Eq_covers {a b : IntervalSet} {x y : Nat} (hw : b.width = a.width)
    (hpa : properList a.ivals) (hpb : properList b.ivals)
    (hwa : a.wf) (hwb : b.wf)
    (hca : a.coversB x = true) (hcb : b.coversB y = true)
    (hxa : x < 2 ^ a.width) :
    (Eq a b).coversB (eqVal x y) = true := by
  unfold Eq
  by_cases hp : (a.isPrecise = true ∧ b.isPrecise = true)
  · rw [if_pos hp]
    by_cases hg : a.getPreciseValue = b.getPreciseValue
    · rw [if_pos hg]
      have hxy : x = y := by
        have h1 := precise_getValue hp.1 hca
        have h2 := precise_getValue hp.2 hcb
        rw [h1, h2] at hg
        exact Option.some.inj hg
      unfold eqVal
      rw [if_pos hxy]
      decide
    · rw [if_neg hg]
      have hxy : x ≠ y := by
        intro hc
        apply hg
        rw [precise_getValue hp.1 hca, precise_getValue hp.2 hcb, hc]
      unfold eqVal
      rw [if_neg hxy]
      decide
  · rw [if_neg hp]
    by_cases hd : IntervalSet.disjointS a b = true
    · rw [if_pos hd]
      have hxy : x ≠ y := by
        intro hc
        subst hc
        have hint := intersect_covers hpa hpb hwa hwb hw hxa hca hcb
        unfold IntervalSet.disjointS at hd
        rw [List.isEmpty_iff] at hd
        unfold IntervalSet.coversB at hint
        rw [hd] at hint
        simp at hint
      unfold eqVal
      rw [if_neg hxy]
      decide
    · rw [if_neg hd]
      exact tern1_covers_lt (by unfold eqVal; split <;> omega)

theorem not_tern1_covers {t : TV} {v : Nat} (hv : v < 2)
    (h : (ternaryToOneBitRange t).coversB v = true) :
    (Not (ternaryToOneBitRange t)).coversB (1 - v) = true := by
  have hv2 : v = 0 ∨ v = 1 := by omega
  rcases t with _ | _ | _ <;> rcases hv2 with rfl | rfl <;> revert h <;> decide

theorem Ne_covers {a b : IntervalSet} {x y : Nat} (hw : b.width = a.width)
    (hpa : properList a.ivals) (hpb : properList b.ivals)
    (hwa : a.wf) (hwb : b.wf)
    (hca : a.coversB x = true) (hcb : b.coversB y = true)
    (hxa : x < 2 ^ a.width) :
    (Ne a b).coversB (neVal x y) = true := by
  unfold Ne
  have hne : neVal x y = 1 - eqVal x y := by
    unfold neVal eqVal
    split <;> rfl
  rw [hne]
  obtain ⟨t, ht⟩ : ∃ t, Eq a b = ternaryToOneBitRange t := by
    unfold Eq
    split_ifs <;> exact ⟨_, rfl⟩
  rw [ht]
  refine not_tern1_covers (by unfold eqVal; split <;> omega) ?_
  rw [← ht]
  exact Eq_covers hw hpa hpb hwa hwb hca hcb hxa

theorem Gate_covers {cond val : IntervalSet} {c v : Nat}
    (hpc : properList cond.ivals) (hwv : val.wf)
    (hcc : cond.coversB c = true) (hcv : val.coversB v = true)
    (hv : v < 2 ^ val.width) :
    (Gate cond val).coversB (gateVal c v) = true := by
  have hvp := Nat.two_pow_pos val.width
  unfold Gate
  by_cases hp : cond.isPrecise = true
  · rw [if_pos hp]
    by_cases hz : cond.coversZero = true
    · rw [if_pos hz]
      have hc0 : c = 0 := precise_unique hp hcc hz
      unfold gateVal
      rw [if_pos hc0]
      unfold IntervalSet.precise IntervalSet.coversB
      simp only [List.any_cons, List.any_nil, Bool.or_false]
      unfold Iv.coversB
      dsimp only
      rw [if_pos (le_refl _)]
      simp
    · rw [if_neg hz]
      have hcne : c ≠ 0 := by
        intro hc
        apply hz
        unfold IntervalSet.coversZero
        rw [← hc]
        exact hcc
      unfold gateVal
      rw [if_neg hcne]
      exact hcv
  · rw [if_neg hp]
    by_cases hz : cond.coversZero = true
    · rw [if_pos hz]
      unfold IntervalSet.combine
      have hwl : wfList val.width
          (val.ivals ++ (IntervalSet.precise val.width 0).ivals) := by
        intro i hi
        rcases List.mem_append.mp hi with hh | hh
        · exact hwv i hh
        · simp [IntervalSet.precise] at hh
          rw [hh]
          exact ⟨hvp, hvp⟩
      have hgv : gateVal c v < 2 ^ val.width := by
        unfold gateVal
        split <;> omega
      rw [normalize_covers
        (s := ⟨val.width, val.ivals ++ (IntervalSet.precise val.width 0).ivals⟩)
        hwl hgv]
      unfold IntervalSet.coversB
      dsimp only
      rw [List.any_append]
      by_cases hc0 : c = 0
      · have : gateVal c v = 0 := by
          unfold gateVal
          rw [if_pos hc0]
        rw [this]
        have hz0 : ((IntervalSet.precise val.width 0).ivals.any
            (fun i => i.coversB 0)) = true := by
          simp [IntervalSet.precise, Iv.coversB]
        rw [hz0]
        simp
      · have : gateVal c v = v := by
          unfold gateVal
          rw [if_neg hc0]
        rw [this]
        unfold IntervalSet.coversB at hcv
        rw [hcv]
        simp
    · rw [if_neg hz]
      have hcne : c ≠ 0 := by
        intro hc
        apply hz
        unfold IntervalSet.coversZero
        rw [← hc]
        exact hcc
      unfold gateVal
      rw [if_neg hcne]
      exact hcv

theorem lb_fold_spec : ∀ (l : List Iv), l ≠ [] →
    ∃ m, (List.foldr (fun i acc =>
        match acc with
        | none => some i.lo
        | some m => some (min i.lo m)) none l) = some m ∧
      (∀ i ∈ l, m ≤ i.lo) ∧ ∃ j ∈ l, m = j.lo := by
  intro l
  induction l with
  | nil => intro h; exact absurd rfl h
  | cons a t ih =>
      intro _
      rcases t with _ | ⟨c, t⟩
      · exact ⟨a.lo, rfl, by simp, a, by simp, rfl⟩
      · rcases ih (by simp) with ⟨m, heq, hall, ⟨z, hz, hlo⟩⟩
        refine ⟨min a.lo m, ?_, ?_, ?_⟩
        · rw [List.foldr_cons, heq]
        · intro i hi
          rcases List.mem_cons.mp hi with hh | hh
          · rw [hh]
            exact min_le_left _ _
          · exact le_trans (min_le_right _ _) (hall i hh)
        · by_cases hcmp : a.lo ≤ m
          · exact ⟨a, by simp, min_eq_left hcmp⟩
          · refine ⟨z, List.mem_cons_of_mem _ hz, ?_⟩
            rw [min_eq_right (by omega), hlo]

theorem ub_fold_spec : ∀ (l : List Iv), l ≠ [] →
    ∃ m, (List.foldr (fun i acc =>
        match acc with
        | none => some i.hi
        | some m => some (max i.hi m)) none l) = some m ∧
      (∀ i ∈ l, i.hi ≤ m) ∧ ∃ j ∈ l, m = j.hi := by
  intro l
  induction l with
  | nil => intro h; exact absurd rfl h
  | cons a t ih =>
      intro _
      rcases t with _ | ⟨c, t⟩
      · exact ⟨a.hi, rfl, by simp, a, by simp, rfl⟩
      · rcases ih (by simp) with ⟨m, heq, hall, ⟨z, hz, hhi⟩⟩
        refine ⟨max a.hi m, ?_, ?_, ?_⟩
        · rw [List.foldr_cons, heq]
        · intro i hi
          rcases List.mem_cons.mp hi with hh | hh
          · rw [hh]
            exact le_max_left _ _
          · exact le_trans (hall i hh) (le_max_right _ _)
        · by_cases hcmp : m ≤ a.hi
          · exact ⟨a, by simp, max_eq_left hcmp⟩
          · refine ⟨z, List.mem_cons_of_mem _ hz, ?_⟩
            rw [max_eq_right (by omega), hhi]

theorem getBit_msb_false_iff {w v : Nat} (hw : 1 ≤ w) (hv : v < 2 ^ w) :
    (getBit v (w - 1) = false) ↔ v < 2 ^ (w - 1) := by
  have hp := Nat.two_pow_pos (w - 1)
  have hsplit : 2 ^ w = 2 ^ (w - 1) * 2 := by
    rw [← pow_succ]
    congr 1
    omega
  have hd2 : v / 2 ^ (w - 1) < 2 := by
    rw [Nat.div_lt_iff_lt_mul hp]
    omega
  have hdcases : v / 2 ^ (w - 1) = 0 ∨ v / 2 ^ (w - 1) = 1 := by
    rcases hq : v / 2 ^ (w - 1) with _ | ⟨_ | k⟩
    · exact Or.inl rfl
    · exact Or.inr rfl
    · rw [hq] at hd2
      omega
  unfold getBit
  rcases hdcases with hd | hd
  · rw [hd]
    constructor
    · intro _
      by_contra hc
      push_neg at hc
      have := (Nat.one_le_div_iff hp).mpr hc
      omega
    · intro _
      decide
  · rw [hd]
    constructor
    · intro hcontra
      simp at hcontra
    · intro hvlt
      have := Nat.div_eq_of_lt hvlt
      omega

theorem allPositive_lt {s : IntervalSet} {x : Nat} (hw1 : 1 ≤ s.width)
    (hps : properList s.ivals) (hwf : s.wf)
    (hap : allPositive s = true) (hca : s.coversB x = true) :
    x < 2 ^ (s.width - 1) := by
  unfold allPositive IntervalSet.lowerBound IntervalSet.upperBound at hap
  unfold IntervalSet.coversB at hca
  rcases List.any_eq_true.mp hca with ⟨i, hi, hci⟩
  have hip := hps i hi
  unfold Iv.coversB at hci
  rw [if_pos hip] at hci
  simp only [Bool.and_eq_true, decide_eq_true_eq] at hci
  rcases ub_fold_spec s.ivals (List.ne_nil_of_mem hi) with ⟨m, hm, hall, z, hz, hzhi⟩
  rcases lb_fold_spec s.ivals (List.ne_nil_of_mem hi) with ⟨m2, hm2, _, _⟩
  rw [hm, hm2] at hap
  simp only [Bool.and_eq_true, Bool.not_eq_true'] at hap
  have hmw : m < 2 ^ s.width := by
    rw [hzhi]
    exact (hwf z hz).2
  have := (getBit_msb_false_iff hw1 hmw).mp hap.2
  have hxm : x ≤ m := le_trans hci.2 (hall i hi)
  omega

theorem allNegative_ge {s : IntervalSet} {x : Nat} (hw1 : 1 ≤ s.width)
    (hps : properList s.ivals) (hwf : s.wf)
    (han : allNegative s = true) (hca : s.coversB x = true) :
    2 ^ (s.width - 1) ≤ x := by
  unfold allNegative IntervalSet.lowerBound IntervalSet.upperBound at han
  unfold IntervalSet.coversB at hca
  rcases List.any_eq_true.mp hca with ⟨i, hi, hci⟩
  have hip := hps i hi
  unfold Iv.coversB at hci
  rw [if_pos hip] at hci
  simp only [Bool.and_eq_true, decide_eq_true_eq] at hci
  rcases lb_fold_spec s.ivals (List.ne_nil_of_mem hi) with ⟨m, hm, hall, z, hz, hzlo⟩
  rcases ub_fold_spec s.ivals (List.ne_nil_of_mem hi) with ⟨m2, hm2, _, _⟩
  rw [hm, hm2] at han
  simp only [Bool.and_eq_true] at han
  have hmw : m < 2 ^ s.width := by
    rw [hzlo]
    exact (hwf z hz).1
  have hmsb : ¬(m < 2 ^ (s.width - 1)) := by
    intro hc
    have := (getBit_msb_false_iff hw1 hmw).mpr hc
    rw [this] at han
    exact absurd han.1 (by simp)
  have hxm : m ≤ x := le_trans (hall i hi) hci.1
  omega

theorem bias_eq {w v : Nat} (hw : 1 ≤ w) (hv : v < 2 ^ w) :
    (v + 2 ^ (w - 1)) % 2 ^ w =
      if v < 2 ^ (w - 1) then v + 2 ^ (w - 1) else v - 2 ^ (w - 1) := by
  have hsplit : 2 ^ w = 2 ^ (w - 1) * 2 := by
    rw [← pow_succ]
    congr 1
    omega
  have hp := Nat.two_pow_pos (w - 1)
  by_cases h : v < 2 ^ (w - 1)
  · rw [if_pos h, Nat.mod_eq_of_lt (by omega)]
  · rw [if_neg h, Nat.mod_eq_sub_mod (by omega), Nat.mod_eq_of_lt (by omega)]
    omega

theorem slt_bias {w x y : Nat} (hw : 1 ≤ w) (hx : x < 2 ^ w) (hy : y < 2 ^ w) :
    sltVal w x y = ultVal ((x + 2 ^ (w - 1)) % 2 ^ w) ((y + 2 ^ (w - 1)) % 2 ^ w) := by
  have hsplit : 2 ^ w = 2 ^ (w - 1) * 2 := by
    rw [← pow_succ]
    congr 1
    omega
  rw [bias_eq hw hx, bias_eq hw hy]
  unfold sltVal ultVal toSigned
  refine if_congr ?_ rfl rfl
  have hcast : (2 : Int) ^ w = ((2 ^ w : Nat) : Int) := by
    push_cast
    ring
  rw [hcast]
  split_ifs <;> omega

theorem precise_facts {w c : Nat} (hc : c < 2 ^ w) :
    (IntervalSet.precise w c).wf ∧ properList (IntervalSet.precise w c).ivals ∧
      (IntervalSet.precise w c).coversB c = true := by
  refine ⟨?_, ?_, ?_⟩
  · intro i hi
    simp [IntervalSet.precise] at hi
    rw [hi]
    exact ⟨hc, hc⟩
  · intro i hi
    simp [IntervalSet.precise] at hi
    rw [hi]
  · unfold IntervalSet.precise IntervalSet.coversB
    simp only [List.any_cons, List.any_nil, Bool.or_false]
    unfold Iv.coversB
    dsimp only
    rw [if_pos (le_refl _)]
    simp

theorem Add_wfn (a b : IntervalSet) :
    (Add a b).wf ∧ (Add a b).Normalized ∧ (Add a b).width = a.width := by
  unfold Add
  exact performBinOp_wfn _ _ _ _ _ _ (fun p q => Nat.mod_lt _ (Nat.two_pow_pos _))

theorem SLt_covers {a b : IntervalSet} {x y : Nat}
    (hw : b.width = a.width) (hw1 : 1 ≤ a.width)
    (hna : a.Normalized) (hnb : b.Normalized) (hwa : a.wf) (hwb : b.wf)
    (hca : a.coversB x = true) (hcb : b.coversB y = true)
    (hxa : x < 2 ^ a.width) (hyb : y < 2 ^ b.width) :
    (SLt a b).coversB (sltVal a.width x y) = true := by
  have hyb2 : y < 2 ^ a.width := by
    rw [hw] at hyb
    exact hyb
  have hw1b : 1 ≤ b.width := by
    rw [hw]
    exact hw1
  unfold SLt
  by_cases hcls : ((allPositive a && allPositive b) ||
      (allNegative a && allNegative b)) = true
  · rw [if_pos hcls]
    have heq : sltVal a.width x y = ultVal x y := by
      rw [Bool.or_eq_true, Bool.and_eq_true, Bool.and_eq_true] at hcls
      rcases hcls with ⟨hpa2, hpb2⟩ | ⟨hna2, hnb2⟩
      · have hx1 : x < 2 ^ (a.width - 1) := allPositive_lt hw1 hna.1 hwa hpa2 hca
        have hy1 : y < 2 ^ (b.width - 1) := allPositive_lt hw1b hnb.1 hwb hpb2 hcb
        rw [hw] at hy1
        have htx : toSigned a.width x = (x : Int) := by
          unfold toSigned
          rw [if_pos hx1]
        have hty : toSigned a.width y = (y : Int) := by
          unfold toSigned
          rw [if_pos hy1]
        unfold sltVal ultVal
        rw [htx, hty]
        refine if_congr ?_ rfl rfl
        exact Nat.cast_lt
      · have hx1 : 2 ^ (a.width - 1) ≤ x := allNegative_ge hw1 hna.1 hwa hna2 hca
        have hy1 : 2 ^ (b.width - 1) ≤ y := allNegative_ge hw1b hnb.1 hwb hnb2 hcb
        rw [hw] at hy1
        have hcast : (2 : Int) ^ a.width = ((2 ^ a.width : Nat) : Int) := by
          push_cast
          ring
        have htx : toSigned a.width x = (x : Int) - ((2 ^ a.width : Nat) : Int) := by
          unfold toSigned
          rw [if_neg (by omega), hcast]
        have hty : toSigned a.width y = (y : Int) - ((2 ^ a.width : Nat) : Int) := by
          unfold toSigned
          rw [if_neg (by omega), hcast]
        unfold sltVal ultVal
        rw [htx, hty]
        refine if_congr ?_ rfl rfl
        omega
    rw [heq]
    exact ULt_covers hna.1 hnb.1 hca hcb
  · rw [if_neg hcls]
    have hsplit : 2 ^ a.width = 2 ^ (a.width - 1) * 2 := by
      rw [← pow_succ]
      congr 1
      omega
    have hc2 : 2 ^ (a.width - 1) < 2 ^ a.width := by
      have := Nat.two_pow_pos (a.width - 1)
      omega
    rcases precise_facts (w := a.width) hc2 with ⟨hPwf, hPp, hPcov⟩
    have hadd1 := Add_covers (a := a)
      (b := IntervalSet.precise a.width (2 ^ (a.width - 1)))
      rfl hwa hPwf hca hPcov hxa hc2
    have hadd2 := Add_covers (a := b)
      (b := IntervalSet.precise a.width (2 ^ (a.width - 1)))
      hw.symm hwb hPwf hcb hPcov hyb hc2
    have hfadd1 := Add_wfn a (IntervalSet.precise a.width (2 ^ (a.width - 1)))
    have hfadd2 := Add_wfn b (IntervalSet.precise a.width (2 ^ (a.width - 1)))
    have hres := ULt_covers (a := Add a (IntervalSet.precise a.width (2 ^ (a.width - 1))))
      (b := Add b (IntervalSet.precise a.width (2 ^ (a.width - 1))))
      hfadd1.2.1.1 hfadd2.2.1.1 hadd1 hadd2
    rw [hw] at hres
    rw [slt_bias hw1 hxa hyb2]
    exact hres

theorem SGt_covers {a b : IntervalSet} {x y : Nat}
    (hw : b.width = a.width) (hw1 : 1 ≤ a.width)
    (hna : a.Normalized) (hnb : b.Normalized) (hwa : a.wf) (hwb : b.wf)
    (hca : a.coversB x = true) (hcb : b.coversB y = true)
    (hxa : x < 2 ^ a.width) (hyb : y < 2 ^ b.width) :
    (SGt a b).coversB (sgtVal a.width x y) = true := by
  have hyb2 : y < 2 ^ a.width := by
    rw [hw] at hyb
    exact hyb
  have hw1b : 1 ≤ b.width := by
    rw [hw]
    exact hw1
  have hgts : sgtVal a.width x y = sltVal a.width y x := rfl
  have hgtu : ∀ p q, ugtVal p q = ultVal q p := fun p q => rfl
  unfold SGt
  by_cases hcls : ((allPositive a && allPositive b) ||
      (allNegative a && allNegative b)) = true
  · rw [if_pos hcls]
    have heq : sltVal a.width y x = ultVal y x := by
      rw [Bool.or_eq_true, Bool.and_eq_true, Bool.and_eq_true] at hcls
      rcases hcls with ⟨hpa2, hpb2⟩ | ⟨hna2, hnb2⟩
      · have hx1 : x < 2 ^ (a.width - 1) := allPositive_lt hw1 hna.1 hwa hpa2 hca
        have hy1 : y < 2 ^ (b.width - 1) := allPositive_lt hw1b hnb.1 hwb hpb2 hcb
        rw [hw] at hy1
        have htx : toSigned a.width x = (x : Int) := by
          unfold toSigned
          rw [if_pos hx1]
        have hty : toSigned a.width y = (y : Int) := by
          unfold toSigned
          rw [if_pos hy1]
        unfold sltVal ultVal
        rw [htx, hty]
        refine if_congr ?_ rfl rfl
        exact Nat.cast_lt
      · have hx1 : 2 ^ (a.width - 1) ≤ x := allNegative_ge hw1 hna.1 hwa hna2 hca
        have hy1 : 2 ^ (b.width - 1) ≤ y := allNegative_ge hw1b hnb.1 hwb hnb2 hcb
        rw [hw] at hy1
        have hcast : (2 : Int) ^ a.width = ((2 ^ a.width : Nat) : Int) := by
          push_cast
          ring
        have htx : toSigned a.width x = (x : Int) - ((2 ^ a.width : Nat) : Int) := by
          unfold toSigned
          rw [if_neg (by omega), hcast]
        have hty : toSigned a.width y = (y : Int) - ((2 ^ a.width : Nat) : Int) := by
          unfold toSigned
          rw [if_neg (by omega), hcast]
        unfold sltVal ultVal
        rw [htx, hty]
        refine if_congr ?_ rfl rfl
        omega
    rw [hgts, heq, ← hgtu]
    exact UGt_covers hna.1 hnb.1 hca hcb
  · rw [if_neg hcls]
    have hc2 : 2 ^ (a.width - 1) < 2 ^ a.width := by
      have hsplit : 2 ^ a.width = 2 ^ (a.width - 1) * 2 := by
        rw [← pow_succ]
        congr 1
        omega
      have := Nat.two_pow_pos (a.width - 1)
      omega
    rcases precise_facts (w := a.width) hc2 with ⟨hPwf, hPp, hPcov⟩
    have hadd1 := Add_covers (a := a)
      (b := IntervalSet.precise a.width (2 ^ (a.width - 1)))
      rfl hwa hPwf hca hPcov hxa hc2
    have hadd2 := Add_covers (a := b)
      (b := IntervalSet.precise a.width (2 ^ (a.width - 1)))
      hw.symm hwb hPwf hcb hPcov hyb hc2
    have hfadd1 := Add_wfn a (IntervalSet.precise a.width (2 ^ (a.width - 1)))
    have hfadd2 := Add_wfn b (IntervalSet.precise a.width (2 ^ (a.width - 1)))
    have hres := UGt_covers (a := Add a (IntervalSet.precise a.width (2 ^ (a.width - 1))))
      (b := Add b (IntervalSet.precise a.width (2 ^ (a.width - 1))))
      hfadd1.2.1.1 hfadd2.2.1.1 hadd1 hadd2
    rw [hw] at hres
    rw [hgts, slt_bias hw1 hyb2 hxa, ← hgtu]
    exact hres

theorem forall2_oneHotGo : ∀ {t : TernVec} {bs : List Bool},
    List.Forall₂ TVm t bs → ∀ {acc : TV} {accB : Bool}, TVm acc accB →
    List.Forall₂ TVm (oneHotGo acc t).1 (oneHotGoB accB bs).1 ∧
    TVm (oneHotGo acc t).2 (oneHotGoB accB bs).2 := by
  intro t bs h
  induction h with
  | nil =>
      intro acc accB hacc
      exact ⟨List.Forall₂.nil, hacc⟩
  | cons hab htail ih =>
      intro acc accB hacc
      rcases ih (TVm_or1 hacc hab) with ⟨ih1, ih2⟩
      exact ⟨List.Forall₂.cons (TVm_and1 hab (TVm_not1 hacc)) ih1, ih2⟩

theorem forall2_TVm_append {t1 t2 : TernVec} {b1 b2 : List Bool}
    (h1 : List.Forall₂ TVm t1 b1) (h2 : List.Forall₂ TVm t2 b2) :
    List.Forall₂ TVm (t1 ++ t2) (b1 ++ b2) := by
  induction h1 with
  | nil => simpa using h2
  | cons hab htail ih => exact List.Forall₂.cons hab ih

theorem forall2_TVm_reverse {t : TernVec} {bs : List Bool}
    (h : List.Forall₂ TVm t bs) :
    List.Forall₂ TVm t.reverse bs.reverse := by
  induction h with
  | nil => exact List.Forall₂.nil
  | cons hab htail ih =>
      rw [List.reverse_cons, List.reverse_cons]
      exact forall2_TVm_append ih (List.Forall₂.cons hab List.Forall₂.nil)

theorem forall2_extract {val : IntervalSet} {x : Nat}
    (hn : val.Normalized) (hwf : val.wf) (hca : val.coversB x = true) :
    List.Forall₂ TVm (extractTernaryVector val) (natBits val.width x) := by
  have hla := extractTernaryVector_length (s := val) (covers_nonempty hca)
  have h2 := forall2_consistent_natBits _ _
    (extractTernaryVector_consistent hn hwf hca)
  rw [hla] at h2
  exact h2

theorem OneHot_lsb_covers {val : IntervalSet} {budget x : Nat}
    (hn : val.Normalized) (hwf : val.wf) (hca : val.coversB x = true) :
    (OneHot val LsbOrMsb.lsb budget).coversB (oneHotValLsb val.width x) = true := by
  unfold OneHot oneHotValLsb
  dsimp only
  have hf2 := forall2_extract hn hwf hca
  rcases @forall2_oneHotGo _ _ hf2 TV.zero false (Or.inr rfl) with
    ⟨hsc, hfin⟩
  have hout := forall2_TVm_append hsc
    (List.Forall₂.cons (TVm_not1 hfin) List.Forall₂.nil)
  refine fromTernary_covers (consistentB_forall2 _ _ hout) ?_
  have hleq := List.Forall₂.length_eq hout
  calc bitsVal ((oneHotGoB false (natBits val.width x)).1 ++
        [!(oneHotGoB false (natBits val.width x)).2])
      < 2 ^ ((oneHotGoB false (natBits val.width x)).1 ++
        [!(oneHotGoB false (natBits val.width x)).2]).length := bitsVal_lt _
    _ = 2 ^ (oneHotLsbTern (extractTernaryVector val)).length := by
        unfold oneHotLsbTern
        rw [hleq]

theorem OneHot_msb_covers {val : IntervalSet} {budget x : Nat}
    (hn : val.Normalized) (hwf : val.wf) (hca : val.coversB x = true) :
    (OneHot val LsbOrMsb.msb budget).coversB (oneHotValMsb val.width x) = true := by
  unfold OneHot oneHotValMsb
  dsimp only
  have hf2 := forall2_extract hn hwf hca
  rcases @forall2_oneHotGo _ _ (forall2_TVm_reverse hf2) TV.zero false
    (Or.inr rfl) with ⟨hsc, hfin⟩
  have hout := forall2_TVm_append (forall2_TVm_reverse hsc)
    (List.Forall₂.cons (TVm_not1 hfin) List.Forall₂.nil)
  refine fromTernary_covers (consistentB_forall2 _ _ hout) ?_
  have hleq := List.Forall₂.length_eq hout
  calc bitsVal (((oneHotGoB false (natBits val.width x).reverse).1).reverse ++
        [!(oneHotGoB false (natBits val.width x).reverse).2])
      < 2 ^ (((oneHotGoB false (natBits val.width x).reverse).1).reverse ++
        [!(oneHotGoB false (natBits val.width x).reverse).2]).length := bitsVal_lt _
    _ = 2 ^ (oneHotMsbTern (extractTernaryVector val)).length := by
        unfold oneHotMsbTern
        rw [hleq]

/-! ## The transfer functions as one family -/

/-- One abstract-transfer invocation: the operation together with its
input interval sets and parameters. -/
inductive Op
  | add (a b : IntervalSet)
  | sub (a b : IntervalSet)
  | neg (a : IntervalSet)
  | umul (a b : IntervalSet) (W : Nat)
  | udiv (a b : IntervalSet)
  | signExtend (a : IntervalSet) (W : Nat)
  | zeroExtend (a : IntervalSet) (W : Nat)
  | truncate (a : IntervalSet) (W : Nat)
  | concat (sets : List IntervalSet)
  | lnot (a : IntervalSet)
  | land (a b : IntervalSet)
  | lor (a b : IntervalSet)
  | lxor (a b : IntervalSet)
  | andReduce (a : IntervalSet)
  | orReduce (a : IntervalSet)
  | xorReduce (a : IntervalSet)
  | eq (a b : IntervalSet)
  | ne (a b : IntervalSet)
  | ult (a b : IntervalSet)
  | ugt (a b : IntervalSet)
  | slt (a b : IntervalSet)
  | sgt (a b : IntervalSet)
  | gate (cond val : IntervalSet)
  | oneHot (val : IntervalSet) (side : LsbOrMsb) (budget : Nat)

/-- The operand interval sets of an invocation. -/
def Op.args : Op → List IntervalSet
  | Op.add a b => [a, b]
  | Op.sub a b => [a, b]
  | Op.neg a => [a]
  | Op.umul a b _ => [a, b]
  | Op.udiv a b => [a, b]
  | Op.signExtend a _ => [a]
  | Op.zeroExtend a _ => [a]
  | Op.truncate a _ => [a]
  | Op.concat sets => sets
  | Op.lnot a => [a]
  | Op.land a b => [a, b]
  | Op.lor a b => [a, b]
  | Op.lxor a b => [a, b]
  | Op.andReduce a => [a]
  | Op.orReduce a => [a]
  | Op.xorReduce a => [a]
  | Op.eq a b => [a, b]
  | Op.ne a b => [a, b]
  | Op.ult a b => [a, b]
  | Op.ugt a b => [a, b]
  | Op.slt a b => [a, b]
  | Op.sgt a b => [a, b]
  | Op.gate cond val => [cond, val]
  | Op.oneHot val _ _ => [val]

/-- The abstract transfer function of an invocation (interval_ops.cc). -/
def Op.abstract : Op → IntervalSet
  | Op.add a b => Add a b
  | Op.sub a b => Sub a b
  | Op.neg a => Neg a
  | Op.umul a b W => UMul a b W
  | Op.udiv a b => UDiv a b
  | Op.signExtend a W => SignExtend a W
  | Op.zeroExtend a W => ZeroExtend a W
  | Op.truncate a W => Truncate a W
  | Op.concat sets => Concat sets
  | Op.lnot a => Not a
  | Op.land a b => And a b
  | Op.lor a b => Or a b
  | Op.lxor a b => Xor a b
  | Op.andReduce a => AndReduce a
  | Op.orReduce a => OrReduce a
  | Op.xorReduce a => XorReduce a
  | Op.eq a b => Eq a b
  | Op.ne a b => Ne a b
  | Op.ult a b => ULt a b
  | Op.ugt a b => UGt a b
  | Op.slt a b => SLt a b
  | Op.sgt a b => SGt a b
  | Op.gate cond val => Gate cond val
  | Op.oneHot val side budget => OneHot val side budget

/-- The concrete (value-level) semantics of an invocation at a concrete
operand bundle (modelled from the spec's description of the IR ops). -/
def Op.concreteF : Op → List Nat → Nat
  | Op.add a _, xs =>
      match xs with
      | [x, y] => (x + y) % 2 ^ a.width
      | _ => 0
  | Op.sub a _, xs =>
      match xs with
      | [x, y] => wrapSub a.width x y
      | _ => 0
  | Op.neg a, xs =>
      match xs with
      | [x] => negBits a.width x
      | _ => 0
  | Op.umul _ _ W, xs =>
      match xs with
      | [x, y] => x * y % 2 ^ W
      | _ => 0
  | Op.udiv a _, xs =>
      match xs with
      | [x, y] => udivBits a.width x y
      | _ => 0
  | Op.signExtend a W, xs =>
      match xs with
      | [x] => signExtBits a.width W x
      | _ => 0
  | Op.zeroExtend _ _, xs =>
      match xs with
      | [x] => x
      | _ => 0
  | Op.truncate _ W, xs =>
      match xs with
      | [x] => x % 2 ^ W
      | _ => 0
  | Op.concat sets, xs => concatValW (sets.map (fun s => s.width)) xs
  | Op.lnot a, xs =>
      match xs with
      | [x] => notVal a.width x
      | _ => 0
  | Op.land a _, xs =>
      match xs with
      | [x, y] => andVal a.width x y
      | _ => 0
  | Op.lor a _, xs =>
      match xs with
      | [x, y] => orVal a.width x y
      | _ => 0
  | Op.lxor a _, xs =>
      match xs with
      | [x, y] => xorVal a.width x y
      | _ => 0
  | Op.andReduce a, xs =>
      match xs with
      | [x] => andReduceVal a.width x
      | _ => 0
  | Op.orReduce _, xs =>
      match xs with
      | [x] => orReduceVal x
      | _ => 0
  | Op.xorReduce _, xs =>
      match xs with
      | [x] => parity x
      | _ => 0
  | Op.eq _ _, xs =>
      match xs with
      | [x, y] => eqVal x y
      | _ => 0
  | Op.ne _ _, xs =>
      match xs with
      | [x, y] => neVal x y
      | _ => 0
  | Op.ult _ _, xs =>
      match xs with
      | [x, y] => ultVal x y
      | _ => 0
  | Op.ugt _ _, xs =>
      match xs with
      | [x, y] => ugtVal x y
      | _ => 0
  | Op.slt a _, xs =>
      match xs with
      | [x, y] => sltVal a.width x y
      | _ => 0
  | Op.sgt a _, xs =>
      match xs with
      | [x, y] => sgtVal a.width x y
      | _ => 0
  | Op.gate _ _, xs =>
      match xs with
      | [c, v] => gateVal c v
      | _ => 0
  | Op.oneHot val side _, xs =>
      match side, xs with
      | LsbOrMsb.lsb, [x] => oneHotValLsb val.width x
      | LsbOrMsb.msb, [x] => oneHotValMsb val.width x
      | _, _ => 0

/-- The width side conditions each operation assumes of its operands
(matching the IR verifier's typing rules). -/
def Op.pre : Op → Prop
  | Op.add a b => b.width = a.width
  | Op.sub a b => b.width = a.width
  | Op.neg _ => True
  | Op.umul _ _ _ => True
  | Op.udiv a b => b.width = a.width
  | Op.signExtend a W => a.width ≤ W
  | Op.zeroExtend a W => a.width ≤ W
  | Op.truncate _ _ => True
  | Op.concat _ => True
  | Op.lnot _ => True
  | Op.land a b => b.width = a.width
  | Op.lor a b => b.width = a.width
  | Op.lxor a b => b.width = a.width
  | Op.andReduce _ => True
  | Op.orReduce _ => True
  | Op.xorReduce _ => True
  | Op.eq a b => b.width = a.width
  | Op.ne a b => b.width = a.width
  | Op.ult _ _ => True
  | Op.ugt _ _ => True
  | Op.slt a b => b.width = a.width ∧ 1 ≤ a.width
  | Op.sgt a b => b.width = a.width ∧ 1 ≤ a.width
  | Op.gate _ _ => True
  | Op.oneHot _ _ _ => True

theorem op_soundness (op : Op) (xs : List Nat)
    (hpre : op.pre)
    (hnorm : ∀ s ∈ op.args, s.Normalized)
    (hwf : ∀ s ∈ op.args, s.wf)
    (hmem : MemAll op.args xs) :
    op.abstract.coversB (op.concreteF xs) = true := by
  cases op with
  | add a b =>
      rcases xs with _ | ⟨x, xs⟩
      · exact hmem.elim
      rcases xs with _ | ⟨y, xs⟩
      · exact hmem.2.2.elim
      rcases xs with _ | ⟨z, xs⟩
      · exact Add_covers hpre (hwf a (by simp [Op.args])) (hwf b (by simp [Op.args]))
          hmem.1 hmem.2.2.1 hmem.2.1 hmem.2.2.2.1
      · exact hmem.2.2.2.2.elim
  | sub a b =>
      rcases xs with _ | ⟨x, xs⟩
      · exact hmem.elim
      rcases xs with _ | ⟨y, xs⟩
      · exact hmem.2.2.elim
      rcases xs with _ | ⟨z, xs⟩
      · exact Sub_covers hpre (hwf a (by simp [Op.args])) (hwf b (by simp [Op.args]))
          hmem.1 hmem.2.2.1 hmem.2.1 hmem.2.2.2.1
      · exact hmem.2.2.2.2.elim
  | neg a =>
      rcases xs with _ | ⟨x, xs⟩
      · exact hmem.elim
      rcases xs with _ | ⟨y, xs⟩
      · exact Neg_covers (hwf a (by simp [Op.args])) hmem.1 hmem.2.1
      · exact hmem.2.2.elim
  | umul a b W =>
      rcases xs with _ | ⟨x, xs⟩
      · exact hmem.elim
      rcases xs with _ | ⟨y, xs⟩
      · exact hmem.2.2.elim
      rcases xs with _ | ⟨z, xs⟩
      · exact UMul_covers (hwf a (by simp [Op.args])) (hwf b (by simp [Op.args]))
          hmem.1 hmem.2.2.1 hmem.2.1 hmem.2.2.2.1
      · exact hmem.2.2.2.2.elim
  | udiv a b =>
      rcases xs with _ | ⟨x, xs⟩
      · exact hmem.elim
      rcases xs with _ | ⟨y, xs⟩
      · exact hmem.2.2.elim
      rcases xs with _ | ⟨z, xs⟩
      · exact UDiv_covers hpre (hnorm b (by simp [Op.args])).1
          (hwf a (by simp [Op.args])) (hwf b (by simp [Op.args]))
          hmem.1 hmem.2.2.1 hmem.2.1 hmem.2.2.2.1
      · exact hmem.2.2.2.2.elim
  | signExtend a W =>
      rcases xs with _ | ⟨x, xs⟩
      · exact hmem.elim
      rcases xs with _ | ⟨y, xs⟩
      · exact SignExtend_covers (hwf a (by simp [Op.args])) hpre hmem.1 hmem.2.1
      · exact hmem.2.2.elim
  | zeroExtend a W =>
      rcases xs with _ | ⟨x, xs⟩
      · exact hmem.elim
      rcases xs with _ | ⟨y, xs⟩
      · exact ZeroExtend_covers (hwf a (by simp [Op.args])) hpre hmem.1 hmem.2.1
      · exact hmem.2.2.elim
  | truncate a W =>
      rcases xs with _ | ⟨x, xs⟩
      · exact hmem.elim
      rcases xs with _ | ⟨y, xs⟩
      · exact Truncate_covers (hnorm a (by simp [Op.args]))
          (hwf a (by simp [Op.args])) hmem.1
      · exact hmem.2.2.elim
  | concat sets => exact Concat_covers hwf hmem
  | lnot a =>
      rcases xs with _ | ⟨x, xs⟩
      · exact hmem.elim
      rcases xs with _ | ⟨y, xs⟩
      · exact Not_covers (hnorm a (by simp [Op.args])) (hwf a (by simp [Op.args]))
          hmem.1 hmem.2.1
      · exact hmem.2.2.elim
  | land a b =>
      rcases xs with _ | ⟨x, xs⟩
      · exact hmem.elim
      rcases xs with _ | ⟨y, xs⟩
      · exact hmem.2.2.elim
      rcases xs with _ | ⟨z, xs⟩
      · exact And_covers hpre (hnorm a (by simp [Op.args])) (hnorm b (by simp [Op.args]))
          (hwf a (by simp [Op.args])) (hwf b (by simp [Op.args]))
          hmem.1 hmem.2.2.1 hmem.2.1 hmem.2.2.2.1
      · exact hmem.2.2.2.2.elim
  | lor a b =>
      rcases xs with _ | ⟨x, xs⟩
      · exact hmem.elim
      rcases xs with _ | ⟨y, xs⟩
      · exact hmem.2.2.elim
      rcases xs with _ | ⟨z, xs⟩
      · exact Or_covers hpre (hnorm a (by simp [Op.args])) (hnorm b (by simp [Op.args]))
          (hwf a (by simp [Op.args])) (hwf b (by simp [Op.args]))
          hmem.1 hmem.2.2.1 hmem.2.1 hmem.2.2.2.1
      · exact hmem.2.2.2.2.elim
  | lxor a b =>
      rcases xs with _ | ⟨x, xs⟩
      · exact hmem.elim
      rcases xs with _ | ⟨y, xs⟩
      · exact hmem.2.2.elim
      rcases xs with _ | ⟨z, xs⟩
      · exact Xor_covers hpre (hnorm a (by simp [Op.args])) (hnorm b (by simp [Op.args]))
          (hwf a (by simp [Op.args])) (hwf b (by simp [Op.args]))
          hmem.1 hmem.2.2.1 hmem.2.1 hmem.2.2.2.1
      · exact hmem.2.2.2.2.elim
  | andReduce a =>
      rcases xs with _ | ⟨x, xs⟩
      · exact hmem.elim
      rcases xs with _ | ⟨y, xs⟩
      · exact AndReduce_covers hmem.1 hmem.2.1
      · exact hmem.2.2.elim
  | orReduce a =>
      rcases xs with _ | ⟨x, xs⟩
      · exact hmem.elim
      rcases xs with _ | ⟨y, xs⟩
      · exact OrReduce_covers hmem.1
      · exact hmem.2.2.elim
  | xorReduce a =>
      rcases xs with _ | ⟨x, xs⟩
      · exact hmem.elim
      rcases xs with _ | ⟨y, xs⟩
      · exact XorReduce_covers hmem.1
      · exact hmem.2.2.elim
  | eq a b =>
      rcases xs with _ | ⟨x, xs⟩
      · exact hmem.elim
      rcases xs with _ | ⟨y, xs⟩
      · exact hmem.2.2.elim
      rcases xs with _ | ⟨z, xs⟩
      · exact Eq_covers hpre (hnorm a (by simp [Op.args])).1 (hnorm b (by simp [Op.args])).1
          (hwf a (by simp [Op.args])) (hwf b (by simp [Op.args]))
          hmem.1 hmem.2.2.1 hmem.2.1
      · exact hmem.2.2.2.2.elim
  | ne a b =>
      rcases xs with _ | ⟨x, xs⟩
      · exact hmem.elim
      rcases xs with _ | ⟨y, xs⟩
      · exact hmem.2.2.elim
      rcases xs with _ | ⟨z, xs⟩
      · exact Ne_covers hpre (hnorm a (by simp [Op.args])).1 (hnorm b (by simp [Op.args])).1
          (hwf a (by simp [Op.args])) (hwf b (by simp [Op.args]))
          hmem.1 hmem.2.2.1 hmem.2.1
      · exact hmem.2.2.2.2.elim
  | ult a b =>
      rcases xs with _ | ⟨x, xs⟩
      · exact hmem.elim
      rcases xs with _ | ⟨y, xs⟩
      · exact hmem.2.2.elim
      rcases xs with _ | ⟨z, xs⟩
      · exact ULt_covers (hnorm a (by simp [Op.args])).1 (hnorm b (by simp [Op.args])).1
          hmem.1 hmem.2.2.1
      · exact hmem.2.2.2.2.elim
  | ugt a b =>
      rcases xs with _ | ⟨x, xs⟩
      · exact hmem.elim
      rcases xs with _ | ⟨y, xs⟩
      · exact hmem.2.2.elim
      rcases xs with _ | ⟨z, xs⟩
      · exact UGt_covers (hnorm a (by simp [Op.args])).1 (hnorm b (by simp [Op.args])).1
          hmem.1 hmem.2.2.1
      · exact hmem.2.2.2.2.elim
  | slt a b =>
      rcases xs with _ | ⟨x, xs⟩
      · exact hmem.elim
      rcases xs with _ | ⟨y, xs⟩
      · exact hmem.2.2.elim
      rcases xs with _ | ⟨z, xs⟩
      · exact SLt_covers hpre.1 hpre.2 (hnorm a (by simp [Op.args]))
          (hnorm b (by simp [Op.args]))
          (hwf a (by simp [Op.args])) (hwf b (by simp [Op.args]))
          hmem.1 hmem.2.2.1 hmem.2.1 hmem.2.2.2.1
      · exact hmem.2.2.2.2.elim
  | sgt a b =>
      rcases xs with _ | ⟨x, xs⟩
      · exact hmem.elim
      rcases xs with _ | ⟨y, xs⟩
      · exact hmem.2.2.elim
      rcases xs with _ | ⟨z, xs⟩
      · exact SGt_covers hpre.1 hpre.2 (hnorm a (by simp [Op.args]))
          (hnorm b (by simp [Op.args]))
          (hwf a (by simp [Op.args])) (hwf b (by simp [Op.args]))
          hmem.1 hmem.2.2.1 hmem.2.1 hmem.2.2.2.1
      · exact hmem.2.2.2.2.elim
  | gate cond val =>
      rcases xs with _ | ⟨x, xs⟩
      · exact hmem.elim
      rcases xs with _ | ⟨y, xs⟩
      · exact hmem.2.2.elim
      rcases xs with _ | ⟨z, xs⟩
      · exact Gate_covers (hnorm cond (by simp [Op.args])).1 (hwf val (by simp [Op.args]))
          hmem.1 hmem.2.2.1 hmem.2.2.2.1
      · exact hmem.2.2.2.2.elim
  | oneHot val side budget =>
      rcases xs with _ | ⟨x, xs⟩
      · exact hmem.elim
      rcases xs with _ | ⟨y, xs⟩
      · rcases side with _ | _
        · exact OneHot_lsb_covers (hnorm val (by simp [Op.args]))
            (hwf val (by simp [Op.args])) hmem.1
        · exact OneHot_msb_covers (hnorm val (by simp [Op.args]))
            (hwf val (by simp [Op.args])) hmem.1
      · exact hmem.2.2.elim

/-! ## The harness on two singleton operands, in closed form -/

theorem precise_normalized (w v : Nat) : (IntervalSet.precise w v).Normalized := by
  constructor
  · intro i hi
    simp [IntervalSet.precise] at hi
    rw [hi]
  · simp [IntervalSet.precise, sepChain]

theorem maximal_normalized (w : Nat) : (IntervalSet.maximal w).Normalized := by
  constructor
  · intro i hi
    simp [IntervalSet.maximal] at hi
    rw [hi]
    exact Nat.zero_le _
  · simp [IntervalSet.maximal, sepChain]

theorem minimizeOperands_precise (i : Nat) (w1 w2 v1 v2 : Nat) :
    minimizeOperands i [IntervalSet.precise w1 v1, IntervalSet.precise w2 v2] =
      [IntervalSet.precise w1 v1, IntervalSet.precise w2 v2] := by
  unfold minimizeOperands
  unfold minimizeOperands
  rw [minimizeIntervals_id (precise_normalized w1 v1)
    (by
      rw [show (IntervalSet.precise w1 v1).ivals.length = 1 from rfl]
      split <;> omega)]
  rw [minimizeIntervals_id (precise_normalized w2 v2)
    (by
      rw [show (IntervalSet.precise w2 v2).ivals.length = 1 from rfl]
      split <;> omega)]
  rfl

theorem performBinOp_precise (cal : Nat → Nat → OverflowResult)
    (w1 w2 W v1 v2 : Nat) (t1 t2 : Tonicity) :
    performBinOp cal (IntervalSet.precise w1 v1) t1 (IntervalSet.precise w2 v2) t2 W =
      (if (cal v1 v2).of1 = false then
        minimizeIntervals (IntervalSet.normalize
          ⟨W, [⟨(cal v1 v2).result, (cal v1 v2).result⟩]⟩) 16
      else
        minimizeIntervals (IntervalSet.normalize ⟨W, [⟨0, 2 ^ W - 1⟩]⟩) 16) := by
  have hcb : cornerBounds [IntervalSet.precise w1 v1, IntervalSet.precise w2 v2]
      [t1, t2] [0, 0] = ([v1, v2], [v1, v2]) := by
    rcases t1 <;> rcases t2 <;> rfl
  have hstep : ∀ acc, harnessStep
      (fun l => match l with
        | [a, b] => cal a b
        | _ => ⟨0, false, false⟩) W
      [IntervalSet.precise w1 v1, IntervalSet.precise w2 v2] [t1, t2] acc [0, 0] =
      (if (cal v1 v2).of1 = false then
        (acc ++ [⟨(cal v1 v2).result, (cal v1 v2).result⟩], false)
       else (acc ++ [⟨0, 2 ^ W - 1⟩], true)) := by
    intro acc
    unfold harnessStep
    rw [hcb]
    dsimp only
    by_cases hof : (cal v1 v2).of1 = false
    · rw [if_pos ⟨hof, hof⟩, if_pos hof]
    · have hot : (cal v1 v2).of1 = true := by
        rcases Bool.eq_false_or_eq_true (cal v1 v2).of1 with h | h
        · exact h
        · exact absurd h hof
      rw [if_neg (fun h => hof h.1), if_pos (Or.inl ⟨hot, hot⟩), if_neg hof]
  unfold performBinOp performVariadicOp
  dsimp only
  rw [minimizeOperands_precise]
  rw [show List.map (fun s => s.ivals.length)
    [IntervalSet.precise w1 v1, IntervalSet.precise w2 v2] = [1, 1] from rfl]
  rw [show allTuples [1, 1] = [[0, 0]] from rfl]
  unfold runTuples
  dsimp only
  rw [hstep []]
  by_cases hof : (cal v1 v2).of1 = false
  · simp only [if_pos hof]
    rfl
  · simp only [if_neg hof]
    rfl

theorem add_precise_precise (w x y : Nat) (hx : x < 2 ^ w) (hy : y < 2 ^ w) :
    Add (IntervalSet.precise w x) (IntervalSet.precise w y) =
      (if x + y < 2 ^ w then IntervalSet.precise w (x + y)
       else IntervalSet.maximal w) := by
  unfold Add
  rw [performBinOp_precise]
  dsimp only [IntervalSet.precise]
  by_cases hs : x + y < 2 ^ w
  · have hd : decide ((2 : Nat) ^ w ≤ x + y) = false := decide_eq_false (by omega)
    rw [hd, if_pos rfl, if_pos hs]
    have hmod : (x + y) % 2 ^ w = x + y := Nat.mod_eq_of_lt hs
    rw [hmod]
    rw [normalize_eq_self
      (show (⟨w, [⟨x + y, x + y⟩]⟩ : IntervalSet).Normalized from
        precise_normalized w (x + y))]
    rw [minimizeIntervals_id
      (show (⟨w, [⟨x + y, x + y⟩]⟩ : IntervalSet).Normalized from
        precise_normalized w (x + y)) (by simp)]
  · have hd : decide ((2 : Nat) ^ w ≤ x + y) = true := decide_eq_true (by omega)
    rw [hd]
    rw [if_neg (by simp), if_neg hs]
    rw [normalize_eq_self
      (show (⟨w, [⟨0, 2 ^ w - 1⟩]⟩ : IntervalSet).Normalized from
        maximal_normalized w)]
    rw [minimizeIntervals_id
      (show (⟨w, [⟨0, 2 ^ w - 1⟩]⟩ : IntervalSet).Normalized from
        maximal_normalized w) (by simp)]
    rfl

/-! ## Truncate in closed form -/

theorem truncateGo_none {w W : Nat} : ∀ (l : List Iv), properList l → wfList w l →
    (∃ i ∈ l, 2 ^ W ≤ i.hi - i.lo) → truncateGo w W l = none := by
  intro l
  induction l with
  | nil =>
      intro _ _ h
      rcases h with ⟨i, hi, _⟩
      simp at hi
  | cons j rest ih =>
      intro hp hwf h
      have hWp := Nat.two_pow_pos W
      unfold truncateGo
      rcases h with ⟨i, hi, hspan⟩
      rcases List.mem_cons.mp hi with rfl | hi2
      · have hws : wrapSub w i.hi i.lo = i.hi - i.lo := by
          rw [wrapSub_eq (hwf i (by simp)).2 (hwf i (by simp)).1,
            if_pos (hp i (by simp))]
        rw [if_pos (by rw [hws]; omega)]
      · rw [ih (fun u hu => hp u (by simp [hu])) (fun u hu => hwf u (by simp [hu]))
          ⟨i, hi2, hspan⟩]
        split <;> rfl

theorem truncateGo_some {w W : Nat} : ∀ (l : List Iv), properList l → wfList w l →
    (∀ i ∈ l, i.hi - i.lo < 2 ^ W) →
    truncateGo w W l = some (l.map (fun i => ⟨i.lo % 2 ^ W, i.hi % 2 ^ W⟩)) := by
  intro l
  induction l with
  | nil =>
      intro _ _ _
      rfl
  | cons j rest ih =>
      intro hp hwf h
      have hWp := Nat.two_pow_pos W
      unfold truncateGo
      have hws : wrapSub w j.hi j.lo = j.hi - j.lo := by
        rw [wrapSub_eq (hwf j (by simp)).2 (hwf j (by simp)).1,
          if_pos (hp j (by simp))]
      rw [if_neg (by rw [hws]; have := h j (by simp); omega)]
      rw [ih (fun u hu => hp u (by simp [hu])) (fun u hu => hwf u (by simp [hu]))
        (fun u hu => h u (by simp [hu]))]
      rfl

/-! ## Concrete evaluations used by the claims -/

theorem fromTernary_uzu_eval :
    fromTernary [TV.unknown, TV.zero, TV.unknown] 1 =
      ⟨3, [⟨0, 1⟩, ⟨4, 5⟩]⟩ := by
  unfold fromTernary
  rw [if_neg (by decide), if_neg (by decide)]
  show IntervalSet.normalize ⟨3, [⟨0, 1⟩, ⟨4, 5⟩]⟩ = ⟨3, [⟨0, 1⟩, ⟨4, 5⟩]⟩
  exact normalize_eq_self (by decide)

theorem slt_s6_eval :
    SLt (IntervalSet.precise 8 255) (IntervalSet.precise 8 1) =
      IntervalSet.maximal 1 := by
  have h1 : Add (IntervalSet.precise 8 255) (IntervalSet.precise 8 128) =
      IntervalSet.maximal 8 := by
    rw [add_precise_precise 8 255 128 (by norm_num) (by norm_num),
      if_neg (by norm_num)]
  have h2 : Add (IntervalSet.precise 8 1) (IntervalSet.precise 8 128) =
      IntervalSet.precise 8 129 := by
    rw [add_precise_precise 8 1 128 (by norm_num) (by norm_num),
      if_pos (by norm_num)]
  unfold SLt
  rw [if_neg (by decide)]
  show ULt (Add (IntervalSet.precise 8 255) (IntervalSet.precise 8 128))
      (Add (IntervalSet.precise 8 1) (IntervalSet.precise 8 128)) =
    IntervalSet.maximal 1
  rw [h1, h2]
  decide

theorem minimize_s5_eval :
    minimizeIntervals ⟨8, [⟨0, 0⟩, ⟨2, 2⟩, ⟨10, 20⟩]⟩ 2 =
      (⟨8, [⟨0, 2⟩, ⟨10, 20⟩]⟩ : IntervalSet) := by
  unfold minimizeIntervals
  dsimp only
  rw [normalize_eq_self (by decide)]
  rw [if_neg (by decide), if_neg (by decide)]
  show IntervalSet.normalize ⟨8,
      (mergeLoop 1 ⟨0, 0⟩ [⟨⟨2, 2⟩, 2⟩, ⟨⟨10, 20⟩, 8⟩]).1 ::
        (mergeLoop 1 ⟨0, 0⟩ [⟨⟨2, 2⟩, 2⟩, ⟨⟨10, 20⟩, 8⟩]).2.map (fun n => n.iv)⟩ =
    (⟨8, [⟨0, 2⟩, ⟨10, 20⟩]⟩ : IntervalSet)
  unfold mergeLoop
  rw [dif_neg (by decide)]
  dsimp only
  unfold mergeLoop
  rw [dif_pos (by decide)]
  show IntervalSet.normalize ⟨8, [⟨0, 2⟩, ⟨10, 20⟩]⟩ =
    (⟨8, [⟨0, 2⟩, ⟨10, 20⟩]⟩ : IntervalSet)
  exact normalize_eq_self (by decide)

/-! ## The claims -/

/-- C1: soundness of every transfer function.  For every operation of
interval_ops.cc (Add, Sub, Neg, UMul, UDiv, SignExtend, ZeroExtend,
Truncate, Concat, Not, And, Or, Xor, the bit reductions, the
comparisons Eq/Ne/ULt/UGt/SLt/SGt, Gate and OneHot) and every concrete
operand bundle `xs` with each value lying in the corresponding
(normalized, well-formed) input interval set, the concrete result of
the operation is covered by the interval set the abstract transfer
returns. -/
theorem C1_transfer_soundness (op : Op) (xs : List Nat)
    (hpre : op.pre)
    (hnorm : ∀ s ∈ op.args, s.Normalized)
    (hwf : ∀ s ∈ op.args, s.wf)
    (hmem : MemAll op.args xs) :
    op.abstract.coversB (op.concreteF xs) = true :=
  op_soundness op xs hpre hnorm hwf hmem

/-- Witness for C1 at a concrete input: adding the 2-bit singletons
`{1}` and `{2}`. -/
theorem C1_transfer_soundness_witness :
    (Op.add (IntervalSet.precise 2 1) (IntervalSet.precise 2 2)).abstract.coversB
      ((Op.add (IntervalSet.precise 2 1)
        (IntervalSet.precise 2 2)).concreteF [1, 2]) = true :=
  C1_transfer_soundness (Op.add (IntervalSet.precise 2 1) (IntervalSet.precise 2 2))
    [1, 2] rfl
    (by
      intro s hs
      rcases List.mem_cons.mp hs with rfl | hs2
      · decide
      rcases List.mem_cons.mp hs2 with rfl | hs3
      · decide
      · simp at hs3)
    (by
      intro s hs
      rcases List.mem_cons.mp hs with rfl | hs2
      · decide
      rcases List.mem_cons.mp hs2 with rfl | hs3
      · decide
      · simp at hs3)
    ⟨by decide, by decide, by decide, by decide, trivial⟩

/-- C2 (corrected): the number of intervals `FromTernary(t, budget)`
returns is bounded by `2 ^ budget`, not by `budget` itself: each of the
up-to-`budget` unknown window positions doubles the number of
enumerated fillings. -/
theorem C2_fromTernary_budget (t : TernVec) (b : Nat) :
    (fromTernary t b).ivals.length ≤ 2 ^ b :=
  fromTernary_count t b

/-- Counterexample to C2 as stated: the ternary vector `u0u` with
budget 1 yields the two intervals `{[0,1], [4,5]}`, more than 1. -/
theorem C2_fromTernary_budget_counterexample :
    ¬((fromTernary [TV.unknown, TV.zero, TV.unknown] 1).ivals.length ≤ 1) := by
  rw [fromTernary_uzu_eval]
  decide

/-- C3 (corrected): `Add` on two singleton sets is exact only when the
true sum does not wrap: in that case the result is the singleton of
`x + y`; when the sum overflows, both corner computations overflow and
the harness returns `Maximal(w)` instead of the precise wrapped sum. -/
theorem C3_add_singletons (w x y : Nat) (hx : x < 2 ^ w) (hy : y < 2 ^ w) :
    Add (IntervalSet.precise w x) (IntervalSet.precise w y) =
      (if x + y < 2 ^ w then IntervalSet.precise w (x + y)
       else IntervalSet.maximal w) :=
  add_precise_precise w x y hx hy

/-- Witness for C3 at a concrete input: `{1} + {1}` at width 2 is the
singleton `{2}`. -/
theorem C3_add_singletons_witness :
    Add (IntervalSet.precise 2 1) (IntervalSet.precise 2 1) =
      (if 1 + 1 < 2 ^ 2 then IntervalSet.precise 2 (1 + 1)
       else IntervalSet.maximal 2) :=
  C3_add_singletons 2 1 1 (by decide) (by decide)

/-- Counterexample to C3 as stated: at width 1, `{1} + {1}` is
`Maximal(1)`, not the precise set `{(1+1) mod 2} = {0}`. -/
theorem C3_add_singletons_counterexample :
    Add (IntervalSet.precise 1 1) (IntervalSet.precise 1 1) ≠
      IntervalSet.precise 1 ((1 + 1) % 2 ^ 1) := by
  rw [add_precise_precise 1 1 1 (by decide) (by decide), if_neg (by decide)]
  decide

/-- C4 (corrected): scenario S6 does take the signed-bias path, but
`Add({0xFF}, {0x80})` overflows on both corners and returns
`Maximal(8)`, so the unsigned comparison of the biased hulls is
undecided and `SLt(Precise(0xFF₈), Precise(0x01₈))` is `Maximal(1)` —
which still covers the true answer 1 — rather than `Precise(1₁)`. -/
theorem C4_slt_s6 :
    SLt (IntervalSet.precise 8 255) (IntervalSet.precise 8 1) =
      IntervalSet.maximal 1 ∧
    (SLt (IntervalSet.precise 8 255) (IntervalSet.precise 8 1)).coversB
      (sltVal 8 255 1) = true := by
  refine ⟨slt_s6_eval, ?_⟩
  rw [slt_s6_eval]
  decide

/-- Counterexample to C4 as stated: the result is not `Precise(1₁)`. -/
theorem C4_slt_s6_counterexample :
    SLt (IntervalSet.precise 8 255) (IntervalSet.precise 8 1) ≠
      IntervalSet.precise 1 1 := by
  rw [slt_s6_eval]
  decide

/-- C5: division-by-zero handling of `UDiv`.  If the divisor set is
exactly `{0}`, the result is `Precise(2^w − 1)`; and whenever the
divisor covers zero, the result is the normalized union (`combine`) of
the ordinary division transfer applied to the divisor intersected with
`NonZero` (empty when that intersection is empty) with the single
divide-by-zero value `2^w − 1`. -/
theorem C5_udiv_zero (a b : IntervalSet) :
    (b.ivals = [⟨0, 0⟩] →
      UDiv a b = IntervalSet.precise a.width (2 ^ a.width - 1)) ∧
    (b.coversZero = true →
      UDiv a b =
        IntervalSet.combine
          (if (IntervalSet.intersect b (IntervalSet.nonZero b.width)).ivals.isEmpty then
            IntervalSet.empty a.width
           else
            performBinOp (fun x y => ⟨udivBits a.width x y, false, false⟩)
              a Tonicity.monotone
              (IntervalSet.intersect b (IntervalSet.nonZero b.width))
              Tonicity.antitone a.width)
          (IntervalSet.precise a.width (2 ^ a.width - 1))) := by
  constructor
  · intro hb
    have hczt : ¬(b.coversZero = false) := by
      unfold IntervalSet.coversZero IntervalSet.coversB
      rw [hb]
      decide
    unfold UDiv
    rw [if_neg hczt]
    have hint : (IntervalSet.intersect b (IntervalSet.nonZero b.width)).ivals = [] := by
      unfold IntervalSet.intersect IntervalSet.normalize
      dsimp only
      rw [hb]
      have hflat : ([(⟨0, 0⟩ : Iv)].flatMap fun i =>
          (IntervalSet.nonZero b.width).ivals.filterMap fun j => intersectIv i j) = [] := by
        simp only [IntervalSet.nonZero, List.flatMap_cons, List.flatMap_nil,
          List.filterMap_cons, List.filterMap_nil]
        rw [show intersectIv ⟨0, 0⟩ ⟨1, 2 ^ b.width - 1⟩ = none from by
          unfold intersectIv
          rw [if_neg (by simp)]]
        rfl
      rw [hflat]
      exact mergePass_id_of_sep [] List.chain'_nil
    show IntervalSet.normalize
      ⟨(if (IntervalSet.intersect b (IntervalSet.nonZero b.width)).ivals.isEmpty then
          IntervalSet.empty a.width
        else
          performBinOp (fun x y => ⟨udivBits a.width x y, false, false⟩)
            a Tonicity.monotone
            (IntervalSet.intersect b (IntervalSet.nonZero b.width))
            Tonicity.antitone a.width).width,
       (if (IntervalSet.intersect b (IntervalSet.nonZero b.width)).ivals.isEmpty then
          IntervalSet.empty a.width
        else
          performBinOp (fun x y => ⟨udivBits a.width x y, false, false⟩)
            a Tonicity.monotone
            (IntervalSet.intersect b (IntervalSet.nonZero b.width))
            Tonicity.antitone a.width).ivals ++
        [⟨2 ^ a.width - 1, 2 ^ a.width - 1⟩]⟩ = _
    rw [hint]
    show IntervalSet.normalize ⟨a.width,
      [⟨2 ^ a.width - 1, 2 ^ a.width - 1⟩]⟩ = _
    exact normalize_eq_self (precise_normalized a.width (2 ^ a.width - 1))
  · intro hcz
    have hczt : ¬(b.coversZero = false) := by
      rw [hcz]
      simp
    unfold UDiv
    rw [if_neg hczt]
    rfl

/-- Witness for C5's divisor-exactly-zero case at width 8. -/
theorem C5_udiv_zero_witness :
    UDiv (IntervalSet.precise 8 7) (IntervalSet.precise 8 0) =
      IntervalSet.precise (IntervalSet.precise 8 7).width
        (2 ^ (IntervalSet.precise 8 7).width - 1) :=
  (C5_udiv_zero (IntervalSet.precise 8 7) (IntervalSet.precise 8 0)).1 rfl

/-- C6: the `MinimizeIntervals` contract.  For a well-formed normalized
input and `k ≥ 1`: every covered value stays covered, the result has at
most `k` intervals, an input that already has at most `k` intervals is
returned unchanged (hence idempotence), and with `k = 1` the result is
the convex hull. -/
theorem C6_minimize_contract (s : IntervalSet) (k : Nat)
    (hw : s.wf) (hn : s.Normalized) (hk : 1 ≤ k) :
    (∀ v, v < 2 ^ s.width → s.coversB v = true →
      (minimizeIntervals s k).coversB v = true) ∧
    (minimizeIntervals s k).ivals.length ≤ k ∧
    (s.ivals.length ≤ k → minimizeIntervals s k = s) ∧
    (∀ hh, s.convexHull = some hh → (minimizeIntervals s 1).ivals = [hh]) ∧
    (s.convexHull = none → (minimizeIntervals s 1).ivals = []) := by
  have h1 := minimizeIntervals_one (s := s) hw
  rw [normalize_eq_self hn] at h1
  refine ⟨(minimizeIntervals_main s k hw).2.2.1,
    (minimizeIntervals_main s k hw).2.2.2 hk,
    fun hlen => minimizeIntervals_id hn hlen, ?_, ?_⟩
  · intro hh hhh
    rw [hhh] at h1
    exact h1
  · intro hnone
    rw [hnone] at h1
    exact h1

/-- Witness for C6 on a concrete two-interval set with `k = 2`. -/
theorem C6_minimize_contract_witness :
    (∀ v, v < 2 ^ (⟨4, [⟨1, 2⟩, ⟨5, 6⟩]⟩ : IntervalSet).width →
      (⟨4, [⟨1, 2⟩, ⟨5, 6⟩]⟩ : IntervalSet).coversB v = true →
      (minimizeIntervals ⟨4, [⟨1, 2⟩, ⟨5, 6⟩]⟩ 2).coversB v = true) ∧
    (minimizeIntervals ⟨4, [⟨1, 2⟩, ⟨5, 6⟩]⟩ 2).ivals.length ≤ 2 ∧
    ((⟨4, [⟨1, 2⟩, ⟨5, 6⟩]⟩ : IntervalSet).ivals.length ≤ 2 →
      minimizeIntervals ⟨4, [⟨1, 2⟩, ⟨5, 6⟩]⟩ 2 = ⟨4, [⟨1, 2⟩, ⟨5, 6⟩]⟩) ∧
    (∀ hh, (⟨4, [⟨1, 2⟩, ⟨5, 6⟩]⟩ : IntervalSet).convexHull = some hh →
      (minimizeIntervals ⟨4, [⟨1, 2⟩, ⟨5, 6⟩]⟩ 1).ivals = [hh]) ∧
    ((⟨4, [⟨1, 2⟩, ⟨5, 6⟩]⟩ : IntervalSet).convexHull = none →
      (minimizeIntervals ⟨4, [⟨1, 2⟩, ⟨5, 6⟩]⟩ 1).ivals = []) :=
  C6_minimize_contract ⟨4, [⟨1, 2⟩, ⟨5, 6⟩]⟩ 2 (by decide) (by decide) (by decide)

/-- C7: every value covered by a normalized, well-formed (hence
non-empty, since it covers the value) interval set agrees with every
known bit of the ternary vector `ExtractTernaryVector` returns. -/
theorem C7_extract_consistency (s : IntervalSet) (v : Nat)
    (hn : s.Normalized) (hw : s.wf) (hcov : s.coversB v = true) :
    consistentB (extractTernaryVector s) v = true :=
  extractTernaryVector_consistent hn hw hcov

/-- Witness for C7 on a concrete singleton-interval set. -/
theorem C7_extract_consistency_witness :
    consistentB (extractTernaryVector ⟨3, [⟨2, 3⟩]⟩) 2 = true :=
  C7_extract_consistency ⟨3, [⟨2, 3⟩]⟩ 2 (by decide) (by decide) (by decide)

/-- C8: `Truncate` returns `Maximal(w)` as soon as one interval spans
at least `2^w` values (`hi − lo ≥ 2^w`); otherwise it is the normalized
union of the per-interval truncations `[lo mod 2^w, hi mod 2^w]`
(possibly improper, split by the normalization). -/
theorem C8_truncate_behaviour (a : IntervalSet) (W : Nat)
    (hn : a.Normalized) (hwf : a.wf) :
    ((∃ i ∈ a.ivals, 2 ^ W ≤ i.hi - i.lo) →
      Truncate a W = IntervalSet.maximal W) ∧
    ((∀ i ∈ a.ivals, i.hi - i.lo < 2 ^ W) →
      Truncate a W =
        IntervalSet.normalize
          ⟨W, a.ivals.map (fun i => ⟨i.lo % 2 ^ W, i.hi % 2 ^ W⟩)⟩) := by
  constructor
  · intro h
    unfold Truncate
    rw [truncateGo_none a.ivals hn.1 hwf h]
  · intro h
    unfold Truncate
    rw [truncateGo_some a.ivals hn.1 hwf h]

/-- Witness for C8 on a concrete one-interval set at target width 1. -/
theorem C8_truncate_behaviour_witness :
    ((∃ i ∈ (⟨4, [⟨1, 2⟩]⟩ : IntervalSet).ivals, 2 ^ 1 ≤ i.hi - i.lo) →
      Truncate ⟨4, [⟨1, 2⟩]⟩ 1 = IntervalSet.maximal 1) ∧
    ((∀ i ∈ (⟨4, [⟨1, 2⟩]⟩ : IntervalSet).ivals, i.hi - i.lo < 2 ^ 1) →
      Truncate ⟨4, [⟨1, 2⟩]⟩ 1 =
        IntervalSet.normalize
          ⟨1, (⟨4, [⟨1, 2⟩]⟩ : IntervalSet).ivals.map
            (fun i => ⟨i.lo % 2 ^ 1, i.hi % 2 ^ 1⟩)⟩) :=
  C8_truncate_behaviour ⟨4, [⟨1, 2⟩]⟩ 1 (by decide) (by decide)

/-- C9: the heap/linked-list implementation of `MinimizeIntervals`,
which orders merge candidates by (gap, interval lower bound), computes
the same result as the reference greedy algorithm that orders the gaps
by (distance, position) — the lower bounds increase along the list, so
the two orders agree; in particular the S5 example
`MinimizeIntervals({[0,0],[2,2],[10,20]}, 2)` merges the smaller gap
first and returns `{[0,2],[10,20]}`. -/
theorem C9_greedy_refinement (s : IntervalSet) (k : Nat) (hw : s.wf) :
    minimizeIntervalsSpec s k = minimizeIntervals s k ∧
    minimizeIntervals ⟨8, [⟨0, 0⟩, ⟨2, 2⟩, ⟨10, 20⟩]⟩ 2 =
      (⟨8, [⟨0, 2⟩, ⟨10, 20⟩]⟩ : IntervalSet) :=
  ⟨minimizeIntervalsSpec_eq s k hw, minimize_s5_eval⟩

/-- Witness for C9 at the S5 input. -/
theorem C9_greedy_refinement_witness :
    minimizeIntervalsSpec ⟨8, [⟨0, 0⟩, ⟨2, 2⟩, ⟨10, 20⟩]⟩ 2 =
      minimizeIntervals ⟨8, [⟨0, 0⟩, ⟨2, 2⟩, ⟨10, 20⟩]⟩ 2 ∧
    minimizeIntervals ⟨8, [⟨0, 0⟩, ⟨2, 2⟩, ⟨10, 20⟩]⟩ 2 =
      (⟨8, [⟨0, 2⟩, ⟨10, 20⟩]⟩ : IntervalSet) :=
  C9_greedy_refinement ⟨8, [⟨0, 0⟩, ⟨2, 2⟩, ⟨10, 20⟩]⟩ 2 (by decide)

/-- C10: `FromTernary` over-approximates at every budget: every
concrete value obtained by filling the unknown bits of the ternary
vector with 0 or 1 is covered by the returned interval set. -/
theorem C10_fromTernary_complete (t : TernVec) (b x : Nat)
    (hx : x ∈ fillings t) :
    (fromTernary t b).coversB x = true := by
  rcases (mem_fillings t x).mp hx with ⟨hc, hlt⟩
  exact fromTernary_covers hc hlt

/-- Witness for C10: the filling 1 of `u0` is covered even at budget 0. -/
theorem C10_fromTernary_complete_witness :
    (fromTernary [TV.unknown, TV.zero] 0).coversB 1 = true :=
  C10_fromTernary_complete [TV.unknown, TV.zero] 0 1 (by decide)

end IntervalOps
